import Mathlib

/-!
Verification development for the `efi-corpus` MediaCloud corpus builder
(`src/efi_corpus/builders/mediacloud.py`).

The Python source is shallowly embedded: Python `str` values are Lean `String`
(sequences of Unicode scalar values), the character-level algorithms of the URL
canonicalizer work on `List Char`, machine-independent numbers are `Nat`/`Int`/`Rat`,
and code that can raise is embedded with `Option`/`Except`.
-/

set_option maxRecDepth 16384

namespace EfiCorpus

/-! ## Python string primitives

Models of the Python `str` operations the builder uses.  `str.lower`/`str.upper`
are modelled on the ASCII range (`Char.toLower`/`Char.toUpper`), which is the
case mapping exercised by URLs, query strings and the builder's error messages.
-/

/-- Characters stripped by Python `str.strip()`: ASCII whitespace together with
the other Unicode whitespace code points recognised by `str.isspace`. -/
def pyIsSpace (c : Char) : Bool :=
  c = ' ' || c = '\t' || c = '\n' || c = '\x0d' || c = '\x0b' || c = '\x0c' ||
  c = '\x1c' || c = '\x1d' || c = '\x1e' || c = '\x1f' || c = '\x85' || c = '\xa0' ||
  (0x2000 ≤ c.toNat && c.toNat ≤ 0x200a) || c.toNat = 0x1680 ||
  c.toNat = 0x2028 || c.toNat = 0x2029 || c.toNat = 0x202f ||
  c.toNat = 0x205f || c.toNat = 0x3000

/-- Python `str.strip()` on a character list. -/
def pyStrip (l : List Char) : List Char :=
  ((l.dropWhile pyIsSpace).reverse.dropWhile pyIsSpace).reverse

/-- Python `str.strip()` on a `String`. -/
def pyStripS (s : String) : String :=
  (pyStrip s.toList).asString

/-- Python `str.lower()` (ASCII case mapping). -/
def pyLowerS (s : String) : String :=
  (s.toList.map Char.toLower).asString

/-- Python `str.upper()` (ASCII case mapping). -/
def pyUpperS (s : String) : String :=
  (s.toList.map Char.toUpper).asString

/-- Python `sub in s` (substring containment). -/
def pyContains (s sub : String) : Bool :=
  decide (sub.toList <:+: s.toList)

/-- Python truthiness of an optional string: `None` and `""` are falsy. -/
def truthyS : Option String → Bool
  | none => false
  | some s => s ≠ ""

/-- Python `a or b` for optional strings (`None`/`""` are falsy). -/
def pyOrOptS (a b : Option String) : Option String :=
  if truthyS a then a else b

/-- Python `a or b` for lists (empty list is falsy). -/
def pyOrList (a b : List α) : List α :=
  if a.isEmpty then b else a

/-! ## Rate limiter / retry policy (C6)

`MediaCloudCorpusBuilder.discover`, lines 160-181: the `except` branch of the
pagination loop classifies the stringified error and waits before retrying the
same page (`continue` with the pagination state untouched).
-/

/-- Wait (in seconds) chosen by the `except` branch of the discovery loop,
`mediacloud.py` lines 164-181.  First match wins, exactly as the `if`/`elif`
chain does. -/
def classifyWaitSeconds (errorStr : String) : Nat :=
  if pyContains errorStr "403" then 60
  else if pyContains (pyLowerS errorStr) "timeout" ||
          pyContains (pyLowerS errorStr) "read timed out" then 30
  else if pyContains (pyLowerS errorStr) "connection" ||
          pyContains (pyLowerS errorStr) "network" then 45
  else 15

/-- A story record as far as the builder inspects it. -/
structure Story where
  url : Option String := none
  guid : Option String := none
  title : Option String := none
  publish_date : Option String := none
  language : Option String := none
  author : Option String := none
  stories_id : Option String := none
  media_id : Option String := none
  media_name : Option String := none
  media_url : Option String := none
  collection : Option String := none
  collection_id : Option String := none
deriving DecidableEq, Repr

/-- State of the pagination loop for one query (`query_stories`,
`pagination_token`, `more_stories` in `discover`). -/
structure PageLoopState where
  query_stories : List Story
  pagination_token : Option String
  more_stories : Bool
deriving DecidableEq, Repr

/-- Outcome of one `mc_api.story_list` call: a page plus the next pagination
token, or a raised exception (stringified). -/
inductive ApiResult where
  | ok (page : List Story) (token : Option String)
  | err (msg : String)
deriving DecidableEq, Repr

/-- `story.copy()` plus the collection tagging of `discover` lines 143-147. -/
def tagStory (collection_name collection_id : String) (s : Story) : Story :=
  { s with collection := some collection_name, collection_id := some collection_id }

/-- One iteration of the pagination loop of `discover` (lines 119-181), given
the outcome of the API call; returns the next loop state and the number of
seconds handed to `rate_limiter.wait_for_retry` (0 when no error occurred).
The `max_stories` cap is not modelled (no claim refers to it). -/
def pageLoopStep (collection_name collection_id : String) (resp : ApiResult)
    (st : PageLoopState) : PageLoopState × Nat :=
  match resp with
  | .ok page token =>
      if page.isEmpty then
        ({ st with more_stories := false }, 0)
      else
        ({ query_stories := st.query_stories ++ page.map (tagStory collection_name collection_id),
           pagination_token := token,
           more_stories := token.isSome }, 0)
  | .err msg => (st, classifyWaitSeconds msg)

/-! ## Builder parameters and query compilation (C8)

`BuilderParams` (`src/efi_corpus/types.py`, used by `mediacloud.py`) carries
`keywords` plus the open `extra` mapping.  The `extra` keys the builder reads
are modelled as typed optional fields with the same defaults that the Python
`.get(...)` calls use; `queries`/`keywords` model the `isinstance` guarded
values (a present non-list value behaves like an absent one and is not
modelled separately).
-/

/-- The `params.extra` keys read by `MediaCloudCorpusBuilder`. -/
structure ParamsExtra where
  /-- `extra['queries']` when it is a list of strings. -/
  queries : Option (List String) := none
  /-- `extra['keywords']` when it is a dict mapping language to keyword lists
  (association list in insertion order). -/
  keywordsMap : Option (List (String × List String)) := none
  /-- `extra.get('use_concurrent_processing', True)`. -/
  use_concurrent_processing : Bool := true
  /-- `extra.get('force_refresh_cache', False)`. -/
  force_refresh_cache : Bool := false
  /-- `extra.get('concurrent_requests', 16)`. -/
  concurrent_requests : Int := 16
  /-- `extra.get('download_delay', 0.1)` (a Python float, modelled as a rational). -/
  download_delay : Rat := 1/10
  /-- The string-valued items of the `params.extra` dict, as spread into the
  per-document metadata by `{**(params.extra or {}), **per_item_extra}`
  (line 501). -/
  extraItems : List (String × String) := []
deriving DecidableEq, Repr

/-- `BuilderParams` as used by the builder. -/
structure BuilderParams where
  date_from : String := ""
  date_to : String := ""
  keywords : List String := []
  extra : ParamsExtra := {}
deriving DecidableEq, Repr

/-- `MediaCloudCorpusBuilder._quote_term` (lines 278-289). -/
def quoteTerm (term : String) : String :=
  let t := pyStripS term
  if [" OR ", " AND ", "(", ")"].any (fun op => pyContains (pyUpperS t) op) then t
  else if (t.toList.head? = some '"' && t.toList.getLast? = some '"') ||
          (t.toList.head? = some '\'' && t.toList.getLast? = some '\'') then t
  else
    let esc := (t.toList.flatMap (fun c => if c = '"' then ['\\', '"'] else [c])).asString
    "\"" ++ esc ++ "\""

/-- `MediaCloudCorpusBuilder._compile_keywords_map_to_query` (lines 291-301). -/
def compileKeywordsMapToQuery (keywordsByLang : List (String × List String)) : String :=
  let groups := keywordsByLang.filterMap (fun p =>
    let terms := (p.2.filter (fun w => pyStripS w ≠ "")).map quoteTerm
    if terms.isEmpty then none
    else some ("(" ++ String.intercalate " OR " terms ++ ")"))
  if groups.isEmpty then ""
  else "(" ++ String.intercalate " OR " groups ++ ")"

/-- `MediaCloudCorpusBuilder._prepare_queries` (lines 253-276). -/
def prepareQueries (params : BuilderParams) : List String :=
  match params.extra.queries with
  | some qs =>
      if qs.isEmpty then prepareQueriesKeywords params
      else (qs.map pyStripS).filter (fun q => q ≠ "")
  | none => prepareQueriesKeywords params
where
  /-- The fall-through cases of `_prepare_queries` after the `queries` branch. -/
  prepareQueriesKeywords (params : BuilderParams) : List String :=
    match params.extra.keywordsMap with
    | some m =>
        if m.isEmpty then prepareQueriesFlat params
        else [compileKeywordsMapToQuery m]
    | none => prepareQueriesFlat params
  /-- The `params.keywords` case of `_prepare_queries`. -/
  prepareQueriesFlat (params : BuilderParams) : List String :=
    if params.keywords.isEmpty then []
    else
      let terms := (params.keywords.filter (fun t => pyStripS t ≠ "")).map quoteTerm
      if terms.isEmpty then []
      else ["(" ++ String.intercalate " OR " terms ++ ")"]

/-! ## Anti-chronological story sort (C9)

`discover` lines 196-206: `all_stories.sort(key=get_publish_timestamp, reverse=True)`.
`get_publish_timestamp` returns the raw `publish_date` value (a string for
MediaCloud stories — the later `_to_ymd` treats it as an ISO date string) when
it is truthy, and the `int` `0` otherwise.  CPython's `list.sort` compares the
keys with `<`; comparing a `str` key with an `int` key raises `TypeError`, and
a list containing keys of both types always performs at least one such mixed
comparison, so the sort raises exactly when both kinds of key are present.
-/

/-- The sort key produced by `get_publish_timestamp` (lines 198-204): the raw
`publish_date` string when truthy, else the integer `0`. -/
inductive PubKey where
  | str (s : String)
  | int (z : Int)
deriving DecidableEq, Repr

/-- `get_publish_timestamp(story)`. -/
def getPublishTimestamp (story : Story) : PubKey :=
  match story.publish_date with
  | some d => if d ≠ "" then .str d else .int 0
  | none => .int 0

/-- Python `<` on the two key shapes; `none` models the `TypeError` raised on a
mixed `str`/`int` comparison. -/
def pubKeyLt : PubKey → PubKey → Option Bool
  | .str a, .str b => some (decide (a < b))
  | .int a, .int b => some (decide (a < b))
  | _, _ => none

/-- Insert into a descending-sorted list, before the first entry whose key is
not greater (the stable placement `list.sort(reverse=True)` produces: equal
keys keep their original relative order). -/
def insertDescBy (key : α → PubKey) (x : α) : List α → List α
  | [] => [x]
  | y :: ys =>
      if pubKeyLt (key x) (key y) = some false then x :: y :: ys
      else y :: insertDescBy key x ys

/-- Stable descending insertion sort by key. -/
def sortDescBy (key : α → PubKey) : List α → List α
  | [] => []
  | x :: xs => insertDescBy key x (sortDescBy key xs)

/-- `all_stories.sort(key=get_publish_timestamp, reverse=True)` (line 206):
succeeds with the stable descending order when all keys are comparable, raises
`TypeError` (modelled as `.error`) when `str` and `int` keys are mixed. -/
def sortStoriesAntiChronological (stories : List Story) : Except String (List Story) :=
  if (stories.any (fun s => (getPublishTimestamp s matches PubKey.str _))) &&
     (stories.any (fun s => (getPublishTimestamp s matches PubKey.int _))) then
    .error "TypeError: < not supported between instances of int and str"
  else
    .ok (sortDescBy getPublishTimestamp stories)

/-! ## Concurrent-mode knobs and batching (C10)

`_process_concurrent` lines 599-611.
-/

/-- `min((params.extra or {}).get('concurrent_requests', 16), 1)` (line 603). -/
def effectiveConcurrentRequests (extra : ParamsExtra) : Int :=
  min extra.concurrent_requests 1

/-- `max((params.extra or {}).get('download_delay', 0.1), 5.0)` (line 604). -/
def effectiveDownloadDelay (extra : ParamsExtra) : Rat :=
  max extra.download_delay 5

/-- The batch slices `urls[batch_num*3 : batch_num*3+3]` of lines 607, 626-629
(`batch_size = 3`), in order. -/
def batchesOf3 : List α → List (List α)
  | [] => []
  | [a] => [[a]]
  | [a, b] => [[a, b]]
  | a :: b :: c :: rest => [a, b, c] :: batchesOf3 rest

/-! ## The fetch / quality-gate / write pipeline (C1-C4, C7)

`MediaCloudCorpusBuilder.run` (lines 395-465), `_process_sequential`
(lines 467-593) and `_process_concurrent` (lines 595-687).

External collaborators are oracles: `Env.fetchParse` combines `fetch_raw` +
`parse_text` for one URL (an exception anywhere in that pair is a per-item
failure caught by the `except` of the processing loop); the corpus store's
`write_document` / `append_index` are recorded as effects.  `run` is modelled
from line 440 on: the `discovered` input is the filtered discovery list
(discovery itself is network traffic, sorted-order covered by
`sortStoriesAntiChronological`), and manifest-parameter loading/override
(lines 423-438) is outside every claim.
-/

/-- A discovery item as consumed by the processing pipeline. -/
structure DiscoveryItem where
  url : String
  title : Option String := none
  published_at : Option String := none
  language : Option String := none
  authors : List String := []
  extra : List (String × String) := []
deriving DecidableEq, Repr

/-- The dict returned by `parse_text` as far as `_process_sequential` reads it
(`text`, `title`, `published_at`, `language`, `authors`; `parsed.get("authors", [])`
makes an absent `authors` key indistinguishable from `[]`). -/
structure Extracted where
  text : Option String := none
  title : Option String := none
  published_at : Option String := none
  language : Option String := none
  authors : List String := []
deriving DecidableEq, Repr

/-- The external fetch + extract collaborators for one URL; `.error` is a raised
per-item exception.  (`force_refresh` only switches the fetcher's cache and is
absorbed into the oracle.) -/
structure Env where
  fetchParse : String → Except String Extracted

/-- Python `{**a, **b}` on string dicts (association lists without duplicate
keys): keys of `a` in order with values overridden by `b`, then the new keys of
`b`. -/
def pyDictUpdate (a b : List (String × String)) : List (String × String) :=
  a.map (fun kv => (kv.1, ((b.lookup kv.1).getD kv.2))) ++
    b.filter (fun kv => ¬ a.any (fun kv2 => kv2.1 = kv.1))

/-- `discovered_by_url.get(url)`: the dict `{d.url: d for d in discovered}`
keeps the last item for each URL. -/
def dbuGet (discovered : List DiscoveryItem) (url : String) : Option DiscoveryItem :=
  (discovered.filter (fun d => d.url = url)).getLast?

/-- `len(discovered_by_url)`: the number of distinct discovered URLs. -/
def dbuLen (discovered : List DiscoveryItem) : Nat :=
  ((discovered.map (fun d => d.url)).dedup).length

/-- The `meta` dict written at lines 510-520. -/
structure Meta where
  doc_id : String
  uri : String
  title : Option String
  published_at : Option String
  language : Option String
  authors : List String
  source : String
  keywords : List String
  extra : List (String × String)
deriving DecidableEq, Repr

/-- The index record appended at lines 531-540. -/
structure IndexRec where
  id : String
  url : String
  published_at : Option String
  title : Option String
  language : Option String
  keywords : List String
  collection_id : Option String
  collection : Option String
deriving DecidableEq, Repr

/-- Result of processing one frontier item through the body of the
`_process_sequential` loop (lines 479-548). -/
inductive ItemOutcome where
  | failed (url err : String)
  | skippedText
  | skippedQuality
  | added (meta : Meta) (indexRec : IndexRec) (text : String)
deriving DecidableEq, Repr

/-- The body of the `_process_sequential` loop for one `(url, stable_id)`
frontier pair (lines 479-548), including the metadata merge of lines 498-520. -/
def processItem (env : Env) (params : BuilderParams) (source : String)
    (discovered : List DiscoveryItem) (url stable_id : String) : ItemOutcome :=
  match env.fetchParse url with
  | .error e => .failed url e
  | .ok parsed =>
      let text := parsed.text.getD ""
      if text = "" then .skippedText
      else if text.length < 400 then .skippedQuality
      else
        let di := dbuGet discovered url
        let per_item_extra := match di with | some d => d.extra | none => []
        let merged_extra := pyDictUpdate params.extra.extraItems per_item_extra
        let title := pyOrOptS parsed.title (di.bind (fun d => d.title))
        let published_at := pyOrOptS (di.bind (fun d => d.published_at)) parsed.published_at
        let language := pyOrOptS parsed.language (di.bind (fun d => d.language))
        let authors := pyOrList parsed.authors (match di with | some d => d.authors | none => [])
        let meta : Meta :=
          { doc_id := stable_id, uri := url, title := title, published_at := published_at,
            language := language, authors := authors, source := source,
            keywords := params.keywords, extra := merged_extra }
        let rec_ : IndexRec :=
          { id := stable_id, url := url, published_at := meta.published_at,
            title := meta.title, language := meta.language, keywords := params.keywords,
            collection_id := merged_extra.lookup "collection_id",
            collection := pyOrOptS (merged_extra.lookup "collection")
              (merged_extra.lookup "collection_name") }
        .added meta rec_ text

/-- Corpus-store side effects of a processing pass: the `write_document` calls
(stable_id, meta, text) and the `append_index` calls, in order. -/
structure Effects where
  writes : List (String × Meta × String) := []
  indexRecs : List IndexRec := []
deriving DecidableEq, Repr

/-- Concatenation of effect logs. -/
def Effects.append (a b : Effects) : Effects :=
  { writes := a.writes ++ b.writes, indexRecs := a.indexRecs ++ b.indexRecs }

/-- One run record of `manifest["history"]` (the fields common to both modes
plus the concurrent-only marker). -/
structure HistoryRec where
  discovered : Nat
  added : Nat
  skipped_quality : Nat
  skipped_text_extraction : Nat
  skipped_duplicate : Int
  failed : Nat
  processing_mode : Option String := none
deriving DecidableEq, Repr

/-- The manifest state the run mutates (history log and document count). -/
structure Manifest where
  history : List HistoryRec := []
  doc_count : Nat := 0
deriving DecidableEq, Repr

/-- The dict returned by `_process_sequential` (lines 584-593, minus
`total_docs`, which only echoes the external store's count). -/
structure RunResult where
  discovered : Nat
  added : Nat
  skipped_quality : Nat
  skipped_text_extraction : Nat
  skipped_duplicate : Int
  failed : Nat
  failed_details : List (String × String)
deriving DecidableEq, Repr

/-- Accumulator of the `_process_sequential` loop. -/
structure SeqAcc where
  added : Nat := 0
  skipped_quality : Nat := 0
  skipped_text_extraction : Nat := 0
  failed_urls : List (String × String) := []
  fx : Effects := {}
deriving DecidableEq, Repr

/-- Folding one item outcome into the loop accumulator. -/
def seqStep (acc : SeqAcc) : ItemOutcome → SeqAcc
  | .failed u e => { acc with failed_urls := acc.failed_urls ++ [(u, e)] }
  | .skippedText => { acc with skipped_text_extraction := acc.skipped_text_extraction + 1 }
  | .skippedQuality => { acc with skipped_quality := acc.skipped_quality + 1 }
  | .added meta rec_ text =>
      { acc with
        added := acc.added + 1,
        fx := { writes := acc.fx.writes ++ [(meta.doc_id, meta, text)],
                indexRecs := acc.fx.indexRecs ++ [rec_] } }

/-- `_process_sequential` (lines 467-593): iterate the frontier through
`processItem`, then append the run record and bump `doc_count`. -/
def processSequential (env : Env) (params : BuilderParams) (source : String)
    (discovered : List DiscoveryItem) (frontier : List (String × String))
    (manifest : Manifest) : RunResult × Effects × Manifest :=
  let acc := (frontier.map (fun p => processItem env params source discovered p.1 p.2)).foldl
    seqStep {}
  let skipped_duplicate : Int := (dbuLen discovered : Int) - (frontier.length : Int)
  let result : RunResult :=
    { discovered := dbuLen discovered, added := acc.added,
      skipped_quality := acc.skipped_quality,
      skipped_text_extraction := acc.skipped_text_extraction,
      skipped_duplicate := skipped_duplicate,
      failed := acc.failed_urls.length, failed_details := acc.failed_urls }
  let manifest' : Manifest :=
    { history := manifest.history ++
        [{ discovered := result.discovered, added := result.added,
           skipped_quality := result.skipped_quality,
           skipped_text_extraction := result.skipped_text_extraction,
           skipped_duplicate := result.skipped_duplicate, failed := result.failed }],
      doc_count := manifest.doc_count + acc.added }
  (result, acc.fx, manifest')

/-- The `total_result` counters of `_process_concurrent` (lines 618-624). -/
structure SpiderCounts where
  processed_count : Nat := 0
  added_count : Nat := 0
  failed_count : Nat := 0
  skipped_quality : Nat := 0
  skipped_text_extraction : Nat := 0
deriving DecidableEq, Repr

/-- Componentwise accumulation `total_result[key] += result.get(key, 0)`
(lines 649-650). -/
def SpiderCounts.add (a b : SpiderCounts) : SpiderCounts :=
  { processed_count := a.processed_count + b.processed_count,
    added_count := a.added_count + b.added_count,
    failed_count := a.failed_count + b.failed_count,
    skipped_quality := a.skipped_quality + b.skipped_quality,
    skipped_text_extraction := a.skipped_text_extraction + b.skipped_text_extraction }

/-- The `total_result` dict with its actual keys (lines 618-624), as consulted
by the `result[...]` subscripts of the manifest update (lines 662-677). -/
def spiderCountsAssoc (t : SpiderCounts) : List (String × Nat) :=
  [("processed_count", t.processed_count), ("added_count", t.added_count),
   ("failed_count", t.failed_count), ("skipped_quality", t.skipped_quality),
   ("skipped_text_extraction", t.skipped_text_extraction)]

/-- One URL of the (spec-modelled) spider batch: the same per-item pipeline,
with per-item error capture and per-outcome counters. -/
def spiderStep (env : Env) (params : BuilderParams) (source : String)
    (discovered : List DiscoveryItem) (sid : String → Option String)
    (st : SpiderCounts × Effects) (url : String) : SpiderCounts × Effects :=
  let outcome := match sid url with
    | some s => processItem env params source discovered url s
    | none => .failed url "stable id derivation failed"
  let c := st.1
  let c := { c with processed_count := c.processed_count + 1 }
  match outcome with
  | .failed _ _ => ({ c with failed_count := c.failed_count + 1 }, st.2)
  | .skippedText =>
      ({ c with skipped_text_extraction := c.skipped_text_extraction + 1 }, st.2)
  | .skippedQuality => ({ c with skipped_quality := c.skipped_quality + 1 }, st.2)
  | .added meta rec_ text =>
      ({ c with added_count := c.added_count + 1 },
       st.2.append { writes := [(meta.doc_id, meta, text)], indexRecs := [rec_] })

/-- Modelled from the spec: `run_scrapy_spider` lives in
`src/efi_corpus/builders/scrapy_spider.py`, which is not under `src/`.  Per
§4.5/§4.6 of the spec it runs each URL of the batch through the same
fetch/extract/quality-gate/write pipeline as the sequential path, absorbing
per-item exceptions, and reports per-batch counts.  A URL whose stable id
cannot be derived (canonicalization raising) is a per-item failure. -/
def runScrapySpiderModel (env : Env) (params : BuilderParams) (source : String)
    (discovered : List DiscoveryItem) (sid : String → Option String)
    (urls : List String) : SpiderCounts × Effects :=
  urls.foldl (spiderStep env params source discovered sid) ({}, {})

/-- What a run returns: the sequential dict, or (were it reachable) the
`total_result` dict of a completed concurrent pass (line 680 returns
`total_result`, which has the `SpiderCounts` keys, not the `RunResult` ones). -/
inductive RunRet where
  | seq (result : RunResult) (fx : Effects) (manifest : Manifest)
  | conc (result : List (String × Nat)) (fx : Effects) (manifest : Manifest)
deriving DecidableEq, Repr

/-- Run the batch loop of lines 626-657: each batch through the spider,
accumulating `total_result`; `.error` aborts with the effects already made. -/
def runBatches (spider : Nat → List String → Except String (SpiderCounts × Effects)) :
    List (List String) → Nat → (Except String SpiderCounts) × Effects
  | [], _ => (.ok {}, {})
  | b :: rest, i =>
      match spider i b with
      | .error e => (.error e, {})
      | .ok (c, fx) =>
          let (r, fx') := runBatches spider rest (i + 1)
          (match r with
           | .error e => (.error e, fx)
           | .ok total => (.ok (SpiderCounts.add c total), fx.append fx'))

/-- `_process_concurrent` (lines 595-687).  `spider` is the orchestrated batch
job (batch index, batch URLs); an `.error` anywhere inside the `try` block —
including the `KeyError` raised by `result["added"]` when the manifest record
is built (line 665), since `total_result` has no `"added"` key — lands in the
`except` of lines 682-687, which reruns the whole frontier sequentially. -/
def processConcurrent (spider : Nat → List String → Except String (SpiderCounts × Effects))
    (env : Env) (params : BuilderParams) (source : String)
    (discovered : List DiscoveryItem) (frontier : List (String × String))
    (manifest : Manifest) : RunRet :=
  let urls := frontier.map (fun p => p.1)
  let _concurrent_requests := effectiveConcurrentRequests params.extra
  let _download_delay := effectiveDownloadDelay params.extra
  let batches := batchesOf3 urls
  let fallback (fxSoFar : Effects) : RunRet :=
    let (result, fx, manifest') :=
      processSequential env params source discovered frontier manifest
    .seq result (fxSoFar.append fx) manifest'
  match runBatches spider batches 0 with
  | (.error _, fxSpider) => fallback fxSpider
  | (.ok totals, fxSpider) =>
      match (spiderCountsAssoc totals).lookup "added",
            (spiderCountsAssoc totals).lookup "failed" with
      | some addedN, some failedN =>
          -- dead code in the source: `total_result` never carries these keys
          let manifest' : Manifest :=
            { history := manifest.history ++
                [{ discovered := dbuLen discovered, added := addedN,
                   skipped_quality := totals.skipped_quality,
                   skipped_text_extraction := totals.skipped_text_extraction,
                   skipped_duplicate := (dbuLen discovered : Int) - (frontier.length : Int),
                   failed := failedN, processing_mode := some "concurrent" }],
              doc_count := manifest.doc_count + addedN }
          .conc (spiderCountsAssoc totals) fxSpider manifest'
      | _, _ => fallback fxSpider

/-- The faithful instantiation of the batch job: every batch runs the
(spec-modelled) spider, no orchestration-level exception of its own. -/
def spiderOk (env : Env) (params : BuilderParams) (source : String)
    (discovered : List DiscoveryItem) (sid : String → Option String) :
    Nat → List String → Except String (SpiderCounts × Effects) :=
  fun _ urls => .ok (runScrapySpiderModel env params source discovered sid urls)

/-- The `(url, stable_id)` pairs of line 453: `[(d.url, sid(d.url)) for d in
discovered]`; `none` when `sid` (i.e. `canonicalize`) raises on some URL,
which aborts `run` itself. -/
def sidPairs (sid : String → Option String) : List DiscoveryItem →
    Option (List (String × String))
  | [] => some []
  | d :: ds =>
      match sid d.url with
      | none => none
      | some s => (sidPairs sid ds).map (fun rest => (d.url, s) :: rest)

/-- `run` from line 440 on (discovery and filtering already folded into
`discovered`): build `discovered_by_url`, compute the stable-id pairs and the
frontier (lines 447-454), and dispatch on `use_concurrent_processing`
(lines 456-465).  `sid` is `lambda u: sha1(canonicalize(u)).hexdigest()`
(lines 450-451). -/
def runCore (sid : String → Option String) (env : Env) (params : BuilderParams)
    (source : String) (hasDoc : String → Bool) (discovered : List DiscoveryItem)
    (manifest : Manifest) : Option RunRet :=
  match sidPairs sid discovered with
  | none => none
  | some pairs =>
      let frontier := pairs.filter (fun p => ¬ hasDoc p.2)
      if params.extra.use_concurrent_processing then
        some (processConcurrent (spiderOk env params source discovered sid)
          env params source discovered frontier manifest)
      else
        let (result, fx, manifest') :=
          processSequential env params source discovered frontier manifest
        some (.seq result fx manifest')

/-- The frontier of line 454. -/
def frontierOf (sid : String → Option String) (hasDoc : String → Bool)
    (discovered : List DiscoveryItem) : Option (List (String × String)) :=
  (sidPairs sid discovered).map (fun pairs => pairs.filter (fun p => ¬ hasDoc p.2))

/-! ## The URL canonicalizer (C5)

`run.canonicalize` (lines 406-421) together with the parts of CPython
`urllib.parse` it exercises (`urlparse`, `parse_qsl`, `urlencode`,
`urlunparse`), modelled character-by-character on `List Char`.  Percent
coding follows `quote_plus`/`unquote` including their UTF-8 byte level.
Omitted CPython validations: `_check_bracketed_host` (rejects non-IPv6
bracketed hosts on 3.11+) and the NFKC check of `_checknetloc` — both only
raise on inputs no theorem below relies on.
-/

/-- The leading-junk strip of CPython `urlsplit`:
`url.lstrip(_WHATWG_C0_CONTROL_OR_SPACE)` (code points `0x00`-`0x20`). -/
def lstripC0 (l : List Char) : List Char :=
  l.dropWhile (fun c => c.toNat ≤ 0x20)

/-- The tab/CR/LF removal CPython `urlsplit` applies to the whole URL
(`_UNSAFE_URL_BYTES_TO_REMOVE`). -/
def removeUnsafeBytes (l : List Char) : List Char :=
  l.filter (fun c => ¬ (c = '\t' ∨ c = '\x0d' ∨ c = '\n'))

/-- Split at the first occurrence of `c`: `some (before, after)` with
`c ∉ before`, or `none` when `c` does not occur. -/
def splitOnFirst (c : Char) : List Char → Option (List Char × List Char)
  | [] => none
  | x :: xs =>
      if x = c then some ([], xs)
      else (splitOnFirst c xs).map (fun p => (x :: p.1, p.2))

/-- Split at the last occurrence of `c`. -/
def splitOnLast (c : Char) (l : List Char) : Option (List Char × List Char) :=
  match splitOnFirst c l.reverse with
  | none => none
  | some (rsuf, rpre) => some (rpre.reverse, rsuf.reverse)

/-- CPython `scheme_chars`. -/
def isSchemeChar (c : Char) : Bool :=
  c.isAlpha || c.isDigit || c = '+' || c = '-' || c = '.'

/-- The scheme detection of CPython `urlsplit`: the text before the first `:`
is taken (lowercased) as the scheme when it is non-empty, starts with an ASCII
letter and consists of scheme characters. -/
def splitScheme (url : List Char) : List Char × List Char :=
  match splitOnFirst ':' url with
  | none => ([], url)
  | some (pre, post) =>
      if pre.isEmpty then ([], url)
      else if (pre.head?.getD ' ').isAlpha && pre.all isSchemeChar then
        (pre.map Char.toLower, post)
      else ([], url)

/-- Delimiters ending the netloc. -/
def netlocDelim (c : Char) : Bool := c = '/' || c = '?' || c = '#'

/-- CPython `_splitnetloc(url, 2)`: the text after `//` up to the first
`/`, `?` or `#`. -/
def splitNetloc (url : List Char) : List Char × List Char :=
  ((url.drop 2).takeWhile (fun c => ¬ netlocDelim c),
   (url.drop 2).dropWhile (fun c => ¬ netlocDelim c))

/-- CPython `_splitparams`: cut the last path segment at its first `;`
(called only when `;` occurs in the path). -/
def splitParamsPath (path : List Char) : List Char :=
  match splitOnLast '/' path with
  | some (pre, lastSeg) =>
      if lastSeg.contains ';' then pre ++ '/' :: lastSeg.takeWhile (fun c => c ≠ ';')
      else path
  | none =>
      if path.contains ';' then path.takeWhile (fun c => c ≠ ';') else path

/-- The last `/`-separated segment of a path (the segment `_splitparams`
inspects), used to state when `splitParamsPath` leaves a path unchanged. -/
def lastSeg (x : List Char) : List Char :=
  match splitOnLast '/' x with
  | some p => p.2
  | none => x

/-- CPython `uses_params`: schemes whose paths get a params split in
`urlparse`. -/
def usesParams : List (List Char) :=
  ["", "ftp", "hdl", "prospero", "http", "imap", "https", "shttp", "rtsp",
   "rtsps", "rtspu", "sip", "sips", "mms", "sftp", "tel"].map String.toList

/-- CPython `uses_netloc`: schemes for which `urlunsplit` re-adds `//`. -/
def usesNetloc : List (List Char) :=
  ["", "ftp", "http", "gopher", "nntp", "telnet", "imap", "wais", "file",
   "mms", "https", "shttp", "snews", "prospero", "rtsp", "rtsps", "rtspu",
   "rsync", "svn", "svn+ssh", "sftp", "nfs", "git", "git+ssh", "ws",
   "wss"].map String.toList

/-- The `.lower()` of the `hostname` property: an IPv6 zone id (after `%`)
is kept verbatim, only the part before it is lowercased. -/
def lowerHostKeepZone (hostname : List Char) : List Char :=
  match splitOnFirst '%' hostname with
  | some p => p.1.map Char.toLower ++ '%' :: p.2
  | none => hostname.map Char.toLower

/-- CPython `SplitResult._hostinfo` + `.hostname`: strip userinfo (after the
last `@`), handle a bracketed IPv6 host, strip the port, lowercase (keeping a
`%`-zone id); the empty hostname (`None` in Python) comes back as `""` through
`(p.hostname or "")`. -/
def hostnameOf (netloc : List Char) : List Char :=
  let hostinfo := match splitOnLast '@' netloc with
    | some p => p.2
    | none => netloc
  match splitOnFirst '[' hostinfo with
  | some p => lowerHostKeepZone (p.2.takeWhile (fun c => c ≠ ']'))
  | none => lowerHostKeepZone (hostinfo.takeWhile (fun c => c ≠ ':'))

/-- The result of CPython `urlparse` as far as `canonicalize` reads it. -/
structure ParsedUrl where
  scheme : List Char
  netloc : List Char
  path : List Char
  query : List Char
deriving DecidableEq, Repr

/-- CPython `urlparse(url)` restricted to the components `canonicalize` uses
(params already split off the path); `none` models the `ValueError` raised for
unbalanced brackets in the netloc. -/
def urlparseModel (url0 : List Char) : Option ParsedUrl :=
  let url1 := removeUnsafeBytes (lstripC0 url0)
  let (scheme, rest) := splitScheme url1
  let (netloc, rest2) :=
    if rest.take 2 = ['/', '/'] then splitNetloc rest else ([], rest)
  if (netloc.contains '[' && !(netloc.contains ']')) ||
     (netloc.contains ']' && !(netloc.contains '[')) then none
  else
    let rest3 := match splitOnFirst '#' rest2 with
      | some p => p.1
      | none => rest2
    let (path0, query) := match splitOnFirst '?' rest3 with
      | some p => p
      | none => (rest3, [])
    let path :=
      if decide (scheme ∈ usesParams) && path0.contains ';' then splitParamsPath path0
      else path0
    some { scheme := scheme, netloc := netloc, path := path, query := query }

/-! ### Percent coding (`quote_plus` / `unquote`) over UTF-8 -/

/-- UTF-8 encoding of one Unicode scalar value. -/
def utf8EncodeChar (c : Char) : List Nat :=
  let n := c.toNat
  if n < 0x80 then [n]
  else if n < 0x800 then [0xC0 + n / 64, 0x80 + n % 64]
  else if n < 0x10000 then [0xE0 + n / 4096, 0x80 + n / 64 % 64, 0x80 + n % 64]
  else [0xF0 + n / 262144, 0x80 + n / 4096 % 64, 0x80 + n / 64 % 64, 0x80 + n % 64]

/-- UTF-8 encoding of a string. -/
def utf8Encode (l : List Char) : List Nat := l.flatMap utf8EncodeChar

/-- U+FFFD. -/
def replacementChar : Char := Char.ofNat 0xFFFD

/-- Continuation byte test. -/
def isCont (b : Nat) : Bool := 0x80 ≤ b && b ≤ 0xBF

/-- May `b` follow the pending prefix `pending` of a UTF-8 sequence?
(The table of admissible continuation ranges; `E0`/`ED`/`F0`/`F4` restrict the
first continuation byte, exactly as a strict UTF-8 decoder does.) -/
def contOk (pending : List Nat) (b : Nat) : Bool :=
  match pending with
  | [p0] =>
      if p0 = 0xE0 then 0xA0 ≤ b && b ≤ 0xBF
      else if p0 = 0xED then 0x80 ≤ b && b ≤ 0x9F
      else if p0 = 0xF0 then 0x90 ≤ b && b ≤ 0xBF
      else if p0 = 0xF4 then 0x80 ≤ b && b ≤ 0x8F
      else isCont b
  | _ => isCont b

/-- Total length of the UTF-8 sequence led by `b0`. -/
def seqLen (b0 : Nat) : Nat := if b0 ≤ 0xDF then 2 else if b0 ≤ 0xEF then 3 else 4

/-- Scalar value of a complete UTF-8 sequence. -/
def combineChar : List Nat → Char
  | [b0, b1] => Char.ofNat ((b0 - 0xC0) * 64 + (b1 - 0x80))
  | [b0, b1, b2] => Char.ofNat ((b0 - 0xE0) * 4096 + (b1 - 0x80) * 64 + (b2 - 0x80))
  | [b0, b1, b2, b3] =>
      Char.ofNat ((b0 - 0xF0) * 262144 + (b1 - 0x80) * 4096 + (b2 - 0x80) * 64 + (b3 - 0x80))
  | _ => replacementChar

/-- Incremental UTF-8 decoding with `errors='replace'` (one U+FFFD per maximal
subpart of an ill-formed sequence, as CPython's decoder substitutes).
`pending` holds the bytes of the current incomplete sequence. -/
def utf8DecGo (pending : List Nat) : List Nat → List Char
  | [] => if pending.isEmpty then [] else [replacementChar]
  | b :: bs =>
    if pending.isEmpty then
      if b < 0x80 then Char.ofNat b :: utf8DecGo [] bs
      else if 0xC2 ≤ b && b ≤ 0xF4 then utf8DecGo [b] bs
      else replacementChar :: utf8DecGo [] bs
    else
      if contOk pending b then
        if pending.length + 1 = seqLen (pending.headD 0) then
          combineChar (pending ++ [b]) :: utf8DecGo [] bs
        else utf8DecGo (pending ++ [b]) bs
      else
        replacementChar ::
          (if b < 0x80 then Char.ofNat b :: utf8DecGo [] bs
           else if 0xC2 ≤ b && b ≤ 0xF4 then utf8DecGo [b] bs
           else replacementChar :: utf8DecGo [] bs)

/-- UTF-8 decoding of a byte string with `errors='replace'`. -/
def utf8DecodeReplace (bs : List Nat) : List Char := utf8DecGo [] bs

/-- Uppercase hexadecimal digit. -/
def hexDigit (n : Nat) : Char := "0123456789ABCDEF".toList.getD n '0'

/-- ASCII hex digit test (either case), as `unquote` accepts. -/
def isHexDigitChar (c : Char) : Bool :=
  c.isDigit || ('A' ≤ c && c ≤ 'F') || ('a' ≤ c && c ≤ 'f')

/-- Value of a hex digit. -/
def hexVal (c : Char) : Nat :=
  if c.isDigit then c.toNat - 48
  else if 'a' ≤ c then c.toNat - 87
  else c.toNat - 55

/-- Characters `quote` never escapes (`_ALWAYS_SAFE`, with the default empty
`safe` of `quote_plus`). -/
def alwaysSafe (c : Char) : Bool :=
  c.isAlpha || c.isDigit || c = '_' || c = '.' || c = '-' || c = '~'

/-- One byte of `quote_plus` output: space becomes `+`, safe ASCII bytes stay,
everything else is `%XX`. -/
def quoteByte (b : Nat) : List Char :=
  if b = 32 then ['+']
  else if b < 0x80 && alwaysSafe (Char.ofNat b) then [Char.ofNat b]
  else ['%', hexDigit (b / 16), hexDigit (b % 16)]

/-- CPython `quote_plus(s, safe='')`. -/
def quotePlus (s : List Char) : List Char := (utf8Encode s).flatMap quoteByte

/-- Scanner state of the `unquote` scan: plain, just after `%`, or after `%`
and one hex digit. -/
inductive PState where
  | norm
  | pct
  | pctHex (a : Char)
deriving DecidableEq, Repr

/-- The literal bytes a dangling scanner state contributes (an unfinished `%`
escape stays literal). -/
def stBytes : PState → List Nat
  | .norm => []
  | .pct => [37]
  | .pctHex a => [37, a.toNat]

/-- The scan of CPython `unquote(s, 'utf-8', 'replace')`: each maximal ASCII
run is turned into a byte buffer (a literal ASCII character contributes its
code, a valid `%XX` escape contributes the byte, a `%` not followed by two hex
digits stays literal) which is UTF-8 decoded in one piece; non-ASCII
characters pass through verbatim.  `acc` holds the bytes of the current run in
reverse. -/
def pyUnquoteGo (acc : List Nat) (st : PState) : List Char → List Char
  | [] => utf8DecodeReplace (acc.reverse ++ stBytes st)
  | c :: cs =>
    if c.toNat ≥ 0x80 then
      utf8DecodeReplace (acc.reverse ++ stBytes st) ++ c :: pyUnquoteGo [] .norm cs
    else
      match st with
      | .norm =>
          if c = '%' then pyUnquoteGo acc .pct cs
          else pyUnquoteGo (c.toNat :: acc) .norm cs
      | .pct =>
          if isHexDigitChar c then pyUnquoteGo acc (.pctHex c) cs
          else if c = '%' then pyUnquoteGo (37 :: acc) .pct cs
          else pyUnquoteGo (c.toNat :: 37 :: acc) .norm cs
      | .pctHex a =>
          if isHexDigitChar c then pyUnquoteGo ((hexVal a * 16 + hexVal c) :: acc) .norm cs
          else if c = '%' then pyUnquoteGo (a.toNat :: 37 :: acc) .pct cs
          else pyUnquoteGo (c.toNat :: a.toNat :: 37 :: acc) .norm cs

/-- CPython `unquote(s, 'utf-8', 'replace')`. -/
def pyUnquote (l : List Char) : List Char :=
  pyUnquoteGo [] .norm l

/-- Python `s.replace('+', ' ')`. -/
def plusToSpace (l : List Char) : List Char :=
  l.map (fun c => if c = '+' then ' ' else c)

/-- `unquote_plus` applied to one name or value, as `parse_qsl` does:
`'+' -> ' '` then `unquote`. -/
def unquotePlusPart (l : List Char) : List Char :=
  pyUnquote (plusToSpace l)

/-- Python `s.split(sep)` for a single-character separator (`''.split` gives
`['']`). -/
def splitSep (c : Char) : List Char → List (List Char)
  | [] => [[]]
  | x :: xs =>
      if x = c then [] :: splitSep c xs
      else
        match splitSep c xs with
        | h :: t => (x :: h) :: t
        | [] => [[x]]

/-- CPython `parse_qsl(qs, keep_blank_values=True)`: split on `&`, skip empty
chunks, split each chunk at the first `=` (a chunk without `=` keeps a blank
value), `unquote_plus` names and values. -/
def parseQsl (qs : List Char) : List (List Char × List Char) :=
  if qs.isEmpty then []
  else (splitSep '&' qs).filterMap (fun nv =>
    if nv.isEmpty then none
    else
      match splitOnFirst '=' nv with
      | some p => some (unquotePlusPart p.1, unquotePlusPart p.2)
      | none => some (unquotePlusPart nv, []))

/-- CPython `urlencode(q, doseq=True)` on string pairs:
`quote_plus(k) + '=' + quote_plus(v)` joined by `&`. -/
def urlencodePairs (q : List (List Char × List Char)) : List Char :=
  List.intercalate ['&'] (q.map (fun kv => quotePlus kv.1 ++ '=' :: quotePlus kv.2))

/-- Python `str` comparison `a < b`: lexicographic on code points. -/
def strLt : List Char → List Char → Bool
  | [], [] => false
  | [], _ :: _ => true
  | _ :: _, [] => false
  | x :: xs, y :: ys => x < y || (x = y && strLt xs ys)

/-- Python tuple comparison `(k1, v1) < (k2, v2)` for string pairs. -/
def pairLt (a b : List Char × List Char) : Bool :=
  strLt a.1 b.1 || (a.1 = b.1 && strLt a.2 b.2)

/-- Stable insertion used by `list.sort()`: `x` goes after every element not
greater than it. -/
def insertPair (x : List Char × List Char) :
    List (List Char × List Char) → List (List Char × List Char)
  | [] => [x]
  | y :: ys => if pairLt x y then x :: y :: ys else y :: insertPair x ys

/-- `q.sort()` (line 413): stable ascending sort by the tuple order. -/
def sortPairs : List (List Char × List Char) → List (List Char × List Char)
  | [] => []
  | x :: xs => insertPair x (sortPairs xs)

/-- The tracking-parameter denylist `TRACKERS` (line 406). -/
def TRACKERS : List (List Char) :=
  ["utm_source", "utm_medium", "utm_campaign", "utm_term", "utm_content",
   "gclid", "fbclid"].map String.toList

/-- CPython 3.11 `urlunparse((scheme, netloc, path, '', query, ''))` (via
`urlunsplit`; empty params and fragment contribute nothing):
`//` + netloc is re-added when the netloc is non-empty, or when the scheme
uses a netloc and the path does not already start with `//`. -/
def urlunparseModel (scheme netloc path query : List Char) : List Char :=
  let url :=
    if ¬ netloc.isEmpty ∨
       (¬ scheme.isEmpty ∧ decide (scheme ∈ usesNetloc) ∧ path.take 2 ≠ ['/', '/']) then
      let url1 := if ¬ path.isEmpty ∧ path.head? ≠ some '/' then '/' :: path else path
      '/' :: '/' :: (netloc ++ url1)
    else path
  let url2 := if scheme.isEmpty then url else scheme ++ ':' :: url
  if query.isEmpty then url2 else url2 ++ '?' :: query

/-- The query pairs `canonicalize` keeps: `parse_qsl` of the parsed query with
the tracking parameters dropped, sorted (lines 412-413). -/
def canonPairs (p : ParsedUrl) : List (List Char × List Char) :=
  sortPairs ((parseQsl p.query).filter (fun kv => ¬ kv.1 ∈ TRACKERS))

/-- `canonicalize` (lines 408-421): strip, parse, filter and sort the query,
rebuild.  `none` models a raised `ValueError`. -/
def canonicalize (url : List Char) : Option (List Char) :=
  match urlparseModel (pyStrip url) with
  | none => none
  | some p =>
      some (urlunparseModel (p.scheme.map Char.toLower)
        ((hostnameOf p.netloc).map Char.toLower)
        (if p.path.isEmpty then ['/'] else p.path)
        (urlencodePairs (canonPairs p)))

/-- `canonicalize` on `String` (as `run` applies it to item URLs). -/
def canonicalizeS (url : String) : Option String :=
  (canonicalize url.toList).map List.asString

/-- The slash-confusion side condition of the amended idempotence claim: the
parsed URL has an empty hostname while the rebuilt path starts with `//`, so
re-parsing the canonical output would read the path head as a netloc. -/
def slashConfused (l : List Char) : Bool :=
  match urlparseModel (pyStrip l) with
  | some p =>
      hostnameOf p.netloc = [] &&
        (if p.path.isEmpty then ['/'] else p.path).take 2 = ['/', '/']
  | none => false

/-- `sid(u) = sha1(canonicalize(u).encode()).hexdigest()` (lines 450-451),
with the SHA-1 hex digest as an oracle `sha1hex`. -/
def sidOf (sha1hex : String → String) (u : String) : Option String :=
  (canonicalizeS u).map sha1hex

/-- `run` with the stable-id derivation of lines 450-451 plugged in. -/
def runMediaCloud (sha1hex : String → String) (env : Env) (params : BuilderParams)
    (source : String) (hasDoc : String → Bool) (discovered : List DiscoveryItem)
    (manifest : Manifest) : Option RunRet :=
  runCore (sidOf sha1hex) env params source hasDoc discovered manifest

/-! # Theorems for the claims -/

/-- **C6.**  For every discovery-call error, the wait duration is determined by
case-insensitive substring classification of the stringified error with first
match winning: an error containing "403" waits 60s, else one containing
"timeout" or "read timed out" waits 30s, else one containing "connection" or
"network" waits 45s, and every other error waits 15s, after which the same
query page is retried (the pagination state is left untouched). -/
theorem claim_C6_error_classification (e : String) (st : PageLoopState)
    (cn ci : String) :
    (pyContains e "403" = true → classifyWaitSeconds e = 60) ∧
    (pyContains e "403" = false →
      (pyContains (pyLowerS e) "timeout" || pyContains (pyLowerS e) "read timed out") = true →
      classifyWaitSeconds e = 30) ∧
    (pyContains e "403" = false →
      (pyContains (pyLowerS e) "timeout" || pyContains (pyLowerS e) "read timed out") = false →
      (pyContains (pyLowerS e) "connection" || pyContains (pyLowerS e) "network") = true →
      classifyWaitSeconds e = 45) ∧
    (pyContains e "403" = false →
      (pyContains (pyLowerS e) "timeout" || pyContains (pyLowerS e) "read timed out") = false →
      (pyContains (pyLowerS e) "connection" || pyContains (pyLowerS e) "network") = false →
      classifyWaitSeconds e = 15) ∧
    pageLoopStep cn ci (.err e) st = (st, classifyWaitSeconds e) := by
  refine ⟨fun h1 => ?_, fun h1 h2 => ?_, fun h1 h2 h3 => ?_, fun h1 h2 h3 => ?_, rfl⟩ <;>
    simp [classifyWaitSeconds, h1, *]

/-- Witness for C6 at the spec's own example: the error string
`"HTTPError 403 Forbidden"` waits 60 seconds and the pagination state is kept. -/
theorem claim_C6_witness :
    classifyWaitSeconds "HTTPError 403 Forbidden" = 60 ∧
    pageLoopStep "cn" "17" (.err "HTTPError 403 Forbidden")
      { query_stories := [], pagination_token := some "t3", more_stories := true } =
      ({ query_stories := [], pagination_token := some "t3", more_stories := true }, 60) := by
  have h := claim_C6_error_classification "HTTPError 403 Forbidden"
    { query_stories := [], pagination_token := some "t3", more_stories := true } "cn" "17"
  refine ⟨h.1 (by decide), ?_⟩
  rw [h.2.2.2.2, h.1 (by decide)]

/-- **C8, counterexample.**  The claim says a non-empty `extra['queries']` list
is used *as-is*; the code strips each entry and drops blank entries:
`[" a "]` compiles to `["a"]`, not to `[" a "]`. -/
theorem claim_C8_counterexample :
    prepareQueries { extra := { queries := some [" a "] } } = ["a"] ∧
    prepareQueries { extra := { queries := some [" a "] } } ≠ [" a "] := by
  constructor <;> decide

/-- **C8, amended.**  Query compilation follows the precedence, first match
wins: a non-empty list `extra['queries']` is used with each entry stripped of
surrounding whitespace and blank entries dropped; else a non-empty per-language
keyword mapping `extra['keywords']` compiles to a single query that ORs quoted
terms within each language group and ORs the groups; else a non-empty flat
keyword list on BuilderParams compiles to a single OR-group of quoted terms
(e.g. `["vaccine", "mandate"]` compiles to `("vaccine" OR "mandate")`);
otherwise no query is produced. -/
theorem claim_C8_query_precedence :
    (∀ p : BuilderParams, ∀ qs, p.extra.queries = some qs → qs ≠ [] →
      prepareQueries p = (qs.map pyStripS).filter (fun q => q ≠ "")) ∧
    (∀ p : BuilderParams, ∀ m, (p.extra.queries = none ∨ p.extra.queries = some []) →
      p.extra.keywordsMap = some m → m ≠ [] →
      prepareQueries p = [compileKeywordsMapToQuery m]) ∧
    (compileKeywordsMapToQuery [("en", ["covid", "vaccine"]), ("fr", ["vaccin"])] =
      "((\"covid\" OR \"vaccine\") OR (\"vaccin\"))") ∧
    (∀ p : BuilderParams, (p.extra.queries = none ∨ p.extra.queries = some []) →
      (p.extra.keywordsMap = none ∨ p.extra.keywordsMap = some []) →
      p.keywords = ["vaccine", "mandate"] →
      prepareQueries p = ["(\"vaccine\" OR \"mandate\")"]) ∧
    (∀ p : BuilderParams, (p.extra.queries = none ∨ p.extra.queries = some []) →
      (p.extra.keywordsMap = none ∨ p.extra.keywordsMap = some []) →
      p.keywords = [] → prepareQueries p = []) := by
  refine ⟨?_, ?_, by decide, ?_, ?_⟩
  · intro p qs hq hne
    simp [prepareQueries, hq, hne]
  · intro p m hq hm hne
    rcases hq with hq | hq <;>
      simp [prepareQueries, hq, prepareQueries.prepareQueriesKeywords, hm, hne]
  · intro p hq hm hk
    rcases hq with hq | hq <;> rcases hm with hm | hm <;>
      simp [prepareQueries, hq, prepareQueries.prepareQueriesKeywords, hm,
        prepareQueries.prepareQueriesFlat, hk] <;> decide
  · intro p hq hm hk
    rcases hq with hq | hq <;> rcases hm with hm | hm <;>
      simp [prepareQueries, hq, prepareQueries.prepareQueriesKeywords, hm,
        prepareQueries.prepareQueriesFlat, hk]

/-- Witness for C8 at concrete parameters: the claim's example keyword list
and a queries override. -/
theorem claim_C8_witness :
    prepareQueries { keywords := ["vaccine", "mandate"] } = ["(\"vaccine\" OR \"mandate\")"] ∧
    prepareQueries { keywords := ["x"], extra := { queries := some ["q1", ""] } } = ["q1"] := by
  constructor
  · exact claim_C8_query_precedence.2.2.2.1 { keywords := ["vaccine", "mandate"] }
      (Or.inl rfl) (Or.inl rfl) rfl
  · rw [claim_C8_query_precedence.1 { keywords := ["x"], extra := { queries := some ["q1", ""] } }
      ["q1", ""] rfl (by decide)]
    decide

/-- The batches of 3 partition the URL list. -/
theorem batchesOf3_flatten (l : List α) : (batchesOf3 l).flatten = l := by
  induction l using batchesOf3.induct <;> simp_all [batchesOf3]

/-- **C10, counterexample.**  With 4 frontier URLs the code produces the
batches `[a, b, c]` and `[d]`: the frontier is *not* partitioned into batches
of exactly 3 URLs. -/
theorem claim_C10_counterexample :
    batchesOf3 ["a", "b", "c", "d"] = [["a", "b", "c"], ["d"]] ∧
    ¬ ∀ batch ∈ batchesOf3 ["a", "b", "c", "d"], batch.length = 3 := by
  constructor <;> decide

/-- **C10, amended.**  In concurrent mode, for every configuration supplied via
`params.extra`, the effective per-batch concurrency is clamped to at most 1
request and the download delay is clamped to at least 5.0 seconds, regardless
of the configured values; the frontier is partitioned into consecutive batches
of at most 3 URLs, every batch except possibly the last holding exactly 3. -/
theorem claim_C10_concurrent_clamps (extra : ParamsExtra) (urls : List String) :
    effectiveConcurrentRequests extra ≤ 1 ∧
    5 ≤ effectiveDownloadDelay extra ∧
    (batchesOf3 urls).flatten = urls ∧
    (∀ b ∈ batchesOf3 urls, b ≠ [] ∧ b.length ≤ 3) ∧
    (∀ b ∈ (batchesOf3 urls).dropLast, b.length = 3) := by
  refine ⟨min_le_right _ _, le_max_right _ _, batchesOf3_flatten urls, ?_, ?_⟩
  · induction urls using batchesOf3.induct <;> simp_all [batchesOf3]
  · induction urls using batchesOf3.induct with
    | case1 => simp [batchesOf3]
    | case2 a => simp [batchesOf3]
    | case3 a b => simp [batchesOf3]
    | case4 a b c rest ih =>
        simp only [batchesOf3]
        intro x hx
        rcases rest with _ | ⟨r, rs⟩
        · simp [batchesOf3] at hx
        · rcases hB : batchesOf3 (r :: rs) with _ | ⟨B, Bs⟩
          · rcases rs with _ | ⟨r2, rs2⟩
            · simp [batchesOf3] at hB
            · rcases rs2 with _ | _ <;> simp [batchesOf3] at hB
          · rw [hB] at hx ih
            rw [List.dropLast_cons₂] at hx
            rcases List.mem_cons.mp hx with h | h
            · simp [h]
            · exact ih x h

/-- Witness for C10 at a concrete configuration (the defaults) and a 4-URL
frontier. -/
theorem claim_C10_witness :
    effectiveConcurrentRequests { concurrent_requests := 16, download_delay := 1/10 } ≤ 1 ∧
    5 ≤ effectiveDownloadDelay { concurrent_requests := 16, download_delay := 1/10 } ∧
    (batchesOf3 ["a", "b", "c", "d"]).flatten = ["a", "b", "c", "d"] ∧
    (["a", "b", "c"] : List String).length = 3 := by
  have h := claim_C10_concurrent_clamps
    { concurrent_requests := 16, download_delay := 1/10 } ["a", "b", "c", "d"]
  exact ⟨h.1, h.2.1, h.2.2.1, h.2.2.2.2 ["a", "b", "c"] (by decide)⟩

/-! ### C9: the anti-chronological sort -/

/-- `insertDescBy` inserts its element, permuting nothing else. -/
theorem insertDescBy_perm (key : α → PubKey) (x : α) (l : List α) :
    (insertDescBy key x l).Perm (x :: l) := by
  induction l with
  | nil => simp [insertDescBy]
  | cons y ys ih =>
      simp only [insertDescBy]
      split
      · exact List.Perm.refl _
      · exact (ih.cons y).trans (List.Perm.swap x y ys)

/-- `sortDescBy` permutes its input. -/
theorem sortDescBy_perm (key : α → PubKey) (l : List α) :
    (sortDescBy key l).Perm l := by
  induction l with
  | nil => simp [sortDescBy]
  | cons x xs ih => exact (insertDescBy_perm key x (sortDescBy key xs)).trans (ih.cons x)

/-- Inserting into a descending chain of string-keyed elements keeps the
chain. -/
theorem insertDescBy_chain (key : α → PubKey) (x : α) (l : List α)
    (hx : ∃ d, key x = PubKey.str d) (hl : ∀ y ∈ l, ∃ d, key y = PubKey.str d)
    (hc : l.Chain' (fun a b => pubKeyLt (key a) (key b) = some false)) :
    (insertDescBy key x l).Chain' (fun a b => pubKeyLt (key a) (key b) = some false) := by
  induction l with
  | nil => simp [insertDescBy]
  | cons y ys ih =>
      simp only [insertDescBy]
      split
      · rename_i hcond
        exact List.Chain'.cons hcond hc
      · rename_i hcond
        obtain ⟨dx, hdx⟩ := hx
        obtain ⟨dy, hdy⟩ := hl y (by simp)
        have hyx : pubKeyLt (key y) (key x) = some false := by
          rw [hdx, hdy] at hcond ⊢
          simp only [pubKeyLt, Option.some.injEq, decide_eq_false_iff_not] at hcond ⊢
          exact lt_asymm (not_not.mp (by simpa using hcond))
        have htail := ih (fun z hz => hl z (by simp [hz])) hc.tail
        rw [List.chain'_cons']
        refine ⟨?_, htail⟩
        intro z hz
        cases ys with
        | nil => simp [insertDescBy] at hz; subst hz; exact hyx
        | cons w ws =>
            simp only [insertDescBy] at hz
            revert hz
            split
            · intro hz; simp at hz; subst hz; exact hyx
            · intro hz
              simp at hz
              subst hz
              exact (List.chain'_cons.mp hc).1

/-- Inserting among all-`int 0` keys (undated stories) goes to the front. -/
theorem insertDescBy_int0 (key : α → PubKey) (x : α) (l : List α)
    (hx : key x = PubKey.int 0) (hl : ∀ y ∈ l, key y = PubKey.int 0) :
    insertDescBy key x l = x :: l := by
  cases l with
  | nil => simp [insertDescBy]
  | cons y ys => simp [insertDescBy, hx, hl y (by simp), pubKeyLt]

/-- Sorting all-`int 0` keys (undated stories) keeps the order. -/
theorem sortDescBy_int0 (key : α → PubKey) (l : List α)
    (hl : ∀ y ∈ l, key y = PubKey.int 0) : sortDescBy key l = l := by
  induction l with
  | nil => simp [sortDescBy]
  | cons x xs ih =>
      have hxs := ih (fun y hy => hl y (by simp [hy]))
      simp only [sortDescBy, hxs]
      exact insertDescBy_int0 key x xs (hl x (by simp)) (fun y hy => hl y (by simp [hy]))

/-- Sorting string-keyed elements yields a descending chain. -/
theorem sortDescBy_chain (key : α → PubKey) (l : List α)
    (hl : ∀ y ∈ l, ∃ d, key y = PubKey.str d) :
    (sortDescBy key l).Chain' (fun a b => pubKeyLt (key a) (key b) = some false) := by
  induction l with
  | nil => simp [sortDescBy]
  | cons x xs ih =>
      have hmem : ∀ y ∈ sortDescBy key xs, ∃ d, key y = PubKey.str d := by
        intro y hy
        exact hl y (by simp [(sortDescBy_perm key xs).mem_iff.mp hy])
      exact insertDescBy_chain key x (sortDescBy key xs) (hl x (by simp)) hmem
        (ih (fun y hy => hl y (by simp [hy])))

/-- **C9, counterexample.**  A list mixing a story with a publish timestamp and
one without does not come out sorted: the sort raises `TypeError` (a string
publish-date key is compared against the integer fallback key 0), so nothing
is handed downstream. -/
theorem claim_C9_counterexample :
    getPublishTimestamp { publish_date := some "2024-01-01" } = PubKey.str "2024-01-01" ∧
    getPublishTimestamp { publish_date := none } = PubKey.int 0 ∧
    sortStoriesAntiChronological
      [{ publish_date := some "2024-01-01" }, { publish_date := none }] =
      .error "TypeError: < not supported between instances of int and str" := by
  refine ⟨by decide, by decide, ?_⟩
  rfl

/-- **C9, amended.**  Discovered stories that all carry a (string) publish
timestamp are handed downstream sorted by descending timestamp (a permutation
of the input in stably sorted order); stories that all lack a timestamp keep
their discovery order; a list mixing stories with and without a timestamp
raises `TypeError` in the sort and nothing is handed downstream. -/
theorem claim_C9_sort_descending :
    (∀ stories : List Story,
      (∀ s ∈ stories, ∃ d, getPublishTimestamp s = PubKey.str d) →
      ∃ sorted, sortStoriesAntiChronological stories = .ok sorted ∧
        sorted.Perm stories ∧
        sorted.Chain' (fun a b =>
          pubKeyLt (getPublishTimestamp a) (getPublishTimestamp b) = some false)) ∧
    (∀ stories : List Story,
      (∀ s ∈ stories, getPublishTimestamp s = PubKey.int 0) →
      sortStoriesAntiChronological stories = .ok stories) ∧
    (∀ stories : List Story, ∀ s1 ∈ stories, ∀ s2 ∈ stories,
      (∃ d, getPublishTimestamp s1 = PubKey.str d) →
      (∃ z, getPublishTimestamp s2 = PubKey.int z) →
      sortStoriesAntiChronological stories =
        .error "TypeError: < not supported between instances of int and str") := by
  refine ⟨?_, ?_, ?_⟩
  · intro stories hall
    have hnoint : (stories.any (fun s => (getPublishTimestamp s matches PubKey.int _))) = false := by
      simp only [List.any_eq_false]
      intro s hs
      obtain ⟨d, hd⟩ := hall s hs
      simp [hd]
    refine ⟨sortDescBy getPublishTimestamp stories, ?_, sortDescBy_perm _ _,
      sortDescBy_chain _ _ hall⟩
    simp [sortStoriesAntiChronological, hnoint]
  · intro stories hall
    have hnostr : (stories.any (fun s => (getPublishTimestamp s matches PubKey.str _))) = false := by
      simp only [List.any_eq_false]
      intro s hs
      simp [hall s hs]
    simp [sortStoriesAntiChronological, hnostr, sortDescBy_int0 getPublishTimestamp stories hall]
  · intro stories s1 h1 s2 h2 hstr hint
    have ha : (stories.any (fun s => (getPublishTimestamp s matches PubKey.str _))) = true := by
      simp only [List.any_eq_true]
      obtain ⟨d, hd⟩ := hstr
      exact ⟨s1, h1, by simp [hd]⟩
    have hb : (stories.any (fun s => (getPublishTimestamp s matches PubKey.int _))) = true := by
      simp only [List.any_eq_true]
      obtain ⟨z, hz⟩ := hint
      exact ⟨s2, h2, by simp [hz]⟩
    simp [sortStoriesAntiChronological, ha, hb]

/-- Witness for C9: three dated stories come back sorted anti-chronologically;
two undated stories keep their order; one of each raises. -/
theorem claim_C9_witness :
    (∃ sorted, sortStoriesAntiChronological
        [{ publish_date := some "2020-05-01" }, { publish_date := some "2021-01-01" }] =
        .ok sorted ∧
      sorted.Perm [{ publish_date := some "2020-05-01" }, { publish_date := some "2021-01-01" }] ∧
      sorted.Chain' (fun a b =>
        pubKeyLt (getPublishTimestamp a) (getPublishTimestamp b) = some false)) ∧
    sortStoriesAntiChronological [{ title := some "t1" }, { title := some "t2" }] =
      .ok [{ title := some "t1" }, { title := some "t2" }] ∧
    sortStoriesAntiChronological [{ publish_date := some "2020-05-01" }, { title := some "t2" }] =
      .error "TypeError: < not supported between instances of int and str" := by
  refine ⟨claim_C9_sort_descending.1 _ ?_, claim_C9_sort_descending.2.1 _ (by decide),
    claim_C9_sort_descending.2.2 _ { publish_date := some "2020-05-01" } (by simp)
      { title := some "t2" } (by simp) ⟨"2020-05-01", by decide⟩ ⟨0, by decide⟩⟩
  intro s hs
  simp only [List.mem_cons, List.mem_singleton] at hs
  rcases hs with h | h | h
  · exact ⟨"2020-05-01", by rw [h]; decide⟩
  · exact ⟨"2021-01-01", by rw [h]; decide⟩
  · exact absurd h (by simp)

/-! ### Closed forms for the processing folds (shared by C1-C4, C7) -/

/-- Is an outcome an added document? -/
def isAddedOutcome : ItemOutcome → Bool
  | .added _ _ _ => true
  | _ => false

/-- The write a single outcome contributes. -/
def writeOf : ItemOutcome → Option (String × Meta × String)
  | .added m _ t => some (m.doc_id, m, t)
  | _ => none

/-- The index record a single outcome contributes. -/
def indexOf : ItemOutcome → Option IndexRec
  | .added _ r _ => some r
  | _ => none

/-- The failure detail a single outcome contributes. -/
def failureOf : ItemOutcome → Option (String × String)
  | .failed u e => some (u, e)
  | _ => none

/-- Closed form of the `_process_sequential` accumulation loop. -/
theorem seqFold_spec (outcomes : List ItemOutcome) (acc : SeqAcc) :
    outcomes.foldl seqStep acc =
      { added := acc.added + outcomes.countP isAddedOutcome,
        skipped_quality :=
          acc.skipped_quality + outcomes.countP (fun o => o matches .skippedQuality),
        skipped_text_extraction :=
          acc.skipped_text_extraction + outcomes.countP (fun o => o matches .skippedText),
        failed_urls := acc.failed_urls ++ outcomes.filterMap failureOf,
        fx := { writes := acc.fx.writes ++ outcomes.filterMap writeOf,
                indexRecs := acc.fx.indexRecs ++ outcomes.filterMap indexOf } } := by
  induction outcomes generalizing acc with
  | nil => simp
  | cons o os ih =>
      cases o <;>
        simp [seqStep, ih, isAddedOutcome, writeOf, indexOf, failureOf, List.countP_cons] <;>
        omega

/-- The outcome list of a sequential pass over a frontier. -/
def outcomesOf (env : Env) (params : BuilderParams) (source : String)
    (discovered : List DiscoveryItem) (frontier : List (String × String)) :
    List ItemOutcome :=
  frontier.map (fun p => processItem env params source discovered p.1 p.2)

/-- Closed form of `_process_sequential`. -/
theorem processSequential_spec (env : Env) (params : BuilderParams) (source : String)
    (discovered : List DiscoveryItem) (frontier : List (String × String))
    (manifest : Manifest) :
    processSequential env params source discovered frontier manifest =
      (let outcomes := outcomesOf env params source discovered frontier
       let result : RunResult :=
         { discovered := dbuLen discovered,
           added := outcomes.countP isAddedOutcome,
           skipped_quality := outcomes.countP (fun o => o matches .skippedQuality),
           skipped_text_extraction := outcomes.countP (fun o => o matches .skippedText),
           skipped_duplicate := (dbuLen discovered : Int) - (frontier.length : Int),
           failed := (outcomes.filterMap failureOf).length,
           failed_details := outcomes.filterMap failureOf }
       (result,
        { writes := outcomes.filterMap writeOf, indexRecs := outcomes.filterMap indexOf },
        { history := manifest.history ++
            [{ discovered := result.discovered, added := result.added,
               skipped_quality := result.skipped_quality,
               skipped_text_extraction := result.skipped_text_extraction,
               skipped_duplicate := result.skipped_duplicate, failed := result.failed }],
          doc_count := manifest.doc_count + outcomes.countP isAddedOutcome })) := by
  unfold processSequential
  rw [seqFold_spec]
  simp [outcomesOf]

/-- The outcome list of a spider batch. -/
def spiderOutcomes (env : Env) (params : BuilderParams) (source : String)
    (discovered : List DiscoveryItem) (sid : String → Option String)
    (urls : List String) : List ItemOutcome :=
  urls.map (fun url => match sid url with
    | some s => processItem env params source discovered url s
    | none => .failed url "stable id derivation failed")

/-- Closed form of the spider fold. -/
theorem spiderFold_spec (env : Env) (params : BuilderParams) (source : String)
    (discovered : List DiscoveryItem) (sid : String → Option String)
    (urls : List String) (st : SpiderCounts × Effects) :
    urls.foldl (spiderStep env params source discovered sid) st =
      (let outcomes := spiderOutcomes env params source discovered sid urls
       ({ processed_count := st.1.processed_count + urls.length,
          added_count := st.1.added_count + outcomes.countP isAddedOutcome,
          failed_count := st.1.failed_count + outcomes.countP (fun o => o matches .failed _ _),
          skipped_quality :=
            st.1.skipped_quality + outcomes.countP (fun o => o matches .skippedQuality),
          skipped_text_extraction :=
            st.1.skipped_text_extraction + outcomes.countP (fun o => o matches .skippedText) },
        { writes := st.2.writes ++ outcomes.filterMap writeOf,
          indexRecs := st.2.indexRecs ++ outcomes.filterMap indexOf })) := by
  induction urls generalizing st with
  | nil => simp [spiderOutcomes]
  | cons u us ih =>
      simp only [List.foldl_cons, ih, spiderOutcomes, List.map_cons]
      simp only [spiderStep]
      rcases hout : (match sid u with
        | some s => processItem env params source discovered u s
        | none => ItemOutcome.failed u "stable id derivation failed") with
        _ | _ | _ | ⟨m, r, t⟩ <;>
      · rw [hout]
        simp [isAddedOutcome, writeOf, indexOf, List.countP_cons, Effects.append]
        omega

/-- Closed form of `runScrapySpiderModel`. -/
theorem runScrapySpiderModel_spec (env : Env) (params : BuilderParams) (source : String)
    (discovered : List DiscoveryItem) (sid : String → Option String)
    (urls : List String) :
    runScrapySpiderModel env params source discovered sid urls =
      (let outcomes := spiderOutcomes env params source discovered sid urls
       ({ processed_count := urls.length,
          added_count := outcomes.countP isAddedOutcome,
          failed_count := outcomes.countP (fun o => o matches .failed _ _),
          skipped_quality := outcomes.countP (fun o => o matches .skippedQuality),
          skipped_text_extraction := outcomes.countP (fun o => o matches .skippedText) },
        { writes := outcomes.filterMap writeOf,
          indexRecs := outcomes.filterMap indexOf })) := by
  unfold runScrapySpiderModel
  rw [spiderFold_spec]
  simp

/-! ### C4: the quality gate -/

/-- **C4.**  For every frontier item (with fetch and extraction succeeding),
the quality gate first counts empty/missing extracted text as
`skipped_text_extraction` with no write; otherwise text of exactly 399
characters is counted `skipped_quality` with no write, and text of exactly
400 characters is eligible for write (the item is added and exactly one
`write_document` call is made). -/
theorem claim_C4_quality_gate (env : Env) (params : BuilderParams) (source : String)
    (discovered : List DiscoveryItem) (url sid : String) (parsed : Extracted)
    (henv : env.fetchParse url = .ok parsed) :
    (parsed.text.getD "" = "" →
      processItem env params source discovered url sid = .skippedText) ∧
    ((parsed.text.getD "").length = 399 →
      processItem env params source discovered url sid = .skippedQuality) ∧
    ((parsed.text.getD "").length = 400 →
      isAddedOutcome (processItem env params source discovered url sid) = true) ∧
    (parsed.text.getD "" = "" → ∀ manifest,
      (processSequential env params source discovered [(url, sid)] manifest).1.skipped_text_extraction = 1 ∧
      (processSequential env params source discovered [(url, sid)] manifest).2.1.writes = []) ∧
    ((parsed.text.getD "").length = 399 → ∀ manifest,
      (processSequential env params source discovered [(url, sid)] manifest).1.skipped_quality = 1 ∧
      (processSequential env params source discovered [(url, sid)] manifest).2.1.writes = []) ∧
    ((parsed.text.getD "").length = 400 → ∀ manifest,
      (processSequential env params source discovered [(url, sid)] manifest).1.added = 1 ∧
      (processSequential env params source discovered [(url, sid)] manifest).2.1.writes.length = 1) := by
  have hempty : parsed.text.getD "" = "" →
      processItem env params source discovered url sid = .skippedText := by
    intro h
    simp [processItem, henv, h]
  have h399 : (parsed.text.getD "").length = 399 →
      processItem env params source discovered url sid = .skippedQuality := by
    intro h
    have hne : ¬ parsed.text.getD "" = "" := by
      intro he
      rw [he] at h
      simp at h
    simp [processItem, henv, hne, h]
  have h400 : (parsed.text.getD "").length = 400 →
      isAddedOutcome (processItem env params source discovered url sid) = true := by
    intro h
    have hne : ¬ parsed.text.getD "" = "" := by
      intro he
      rw [he] at h
      simp at h
    simp [processItem, henv, hne, h, isAddedOutcome]
  refine ⟨hempty, h399, h400, ?_, ?_, ?_⟩
  · intro h manifest
    rw [processSequential_spec]
    simp [outcomesOf, hempty h, writeOf]
  · intro h manifest
    rw [processSequential_spec]
    simp [outcomesOf, h399 h, writeOf]
  · intro h manifest
    have hadd := h400 h
    rw [processSequential_spec]
    rcases hout : processItem env params source discovered url sid with _ | _ | _ | ⟨m, r, t⟩
    · rw [hout] at hadd; simp [isAddedOutcome] at hadd
    · rw [hout] at hadd; simp [isAddedOutcome] at hadd
    · rw [hout] at hadd; simp [isAddedOutcome] at hadd
    · simp [outcomesOf, hout, writeOf, isAddedOutcome]

/-- Witness for C4: a concrete item with 400-character text is added with one
write, 399 characters is a quality skip, empty text a text-extraction skip. -/
theorem claim_C4_witness :
    (processItem ⟨fun _ => .ok { text := some "" }⟩ {} "mediacloud" [] "u" "s" =
      .skippedText) ∧
    (processItem ⟨fun _ => .ok { text := some (String.mk (List.replicate 399 'x')) }⟩ {}
      "mediacloud" [] "u" "s" = .skippedQuality) ∧
    (isAddedOutcome (processItem ⟨fun _ => .ok { text := some (String.mk (List.replicate 400 'x')) }⟩
      {} "mediacloud" [] "u" "s") = true) := by
  exact ⟨(claim_C4_quality_gate _ {} "mediacloud" [] "u" "s" _ rfl).1 (by decide),
    (claim_C4_quality_gate _ {} "mediacloud" [] "u" "s" _ rfl).2.1 (by
      simp [String.length]),
    (claim_C4_quality_gate _ {} "mediacloud" [] "u" "s" _ rfl).2.2.1 (by
      simp [String.length])⟩

/-! ### C3: the metadata merge -/

/-- The metadata of an added outcome. -/
def metaOfOutcome : ItemOutcome → Option Meta
  | .added m _ _ => some m
  | _ => none

/-- Item used in the C3 counterexample: MediaCloud discovery supplied
`published_at = "2020-01-01"`. -/
def itemC3 : DiscoveryItem :=
  { url := "http://u", title := some "DT", published_at := some "2020-01-01",
    language := some "fr", authors := ["da"] }

/-- Extraction used in the C3 counterexample: the extractor supplied
`published_at = "2021-02-02"` (and a long enough text). -/
def parsedC3 : Extracted :=
  { text := some (String.mk (List.replicate 400 'x')), title := some "PT",
    published_at := some "2021-02-02", language := some "en", authors := ["pa"] }

/-- **C3, counterexample.**  The extractor supplied `published_at`
`"2021-02-02"`, the discovery item carried `"2020-01-01"`; the written
metadata holds the discovery value, not the extractor's: for `published_at`
the discovery item wins, contradicting the claim that the extractor's value
wins whenever supplied. -/
theorem claim_C3_counterexample :
    (metaOfOutcome (processItem ⟨fun _ => .ok parsedC3⟩ {} "mediacloud" [itemC3]
        "http://u" "sid1")).map (fun m => m.published_at) = some (some "2020-01-01") ∧
    parsedC3.published_at = some "2021-02-02" ∧
    truthyS parsedC3.published_at = true ∧
    some (some "2020-01-01") ≠ some parsedC3.published_at := by
  refine ⟨?_, by decide, by decide, by decide⟩
  rfl

/-- **C3, amended.**  When a document passes the quality gate, metadata is
merged so that the extractor's value wins for each of title, language and
authors whenever the extractor supplied one (a non-empty value), with the
discovery item's value as fallback; for `published_at` the priority is
reversed: the discovery item's value wins when present and the extractor's
value is only the fallback. -/
theorem claim_C3_metadata_merge (env : Env) (params : BuilderParams) (source : String)
    (discovered : List DiscoveryItem) (url sid : String) (parsed : Extracted)
    (di : DiscoveryItem) (m : Meta) (r : IndexRec) (t : String)
    (henv : env.fetchParse url = .ok parsed)
    (hdi : dbuGet discovered url = some di)
    (hout : processItem env params source discovered url sid = .added m r t) :
    (truthyS parsed.title = true → m.title = parsed.title) ∧
    (truthyS parsed.title = false → m.title = di.title) ∧
    (truthyS parsed.language = true → m.language = parsed.language) ∧
    (truthyS parsed.language = false → m.language = di.language) ∧
    (parsed.authors ≠ [] → m.authors = parsed.authors) ∧
    (parsed.authors = [] → m.authors = di.authors) ∧
    (truthyS di.published_at = true → m.published_at = di.published_at) ∧
    (truthyS di.published_at = false → m.published_at = parsed.published_at) := by
  simp only [processItem, henv] at hout
  by_cases hte : parsed.text.getD "" = ""
  · simp [hte] at hout
  · by_cases hlen : (parsed.text.getD "").length < 400
    · simp [hte, hlen] at hout
    · simp only [hte, hlen, if_neg, if_false, reduceIte] at hout
      rw [hdi] at hout
      injection hout with hm _
      subst hm
      simp only [pyOrOptS, pyOrList]
      refine ⟨?_, ?_, ?_, ?_, ?_, ?_, ?_, ?_⟩
      · intro h; simp [h]
      · intro h; simp [h]
      · intro h; simp [h]
      · intro h; simp [h]
      · intro h; simp [List.isEmpty_iff, h]
      · intro h; simp [List.isEmpty_iff, h]
      · intro h; simp [h]
      · intro h; simp [h]

/-- Witness for C3: at the concrete counterexample inputs, title goes to the
extractor and published_at to the discovery item. -/
theorem claim_C3_witness :
    ∃ m r t, processItem ⟨fun _ => .ok parsedC3⟩ {} "mediacloud" [itemC3] "http://u" "sid1" =
        .added m r t ∧
      m.title = some "PT" ∧ m.published_at = some "2020-01-01" ∧
      m.language = some "en" ∧ m.authors = ["pa"] := by
  obtain ⟨m, r, t, hout⟩ :
      ∃ m r t, processItem ⟨fun _ => .ok parsedC3⟩ {} "mediacloud" [itemC3] "http://u" "sid1" =
        .added m r t := ⟨_, _, _, rfl⟩
  have h := claim_C3_metadata_merge ⟨fun _ => .ok parsedC3⟩ {} "mediacloud" [itemC3]
    "http://u" "sid1" parsedC3 itemC3 m r t rfl (by decide) hout
  refine ⟨m, r, t, hout, ?_, ?_, ?_, ?_⟩
  · rw [h.1 (by decide)]; rfl
  · rw [h.2.2.2.2.2.2.1 (by decide)]; rfl
  · rw [h.2.2.1 (by decide)]; rfl
  · rw [h.2.2.2.2.1 (by decide)]; rfl

/-! ### C7: orchestration-level fallback, and C2: the unreachable concurrent
success path -/

/-- The `total_result` dict never carries the keys the manifest update reads:
`result["added"]` and `result["failed"]` raise `KeyError` (lines 665, 669). -/
theorem spiderCountsAssoc_no_added_key (t : SpiderCounts) :
    (spiderCountsAssoc t).lookup "added" = none ∧
    (spiderCountsAssoc t).lookup "failed" = none := by
  constructor <;> rfl

/-- Whatever the batch jobs do, `_process_concurrent` ends in the sequential
fallback over the whole frontier (an orchestration raise lands there directly;
a completed batch loop raises `KeyError` at the manifest update and lands in
the same `except`). -/
theorem processConcurrent_always_fallback
    (spider : Nat → List String → Except String (SpiderCounts × Effects))
    (env : Env) (params : BuilderParams) (source : String)
    (discovered : List DiscoveryItem) (frontier : List (String × String))
    (manifest : Manifest) :
    ∃ fxSpider,
      processConcurrent spider env params source discovered frontier manifest =
        .seq (processSequential env params source discovered frontier manifest).1
          (Effects.append fxSpider
            (processSequential env params source discovered frontier manifest).2.1)
          (processSequential env params source discovered frontier manifest).2.2 := by
  rcases hrb : runBatches spider (batchesOf3 (frontier.map (fun p => p.1))) 0 with ⟨r, fxS⟩
  cases r with
  | error e =>
      refine ⟨fxS, ?_⟩
      simp only [processConcurrent, hrb]
  | ok totals =>
      refine ⟨fxS, ?_⟩
      simp only [processConcurrent, hrb, (spiderCountsAssoc_no_added_key totals).1,
        (spiderCountsAssoc_no_added_key totals).2]

/-- The (spec-modelled) spider performs the same writes, in the same order, as
the sequential pass over the same frontier, provided the stable ids it
recomputes agree with the frontier pairs. -/
theorem spider_writes_eq_seq (env : Env) (params : BuilderParams) (source : String)
    (discovered : List DiscoveryItem) (sid : String → Option String)
    (frontier : List (String × String)) (manifest : Manifest)
    (hsid : ∀ p ∈ frontier, sid p.1 = some p.2) :
    (runScrapySpiderModel env params source discovered sid
        (frontier.map (fun p => p.1))).2.writes =
      (processSequential env params source discovered frontier manifest).2.1.writes := by
  rw [runScrapySpiderModel_spec, processSequential_spec]
  simp only []
  have houtcomes : spiderOutcomes env params source discovered sid
      (frontier.map (fun p => p.1)) = outcomesOf env params source discovered frontier := by
    simp only [spiderOutcomes, outcomesOf, List.map_map]
    apply List.map_congr_left
    intro p hp
    simp [hsid p hp]
  rw [houtcomes]

/-- **C7.**  If the concurrent processing path raises at the orchestration
level (a batch job failing as a whole, not a per-item failure), the
orchestrator abandons concurrent mode and reruns the entire frontier — not
just the unfinished remainder — through the sequential path, and the run still
returns a `RunResult` rather than raising. -/
theorem claim_C7_fallback_entire_frontier
    (spider : Nat → List String → Except String (SpiderCounts × Effects))
    (env : Env) (params : BuilderParams) (source : String)
    (discovered : List DiscoveryItem) (frontier : List (String × String))
    (manifest : Manifest) (e : String)
    (hraise : (runBatches spider (batchesOf3 (frontier.map (fun p => p.1))) 0).1 = .error e) :
    ∃ fxSpider,
      processConcurrent spider env params source discovered frontier manifest =
        .seq (processSequential env params source discovered frontier manifest).1
          (Effects.append fxSpider
            (processSequential env params source discovered frontier manifest).2.1)
          (processSequential env params source discovered frontier manifest).2.2 := by
  rcases hrb : runBatches spider (batchesOf3 (frontier.map (fun p => p.1))) 0 with ⟨r, fxSpider⟩
  rw [hrb] at hraise
  simp only at hraise
  subst hraise
  refine ⟨fxSpider, ?_⟩
  simp only [processConcurrent, hrb]

/-- Witness for C7: a spider whose very first batch raises makes the run of a
one-URL frontier return the sequential result over that same frontier. -/
theorem claim_C7_witness :
    ∃ fxSpider,
      processConcurrent (fun _ _ => .error "twisted reactor crashed")
        ⟨fun _ => .error "offline"⟩ {} "mediacloud" [] [("http://u", "sid1")] {} =
        .seq (processSequential ⟨fun _ => .error "offline"⟩ {} "mediacloud" []
            [("http://u", "sid1")] {}).1
          (Effects.append fxSpider
            (processSequential ⟨fun _ => .error "offline"⟩ {} "mediacloud" []
              [("http://u", "sid1")] {}).2.1)
          (processSequential ⟨fun _ => .error "offline"⟩ {} "mediacloud" []
            [("http://u", "sid1")] {}).2.2 :=
  claim_C7_fallback_entire_frontier _ _ _ _ _ _ _ "twisted reactor crashed" rfl

/-- **C2 (code defect).**  Even when every batch job succeeds, the concurrent
path never completes: `total_result` carries the keys `added_count` /
`failed_count`, but the manifest update reads `result["added"]` and
`result["failed"]`, so a `KeyError` lands in the `except` and the whole
frontier is rerun sequentially.  Every concurrent-mode run therefore returns
the sequential `RunResult` over the full frontier (trivially with identical
totals), and the (spec-modelled) spider performs the same writes, in the same
order, as the sequential pass over the same frontier. -/
theorem claim_C2_concurrent_keyerror :
    (∀ t : SpiderCounts, (spiderCountsAssoc t).lookup "added" = none) ∧
    (∀ (spider : Nat → List String → Except String (SpiderCounts × Effects))
       (env : Env) (params : BuilderParams) (source : String)
       (discovered : List DiscoveryItem) (frontier : List (String × String))
       (manifest : Manifest),
      ∃ fxSpider,
        processConcurrent spider env params source discovered frontier manifest =
          .seq (processSequential env params source discovered frontier manifest).1
            (Effects.append fxSpider
              (processSequential env params source discovered frontier manifest).2.1)
            (processSequential env params source discovered frontier manifest).2.2) ∧
    (∀ (env : Env) (params : BuilderParams) (source : String)
       (discovered : List DiscoveryItem) (sid : String → Option String)
       (frontier : List (String × String)) (manifest : Manifest),
      (∀ p ∈ frontier, sid p.1 = some p.2) →
      (runScrapySpiderModel env params source discovered sid
          (frontier.map (fun p => p.1))).2.writes =
        (processSequential env params source discovered frontier manifest).2.1.writes) := by
  exact ⟨fun t => (spiderCountsAssoc_no_added_key t).1,
    fun spider env params source discovered frontier manifest =>
      processConcurrent_always_fallback spider env params source discovered frontier manifest,
    fun env params source discovered sid frontier manifest hsid =>
      spider_writes_eq_seq env params source discovered sid frontier manifest hsid⟩

/-- Witness for C2's spider/sequential write agreement at a concrete frontier
(one item whose fetch fails, one whose text is long enough). -/
theorem claim_C2_witness :
    (∀ p ∈ [("http://u", "sid1")],
      (fun u => if u = "http://u" then some "sid1" else none) p.1 = some p.2) ∧
    (runScrapySpiderModel ⟨fun _ => .ok parsedC3⟩ {} "mediacloud" []
        (fun u => if u = "http://u" then some "sid1" else none)
        ([("http://u", "sid1")].map (fun p => p.1))).2.writes =
      (processSequential ⟨fun _ => .ok parsedC3⟩ {} "mediacloud" []
        [("http://u", "sid1")] {}).2.1.writes := by
  refine ⟨by decide, ?_⟩
  exact claim_C2_concurrent_keyerror.2.2 ⟨fun _ => .ok parsedC3⟩ {} "mediacloud" []
    (fun u => if u = "http://u" then some "sid1" else none) [("http://u", "sid1")] {}
    (by decide)

/-! ### C1: frontier, dedup counts and idempotency -/

/-- Every pair produced by the stable-id mapping satisfies `sid url = some id`. -/
theorem sidPairs_mem (sid : String → Option String) (discovered : List DiscoveryItem) :
    ∀ pairs, sidPairs sid discovered = some pairs → ∀ p ∈ pairs, sid p.1 = some p.2 := by
  induction discovered with
  | nil =>
      intro pairs h
      simp only [sidPairs, Option.some.injEq] at h
      subst h
      simp
  | cons d ds ih =>
      intro pairs h
      cases hs : sid d.url with
      | none => simp [sidPairs, hs] at h
      | some s =>
          cases hrest : sidPairs sid ds with
          | none => simp [sidPairs, hs, hrest] at h
          | some rest =>
              have hmem := ih rest hrest
              simp only [sidPairs, hs, hrest, Option.map_some', Option.some.injEq] at h
              subst h
              intro p hp
              rcases List.mem_cons.mp hp with hp | hp
              · subst hp; exact hs
              · exact hmem p hp

/-- An added outcome carries the frontier pair's stable id as its doc id. -/
theorem processItem_added_doc_id (env : Env) (params : BuilderParams) (source : String)
    (discovered : List DiscoveryItem) (u s : String) (m : Meta) (r : IndexRec) (t : String)
    (h : processItem env params source discovered u s = .added m r t) : m.doc_id = s := by
  simp only [processItem] at h
  cases henv : env.fetchParse u with
  | error e => rw [henv] at h; simp at h
  | ok parsed =>
      rw [henv] at h
      by_cases hte : parsed.text.getD "" = ""
      · simp [hte] at h
      · by_cases hlen : (parsed.text.getD "").length < 400
        · simp [hte, hlen] at h
        · simp only [hte, hlen, if_false, reduceIte] at h
          injection h with hm _
          subst hm
          rfl

/-- Membership in the writes of a sequential pass. -/
theorem seqWrites_mem (env : Env) (params : BuilderParams) (source : String)
    (discovered : List DiscoveryItem) (frontier : List (String × String))
    (manifest : Manifest) (w : String × Meta × String) :
    w ∈ (processSequential env params source discovered frontier manifest).2.1.writes ↔
      ∃ p ∈ frontier, ∃ m r t,
        processItem env params source discovered p.1 p.2 = .added m r t ∧
        w = (m.doc_id, m, t) := by
  rw [processSequential_spec]
  simp only [List.mem_filterMap, outcomesOf, List.mem_map]
  constructor
  · rintro ⟨o, ⟨p, hp, ho⟩, hw⟩
    cases o with
    | failed u e => simp [writeOf] at hw
    | skippedText => simp [writeOf] at hw
    | skippedQuality => simp [writeOf] at hw
    | added m r t =>
        simp only [writeOf, Option.some.injEq] at hw
        exact ⟨p, hp, m, r, t, ho, hw.symm⟩
  · rintro ⟨p, hp, m, r, t, ho, hw⟩
    exact ⟨.added m r t, ⟨p, hp, ho⟩, by simp [writeOf, hw]⟩

/-- With the (spec-modelled) spider, the batch loop of `_process_concurrent`
succeeds and accumulates exactly the spider pass over all batch URLs. -/
theorem runBatches_spiderOk (env : Env) (params : BuilderParams) (source : String)
    (discovered : List DiscoveryItem) (sid : String → Option String) :
    ∀ (batches : List (List String)) (i : Nat),
      runBatches (spiderOk env params source discovered sid) batches i =
        (.ok (runScrapySpiderModel env params source discovered sid batches.flatten).1,
         (runScrapySpiderModel env params source discovered sid batches.flatten).2) := by
  intro batches
  induction batches with
  | nil => intro i; rfl
  | cons b rest ih =>
      intro i
      simp only [runBatches, spiderOk]
      rw [ih (i + 1)]
      simp only [List.flatten_cons]
      rw [runScrapySpiderModel_spec, runScrapySpiderModel_spec, runScrapySpiderModel_spec]
      simp [spiderOutcomes, SpiderCounts.add, Effects.append, List.map_append,
        List.countP_append, List.filterMap_append]

/-- Characterization of a full run: it returns the sequential result over the
frontier computed from the stable-id pairs, and its writes are exactly (as a
set) the sequential writes over that frontier. -/
theorem runMediaCloud_run (sha1hex : String → String) (env : Env) (params : BuilderParams)
    (source : String) (hasDoc : String → Bool) (discovered : List DiscoveryItem)
    (manifest : Manifest) (pairs : List (String × String))
    (hpairs : sidPairs (sidOf sha1hex) discovered = some pairs) :
    ∃ fx,
      runMediaCloud sha1hex env params source hasDoc discovered manifest =
        some (.seq (processSequential env params source discovered
                (pairs.filter (fun p => ¬ hasDoc p.2)) manifest).1
              fx
              (processSequential env params source discovered
                (pairs.filter (fun p => ¬ hasDoc p.2)) manifest).2.2) ∧
      (∀ w, w ∈ fx.writes ↔ w ∈ (processSequential env params source discovered
          (pairs.filter (fun p => ¬ hasDoc p.2)) manifest).2.1.writes) := by
  by_cases hmode : params.extra.use_concurrent_processing
  · have hsid : ∀ p ∈ pairs.filter (fun p => ¬ hasDoc p.2), sidOf sha1hex p.1 = some p.2 :=
      fun p hp => sidPairs_mem _ _ pairs hpairs p (List.mem_of_mem_filter hp)
    refine ⟨Effects.append
      (runScrapySpiderModel env params source discovered (sidOf sha1hex)
        ((pairs.filter (fun p => ¬ hasDoc p.2)).map (fun p => p.1))).2
      (processSequential env params source discovered
        (pairs.filter (fun p => ¬ hasDoc p.2)) manifest).2.1, ?_, ?_⟩
    · simp only [runMediaCloud, runCore, hpairs, hmode, if_true]
      simp only [processConcurrent, runBatches_spiderOk, batchesOf3_flatten,
        spiderCountsAssoc_no_added_key]
    · intro w
      simp only [Effects.append, List.mem_append,
        spider_writes_eq_seq env params source discovered (sidOf sha1hex)
          (pairs.filter (fun p => ¬ hasDoc p.2)) manifest hsid, or_self]
  · refine ⟨(processSequential env params source discovered
      (pairs.filter (fun p => ¬ hasDoc p.2)) manifest).2.1, ?_, fun w => Iff.rfl⟩
    simp only [runMediaCloud, runCore, hpairs, hmode, if_false, Bool.false_eq_true]

/-- **C1.**  For every run: the frontier is exactly the subset of the
discovered `(url, StableId)` pairs for which the corpus predicate
`hasDoc(id)` is false; the returned `skipped_duplicate` equals the run's
reported discovered count minus the frontier size; `write_document` is never
called for an id already present in the corpus; and a repeated run with
identical parameters against the grown corpus adds zero new documents and
performs no write. -/
theorem claim_C1_frontier_dedup_idempotent (sha1hex : String → String) (env : Env)
    (params : BuilderParams) (source : String) (hasDoc : String → Bool)
    (discovered : List DiscoveryItem) (manifest : Manifest)
    (pairs : List (String × String))
    (hpairs : sidPairs (sidOf sha1hex) discovered = some pairs) :
    (frontierOf (sidOf sha1hex) hasDoc discovered =
        some (pairs.filter (fun p => ¬ hasDoc p.2)) ∧
      ∀ u s, (u, s) ∈ pairs.filter (fun p => ¬ hasDoc p.2) ↔
        ((u, s) ∈ pairs ∧ hasDoc s = false)) ∧
    (∃ r fx m2,
      runMediaCloud sha1hex env params source hasDoc discovered manifest =
        some (.seq r fx m2) ∧
      r.skipped_duplicate =
        (r.discovered : Int) - ((pairs.filter (fun p => ¬ hasDoc p.2)).length : Int) ∧
      (∀ s, hasDoc s = true → ∀ w ∈ fx.writes, w.1 ≠ s) ∧
      (∃ r2 fx2 m3,
        runMediaCloud sha1hex env params source
            (fun x => hasDoc x || fx.writes.any (fun w => w.1 = x)) discovered manifest =
          some (.seq r2 fx2 m3) ∧
        r2.added = 0 ∧ fx2.writes = [])) := by
  have hfr : frontierOf (sidOf sha1hex) hasDoc discovered =
      some (pairs.filter (fun p => ¬ hasDoc p.2)) := by
    simp [frontierOf, hpairs]
  obtain ⟨fx, hrun, hw⟩ :=
    runMediaCloud_run sha1hex env params source hasDoc discovered manifest pairs hpairs
  refine ⟨⟨hfr, ?_⟩, ?_⟩
  · intro u s
    simp [List.mem_filter]
  · refine ⟨_, fx, _, hrun, ?_, ?_, ?_⟩
    · rw [processSequential_spec]
    · -- an id already present is never written
      intro s hs w hwmem
      obtain ⟨p, hp, m, r, t, hpi, hweq⟩ := (seqWrites_mem _ _ _ _ _ _ _).mp ((hw w).mp hwmem)
      have hdoc := processItem_added_doc_id _ _ _ _ _ _ _ _ _ hpi
      have hpfilter := (List.mem_filter.mp hp).2
      intro hws
      rw [hweq] at hws
      simp only at hws
      rw [hdoc] at hws
      subst hws
      simp [hs] at hpfilter
    · -- second run
      set hasDoc2 : String → Bool := fun x => hasDoc x || fx.writes.any (fun w => w.1 = x)
        with hhd2
      obtain ⟨fx2, hrun2, hw2⟩ :=
        runMediaCloud_run sha1hex env params source hasDoc2 discovered manifest pairs hpairs
      have hnone : ∀ o ∈ outcomesOf env params source discovered
          (pairs.filter (fun p => ¬ hasDoc2 p.2)), isAddedOutcome o = false := by
        intro o ho
        simp only [outcomesOf, List.mem_map] at ho
        obtain ⟨p, hp, ho⟩ := ho
        rcases hout : processItem env params source discovered p.1 p.2 with _ | _ | _ | ⟨m, r, t⟩ <;>
          rw [hout] at ho <;> subst ho <;> simp [isAddedOutcome]
        -- added case: contradiction with hasDoc2
        exfalso
        have hp2 := (List.mem_filter.mp hp).2
        have hpmem := (List.mem_filter.mp hp).1
        simp only [hhd2] at hp2
        simp only [decide_eq_true_eq, Bool.or_eq_true, not_or] at hp2
        have hp1 : p ∈ pairs.filter (fun p => ¬ hasDoc p.2) := by
          rw [List.mem_filter]
          exact ⟨hpmem, by simp [hp2.1]⟩
        have hdoc := processItem_added_doc_id _ _ _ _ _ _ _ _ _ hout
        have hwmem : (m.doc_id, m, t) ∈ fx.writes :=
          (hw _).mpr ((seqWrites_mem _ _ _ _ _ _ _).mpr ⟨p, hp1, m, r, t, hout, rfl⟩)
        have : fx.writes.any (fun w => w.1 = p.2) = true := by
          rw [List.any_eq_true]
          exact ⟨(m.doc_id, m, t), hwmem, by simp [hdoc]⟩
        exact hp2.2 (by simpa using this)
      have hnowrite : ∀ o ∈ outcomesOf env params source discovered
          (pairs.filter (fun p => ¬ hasDoc2 p.2)), writeOf o = none := by
        intro o ho
        have := hnone o ho
        cases o <;> simp [writeOf, isAddedOutcome] at this ⊢
      refine ⟨_, fx2, _, hrun2, ?_, ?_⟩
      · rw [processSequential_spec]
        simp only []
        exact List.countP_eq_zero.mpr (fun o ho => by simp [hnone o ho])
      · rw [List.eq_nil_iff_forall_not_mem]
        intro w hwmem
        have hseq := (hw2 w).mp hwmem
        rw [processSequential_spec] at hseq
        simp only [List.mem_filterMap] at hseq
        obtain ⟨o, ho, hwo⟩ := hseq
        rw [hnowrite o ho] at hwo
        exact Option.noConfusion hwo

/-- Witness for C1 at a concrete run: one discovered URL (with a tracking
parameter), the identity digest, an empty corpus and a failing fetcher. -/
theorem claim_C1_witness :
    (frontierOf (sidOf (fun s => s)) (fun _ => false)
        [{ url := "https://x.com/a?b=1&utm_source=y" }] =
      some [("https://x.com/a?b=1&utm_source=y", "https://x.com/a?b=1")]) ∧
    (∃ r fx m2,
      runMediaCloud (fun s => s) ⟨fun _ => .error "offline"⟩ {} "mediacloud"
          (fun _ => false) [{ url := "https://x.com/a?b=1&utm_source=y" }] {} =
        some (.seq r fx m2) ∧
      r.skipped_duplicate = (r.discovered : Int) - 1) := by
  have h := claim_C1_frontier_dedup_idempotent (fun s => s) ⟨fun _ => .error "offline"⟩ {}
    "mediacloud" (fun _ => false) [{ url := "https://x.com/a?b=1&utm_source=y" }] {}
    [("https://x.com/a?b=1&utm_source=y", "https://x.com/a?b=1")] (by decide)
  constructor
  · rw [h.1.1]
    decide
  · obtain ⟨r, fx, m2, hrun, hdup, _⟩ := h.2
    exact ⟨r, fx, m2, hrun, by rw [hdup]; simp⟩


/-! ## The canonicalizer as a fixed point (C5)

Supporting development for C5: UTF-8 encode/decode correctness, the
`quote_plus`/`unquote_plus` round trip, `parse_qsl` of `urlencode` output,
idempotence of the stable pair sort, and the structural analysis of re-parsing
a canonical URL.
-/

theorem toNat_ofNat_valid (n : Nat) (h : n.isValidChar) : (Char.ofNat n).toNat = n := by
  simp only [Char.ofNat, dif_pos h, Char.ofNatAux, Char.toNat, UInt32.toNat]
  rfl

theorem char_toNat_inj {c d : Char} (h : c.toNat = d.toNat) : c = d := by
  have h2 : Char.ofNat c.toNat = Char.ofNat d.toNat := by rw [h]
  rwa [Char.ofNat_toNat, Char.ofNat_toNat] at h2

theorem char_toNat_lt (c : Char) : c.toNat < 1114112 := by
  rcases c.valid with h | h
  · exact Nat.lt_trans h (by norm_num)
  · exact h.2

theorem char_not_surrogate (c : Char) : c.toNat < 55296 ∨ 57343 < c.toNat := by
  rcases c.valid with h | h
  · exact Or.inl h
  · exact Or.inr h.1

theorem utf8DecGo_dec1 (b0 : Nat) (bs : List Nat) (h : b0 < 0x80) :
    utf8DecGo [] (b0 :: bs) = Char.ofNat b0 :: utf8DecGo [] bs := by
  simp [utf8DecGo, h]

theorem utf8DecGo_dec2 (b0 b1 : Nat) (bs : List Nat)
    (h0 : 0xC2 ≤ b0) (h1 : b0 ≤ 0xDF) (h2 : 0x80 ≤ b1) (h3 : b1 ≤ 0xBF) :
    utf8DecGo [] (b0 :: b1 :: bs) =
      Char.ofNat ((b0 - 0xC0) * 64 + (b1 - 0x80)) :: utf8DecGo [] bs := by
  have hn : ¬ b0 < 0x80 := by omega
  have hf4 : b0 ≤ 0xF4 := by omega
  have hB : contOk [b0] b1 = true := by
    simp only [contOk]
    split_ifs <;> simp only [isCont, Bool.and_eq_true, decide_eq_true_eq] <;> omega
  have hL : seqLen b0 = 2 := by simp [seqLen, h1]
  simp [utf8DecGo, hn, h0, hf4, hB, hL, combineChar]

theorem utf8DecGo_dec3 (b0 b1 b2 : Nat) (bs : List Nat)
    (h0 : 0xE0 ≤ b0) (h1 : b0 ≤ 0xEF) (hc : contOk [b0] b1 = true) (h2 : isCont b2 = true) :
    utf8DecGo [] (b0 :: b1 :: b2 :: bs) =
      Char.ofNat ((b0 - 0xE0) * 4096 + (b1 - 0x80) * 64 + (b2 - 0x80)) :: utf8DecGo [] bs := by
  have hn : ¬ b0 < 0x80 := by omega
  have hc2 : 0xC2 ≤ b0 := by omega
  have hf4 : b0 ≤ 0xF4 := by omega
  have hL : seqLen b0 = 3 := by
    simp [seqLen, show ¬ b0 ≤ 0xDF by omega, h1]
  have hCo : contOk [b0, b1] b2 = true := by simpa [contOk] using h2
  simp [utf8DecGo, hn, hc2, hf4, hc, hL, hCo, combineChar]

theorem utf8DecGo_dec4 (b0 b1 b2 b3 : Nat) (bs : List Nat)
    (h0 : 0xF0 ≤ b0) (h1 : b0 ≤ 0xF4) (hc : contOk [b0] b1 = true)
    (h2 : isCont b2 = true) (h3 : isCont b3 = true) :
    utf8DecGo [] (b0 :: b1 :: b2 :: b3 :: bs) =
      Char.ofNat ((b0 - 0xF0) * 262144 + (b1 - 0x80) * 4096 + (b2 - 0x80) * 64 + (b3 - 0x80)) ::
        utf8DecGo [] bs := by
  have hn : ¬ b0 < 0x80 := by omega
  have hc2 : 0xC2 ≤ b0 := by omega
  have hL : seqLen b0 = 4 := by
    simp [seqLen, show ¬ b0 ≤ 0xDF by omega, show ¬ b0 ≤ 0xEF by omega]
  have hCo : contOk [b0, b1] b2 = true := by simpa [contOk] using h2
  have hCo2 : contOk [b0, b1, b2] b3 = true := by simpa [contOk] using h3
  simp [utf8DecGo, hn, hc2, h1, hc, hL, hCo, hCo2, combineChar]

theorem contOk_enc3 (n : Nat) (h2 : 0x800 ≤ n) (h3 : n < 0x10000)
    (hs : n < 55296 ∨ 57343 < n) :
    contOk [0xE0 + n / 4096] (0x80 + n / 64 % 64) = true := by
  rcases hs with hs | hs <;>
  · simp only [contOk]
    split_ifs <;> simp only [isCont, Bool.and_eq_true, decide_eq_true_eq] <;> omega

theorem contOk_enc4 (n : Nat) (h : 0x10000 ≤ n) (h2 : n < 1114112) :
    contOk [0xF0 + n / 262144] (0x80 + n / 4096 % 64) = true := by
  simp only [contOk]
  split_ifs <;> simp only [isCont, Bool.and_eq_true, decide_eq_true_eq] <;> omega

theorem utf8DecGo_encodeChar (c : Char) (bs : List Nat) :
    utf8DecGo [] (utf8EncodeChar c ++ bs) = c :: utf8DecGo [] bs := by
  have hlt := char_toNat_lt c
  have hsur := char_not_surrogate c
  rcases Nat.lt_or_ge c.toNat 0x80 with h1 | h1
  · have he : utf8EncodeChar c = [c.toNat] := by
      simp only [utf8EncodeChar]
      rw [if_pos h1]
    rw [he, List.cons_append, List.nil_append, utf8DecGo_dec1 _ _ h1, Char.ofNat_toNat]
  rcases Nat.lt_or_ge c.toNat 0x800 with h2 | h2
  · have he : utf8EncodeChar c = [0xC0 + c.toNat / 64, 0x80 + c.toNat % 64] := by
      simp only [utf8EncodeChar]
      rw [if_neg (by omega), if_pos (by omega)]
    rw [he]
    simp only [List.cons_append, List.nil_append]
    rw [utf8DecGo_dec2 _ _ _ (by omega) (by omega) (by omega) (by omega)]
    rw [show (0xC0 + c.toNat / 64 - 0xC0) * 64 + (0x80 + c.toNat % 64 - 0x80) = c.toNat by omega]
    rw [Char.ofNat_toNat]
  rcases Nat.lt_or_ge c.toNat 0x10000 with h3 | h3
  · have he : utf8EncodeChar c =
        [0xE0 + c.toNat / 4096, 0x80 + c.toNat / 64 % 64, 0x80 + c.toNat % 64] := by
      simp only [utf8EncodeChar]
      rw [if_neg (by omega), if_neg (by omega), if_pos (by omega)]
    rw [he]
    simp only [List.cons_append, List.nil_append]
    rw [utf8DecGo_dec3 _ _ _ _ (by omega) (by omega)
      (contOk_enc3 c.toNat h2 h3 hsur) (by simp [isCont]; omega)]
    rw [show (0xE0 + c.toNat / 4096 - 0xE0) * 4096 + (0x80 + c.toNat / 64 % 64 - 0x80) * 64 +
        (0x80 + c.toNat % 64 - 0x80) = c.toNat by omega]
    rw [Char.ofNat_toNat]
  · have he : utf8EncodeChar c =
        [0xF0 + c.toNat / 262144, 0x80 + c.toNat / 4096 % 64, 0x80 + c.toNat / 64 % 64,
         0x80 + c.toNat % 64] := by
      simp only [utf8EncodeChar]
      rw [if_neg (by omega), if_neg (by omega), if_neg (by omega)]
    rw [he]
    simp only [List.cons_append, List.nil_append]
    rw [utf8DecGo_dec4 _ _ _ _ _ (by omega) (by omega)
      (contOk_enc4 c.toNat h3 hlt) (by simp [isCont]; omega) (by simp [isCont]; omega)]
    rw [show (0xF0 + c.toNat / 262144 - 0xF0) * 262144 + (0x80 + c.toNat / 4096 % 64 - 0x80) * 4096 +
        (0x80 + c.toNat / 64 % 64 - 0x80) * 64 + (0x80 + c.toNat % 64 - 0x80) = c.toNat by omega]
    rw [Char.ofNat_toNat]

theorem utf8_roundtrip (s : List Char) : utf8DecodeReplace (utf8Encode s) = s := by
  induction s with
  | nil => rfl
  | cons c cs ih =>
      show utf8DecGo [] (utf8EncodeChar c ++ utf8Encode cs) = c :: cs
      rw [utf8DecGo_encodeChar]
      exact congrArg (c :: ·) ih

theorem hexDigit_props : ∀ n, n < 16 →
    hexVal (hexDigit n) = n ∧ isHexDigitChar (hexDigit n) = true ∧
    (hexDigit n).toNat < 0x80 ∧ hexDigit n ≠ '%' ∧ hexDigit n ≠ '+' := by decide

theorem ofNat_toNat_lt {b : Nat} (h : b < 0x80) : (Char.ofNat b).toNat = b :=
  toNat_ofNat_valid b (Or.inl (by omega))

theorem unquote_step (b : Nat) (hb : b < 256) (rest : List Char) (acc : List Nat) :
    pyUnquoteGo acc .norm (plusToSpace (quoteByte b) ++ rest) =
      pyUnquoteGo (b :: acc) .norm rest := by
  by_cases h32 : b = 32
  · subst h32
    have h1 : plusToSpace (quoteByte 32) = [' '] := by decide
    rw [h1, List.cons_append, List.nil_append]
    simp [pyUnquoteGo]
  by_cases hsafe : b < 0x80 ∧ alwaysSafe (Char.ofNat b) = true
  · have hq : quoteByte b = [Char.ofNat b] := by
      simp [quoteByte, h32, hsafe.1, hsafe.2]
    have hplus : Char.ofNat b ≠ '+' := by
      intro he
      rw [he] at hsafe
      exact absurd hsafe.2 (by decide)
    have hpct : Char.ofNat b ≠ '%' := by
      intro he
      rw [he] at hsafe
      exact absurd hsafe.2 (by decide)
    rw [hq]
    simp only [plusToSpace, List.map_cons, List.map_nil, if_neg hplus, List.cons_append,
      List.nil_append]
    rw [pyUnquoteGo.eq_def]
    simp [ofNat_toNat_lt hsafe.1, hsafe.1, hpct, plusToSpace]
  · have hq : quoteByte b = ['%', hexDigit (b / 16), hexDigit (b % 16)] := by
      simp only [quoteByte, if_neg h32]
      rw [if_neg]
      intro hcond
      simp only [Bool.and_eq_true, decide_eq_true_eq] at hcond
      exact hsafe hcond
    obtain ⟨hv1, hh1, hlt1, hp1, hplus1⟩ := hexDigit_props (b / 16) (by omega)
    obtain ⟨hv2, hh2, hlt2, hp2, hplus2⟩ := hexDigit_props (b % 16) (by omega)
    rw [hq]
    simp only [plusToSpace, List.map_cons, List.map_nil,
      if_neg (by decide : ¬ ('%' : Char) = '+'), if_neg hplus1, if_neg hplus2,
      List.cons_append, List.nil_append]
    rw [pyUnquoteGo.eq_def]
    simp only [show ¬ ('%' : Char).toNat ≥ 0x80 by decide, if_neg, ite_false, if_pos rfl,
      reduceIte]
    rw [pyUnquoteGo.eq_def]
    simp only [show ¬ (hexDigit (b / 16)).toNat ≥ 0x80 by omega, ite_false, reduceIte, hh1,
      ite_true, if_pos]
    rw [pyUnquoteGo.eq_def]
    simp only [show ¬ (hexDigit (b % 16)).toNat ≥ 0x80 by omega, ite_false, reduceIte, hh2,
      ite_true, if_pos, hv1, hv2]
    rw [show b / 16 * 16 + b % 16 = b by omega]



theorem utf8EncodeChar_lt (c : Char) : ∀ b ∈ utf8EncodeChar c, b < 256 := by
  intro b hb
  have hlt := char_toNat_lt c
  simp only [utf8EncodeChar] at hb
  split_ifs at hb <;> simp at hb <;> omega

theorem unquote_scan (bs : List Nat) (acc : List Nat) (h : ∀ b ∈ bs, b < 256) :
    pyUnquoteGo acc .norm (plusToSpace (bs.flatMap quoteByte)) =
      utf8DecodeReplace (acc.reverse ++ bs) := by
  induction bs generalizing acc with
  | nil =>
      simp [pyUnquoteGo, plusToSpace, stBytes]
  | cons b t ih =>
      rw [List.flatMap_cons, show plusToSpace (quoteByte b ++ t.flatMap quoteByte) =
        plusToSpace (quoteByte b) ++ plusToSpace (t.flatMap quoteByte) from
        List.map_append _ _ _]
      rw [unquote_step b (h b (by simp)) _ acc]
      rw [ih (b :: acc) (fun x hx => h x (by simp [hx]))]
      simp

theorem unquote_quotePlus (s : List Char) : unquotePlusPart (quotePlus s) = s := by
  show pyUnquote (plusToSpace (quotePlus s)) = s
  show pyUnquoteGo [] .norm (plusToSpace ((utf8Encode s).flatMap quoteByte)) = s
  rw [unquote_scan _ [] (fun b hb => by
    simp only [utf8Encode, List.mem_flatMap] at hb
    obtain ⟨c, _, hc⟩ := hb
    exact utf8EncodeChar_lt c b hc)]
  simp [utf8_roundtrip]



theorem char_le_iff (c d : Char) : c ≤ d ↔ c.toNat ≤ d.toNat := Iff.rfl

theorem char_lt_iff (c d : Char) : c < d ↔ c.toNat < d.toNat := Iff.rfl

theorem hexDigit_alwaysSafe (n : Nat) : alwaysSafe (hexDigit n) = true := by
  rcases Nat.lt_or_ge n 16 with h | h
  · exact (by decide : ∀ m, m < 16 → alwaysSafe (hexDigit m) = true) n h
  · unfold hexDigit
    rw [List.getD_eq_default]
    · decide
    · have : ("0123456789ABCDEF".toList).length = 16 := by decide
      omega

theorem quoteByte_safe (b : Nat) :
    ∀ c ∈ quoteByte b, alwaysSafe c = true ∨ c = '+' ∨ c = '%' := by
  intro c hc
  simp only [quoteByte] at hc
  split_ifs at hc with h1 h2
  · simp only [List.mem_singleton] at hc
    subst hc
    exact Or.inr (Or.inl rfl)
  · simp only [List.mem_singleton] at hc
    subst hc
    exact Or.inl (Bool.and_elim_right h2)
  · simp only [List.mem_cons, List.mem_singleton, List.not_mem_nil, or_false] at hc
    rcases hc with hc | hc | hc <;> subst hc
    · exact Or.inr (Or.inr rfl)
    · exact Or.inl (hexDigit_alwaysSafe _)
    · exact Or.inl (hexDigit_alwaysSafe _)

theorem quotePlus_safe (s : List Char) :
    ∀ c ∈ quotePlus s, alwaysSafe c = true ∨ c = '+' ∨ c = '%' := by
  intro c hc
  simp only [quotePlus, List.mem_flatMap] at hc
  obtain ⟨b, _, hb⟩ := hc
  exact quoteByte_safe b c hb

theorem safe_ne {c x : Char} (h : alwaysSafe c = true ∨ c = '+' ∨ c = '%')
    (hx : ¬ (alwaysSafe x = true ∨ x = '+' ∨ x = '%')) : c ≠ x :=
  fun he => hx (he ▸ h)

theorem pyIsSpace_toNat {c : Char} (h : pyIsSpace c = true) :
    c.toNat ≤ 0x20 ∨ 0x7F ≤ c.toNat := by
  have heq : ∀ (d : Char), (c = d) ↔ (c.toNat = d.toNat) :=
    fun d => ⟨fun h2 => by rw [h2], char_toNat_inj⟩
  simp only [pyIsSpace, Bool.or_eq_true, decide_eq_true_eq, Bool.and_eq_true, heq,
    show ((' ' : Char)).toNat = 32 from rfl, show (('\t' : Char)).toNat = 9 from rfl,
    show (('\n' : Char)).toNat = 10 from rfl, show (('\x0d' : Char)).toNat = 13 from rfl,
    show (('\x0b' : Char)).toNat = 11 from rfl, show (('\x0c' : Char)).toNat = 12 from rfl,
    show (('\x1c' : Char)).toNat = 28 from rfl, show (('\x1d' : Char)).toNat = 29 from rfl,
    show (('\x1e' : Char)).toNat = 30 from rfl, show (('\x1f' : Char)).toNat = 31 from rfl,
    show (('\x85' : Char)).toNat = 133 from rfl, show (('\xa0' : Char)).toNat = 160 from rfl]
    at h
  omega

theorem alwaysSafe_toNat {c : Char} (h : alwaysSafe c = true) :
    0x20 < c.toNat ∧ c.toNat < 0x7F := by
  have heq : ∀ (d : Char), (c = d) ↔ (c.toNat = d.toNat) :=
    fun d => ⟨fun h2 => by rw [h2], char_toNat_inj⟩
  simp only [alwaysSafe, Char.isAlpha, Char.isUpper, Char.isLower, Char.isDigit,
    Bool.or_eq_true, Bool.and_eq_true, decide_eq_true_eq, heq,
    show ∀ (a b : UInt32), (a ≤ b) = (a.toNat ≤ b.toNat) from fun a b => rfl,
    show ∀ (a b : UInt32), (a ≥ b) = (b.toNat ≤ a.toNat) from fun a b => rfl,
    show ((95 : UInt32)).toNat = 95 from rfl, show ((65 : UInt32)).toNat = 65 from rfl,
    show ((90 : UInt32)).toNat = 90 from rfl, show ((97 : UInt32)).toNat = 97 from rfl,
    show ((122 : UInt32)).toNat = 122 from rfl, show ((48 : UInt32)).toNat = 48 from rfl,
    show ((57 : UInt32)).toNat = 57 from rfl,
    show (('_' : Char)).toNat = 95 from rfl, show (('.' : Char)).toNat = 46 from rfl,
    show (('-' : Char)).toNat = 45 from rfl, show (('~' : Char)).toNat = 126 from rfl,
    show ∀ (d : Char), d.val.toNat = d.toNat from fun d => rfl] at h
  omega



theorem splitSep_ne_nil (c : Char) (l : List Char) : splitSep c l ≠ [] := by
  cases l with
  | nil => simp [splitSep]
  | cons x xs =>
      simp only [splitSep]
      split_ifs
      · simp
      · cases h2 : splitSep c xs <;> simp

theorem splitSep_not_mem {c : Char} {l : List Char} (h : c ∉ l) : splitSep c l = [l] := by
  induction l with
  | nil => rfl
  | cons x xs ih =>
      simp only [List.mem_cons, not_or] at h
      simp only [splitSep, if_neg (Ne.symm h.1), ih h.2]

theorem splitSep_append {c : Char} {l r : List Char} (h : c ∉ l) :
    splitSep c (l ++ c :: r) = l :: splitSep c r := by
  induction l with
  | nil => simp [splitSep]
  | cons x xs ih =>
      simp only [List.mem_cons, not_or] at h
      rw [List.cons_append]
      simp only [splitSep, if_neg (Ne.symm h.1)]
      rw [ih h.2]

theorem splitOnFirst_not_mem {c : Char} {l : List Char} (h : c ∉ l) :
    splitOnFirst c l = none := by
  induction l with
  | nil => rfl
  | cons x xs ih =>
      simp only [List.mem_cons, not_or] at h
      simp only [splitOnFirst, if_neg (Ne.symm h.1), ih h.2, Option.map_none']

theorem splitOnFirst_append {c : Char} {l r : List Char} (h : c ∉ l) :
    splitOnFirst c (l ++ c :: r) = some (l, r) := by
  induction l with
  | nil => simp [splitOnFirst]
  | cons x xs ih =>
      simp only [List.mem_cons, not_or] at h
      rw [List.cons_append]
      simp only [splitOnFirst, if_neg (Ne.symm h.1), ih h.2, Option.map_some']

theorem splitOnFirst_eq_some {c : Char} {l a b : List Char}
    (h : splitOnFirst c l = some (a, b)) : l = a ++ c :: b ∧ c ∉ a := by
  induction l generalizing a with
  | nil => simp [splitOnFirst] at h
  | cons x xs ih =>
      simp only [splitOnFirst] at h
      by_cases hx : x = c
      · rw [if_pos hx] at h
        simp only [Option.some_inj, Prod.mk.injEq] at h
        refine ⟨?_, by rw [← h.1]; exact List.not_mem_nil c⟩
        rw [← h.1, ← h.2, hx]
        rfl
      · rw [if_neg hx] at h
        cases h2 : splitOnFirst c xs with
        | none => rw [h2] at h; simp at h
        | some p =>
            rw [h2] at h
            simp only [Option.map_some', Option.some_inj, Prod.mk.injEq] at h
            have hxs := ih (a := p.1) (by rw [h2, ← h.2])
            refine ⟨?_, ?_⟩
            · rw [← h.1, List.cons_append]
              exact congrArg (x :: ·) hxs.1
            · rw [← h.1]
              simp only [List.mem_cons, not_or]
              exact ⟨Ne.symm hx, hxs.2⟩



theorem quotePlus_not_amp {s : List Char} : '&' ∉ quotePlus s :=
  fun hm => absurd (quotePlus_safe s '&' hm) (by decide)

theorem quotePlus_not_eq {s : List Char} : '=' ∉ quotePlus s :=
  fun hm => absurd (quotePlus_safe s '=' hm) (by decide)

theorem encPair_ne_nil (kv : List Char × List Char) :
    quotePlus kv.1 ++ '=' :: quotePlus kv.2 ≠ [] := by
  simp

theorem encPair_not_amp (kv : List Char × List Char) :
    '&' ∉ quotePlus kv.1 ++ '=' :: quotePlus kv.2 := by
  simp only [List.mem_append, List.mem_cons, not_or]
  exact ⟨quotePlus_not_amp, by decide, quotePlus_not_amp⟩

theorem parse_encPair (kv : List Char × List Char) :
    (if (quotePlus kv.1 ++ '=' :: quotePlus kv.2).isEmpty then
      (none : Option (List Char × List Char))
     else
      match splitOnFirst '=' (quotePlus kv.1 ++ '=' :: quotePlus kv.2) with
      | some p => some (unquotePlusPart p.1, unquotePlusPart p.2)
      | none => some (unquotePlusPart (quotePlus kv.1 ++ '=' :: quotePlus kv.2), [])) =
    some kv := by
  rw [if_neg (by simp)]
  rw [splitOnFirst_append quotePlus_not_eq]
  simp only [unquote_quotePlus]

theorem urlencodePairs_cons_cons (kv y : List Char × List Char)
    (t : List (List Char × List Char)) :
    urlencodePairs (kv :: y :: t) =
      (quotePlus kv.1 ++ '=' :: quotePlus kv.2) ++ '&' :: urlencodePairs (y :: t) := by
  simp [urlencodePairs, List.intercalate, List.intersperse]

theorem urlencodePairs_single (kv : List Char × List Char) :
    urlencodePairs [kv] = quotePlus kv.1 ++ '=' :: quotePlus kv.2 := by
  simp [urlencodePairs, List.intercalate]

theorem urlencodePairs_ne_nil (kv : List Char × List Char)
    (t : List (List Char × List Char)) : urlencodePairs (kv :: t) ≠ [] := by
  cases t with
  | nil => rw [urlencodePairs_single]; exact encPair_ne_nil kv
  | cons y t' => rw [urlencodePairs_cons_cons]; simp

theorem parseQsl_urlencode (Q : List (List Char × List Char)) :
    parseQsl (urlencodePairs Q) = Q := by
  induction Q with
  | nil => rfl
  | cons kv t ih =>
      cases t with
      | nil =>
          rw [urlencodePairs_single]
          rw [parseQsl, if_neg (by simp)]
          rw [splitSep_not_mem (encPair_not_amp kv)]
          simp only [List.filterMap_cons, List.filterMap_nil]
          rw [parse_encPair kv]
      | cons y t' =>
          rw [urlencodePairs_cons_cons]
          rw [parseQsl, if_neg (by simp [urlencodePairs_ne_nil])]
          rw [splitSep_append (encPair_not_amp kv)]
          simp only [List.filterMap_cons]
          rw [parse_encPair kv]
          have hrest : parseQsl (urlencodePairs (y :: t')) =
              List.filterMap (fun nv =>
                if nv.isEmpty then none
                else
                  match splitOnFirst '=' nv with
                  | some p => some (unquotePlusPart p.1, unquotePlusPart p.2)
                  | none => some (unquotePlusPart nv, []))
                (splitSep '&' (urlencodePairs (y :: t'))) := by
            rw [parseQsl, if_neg (by simp [urlencodePairs_ne_nil])]
          rw [← hrest, ih]



theorem strLt_asymm : ∀ {a b : List Char}, strLt a b = true → strLt b a = false := by
  intro a
  induction a with
  | nil =>
      intro b h
      cases b with
      | nil => simp [strLt] at h
      | cons y ys => rfl
  | cons x xs ih =>
      intro b h
      cases b with
      | nil => simp [strLt] at h
      | cons y ys =>
          simp only [strLt, Bool.or_eq_true, Bool.and_eq_true, decide_eq_true_eq] at h ⊢
          simp only [Bool.or_eq_false_iff, Bool.and_eq_false_iff, decide_eq_false_iff_not]
          rcases h with h | ⟨hxy, hs⟩
          · exact ⟨not_lt_of_lt h, Or.inl (fun he => absurd (he ▸ h) (lt_irrefl y))⟩
          · subst hxy
            exact ⟨lt_irrefl x, Or.inr (ih hs)⟩

theorem strLt_conn : ∀ {a b : List Char}, strLt a b = false → strLt b a = false → a = b := by
  intro a
  induction a with
  | nil =>
      intro b h1 h2
      cases b with
      | nil => rfl
      | cons y ys => simp [strLt] at h1
  | cons x xs ih =>
      intro b h1 h2
      cases b with
      | nil => simp [strLt] at h2
      | cons y ys =>
          simp only [strLt, Bool.or_eq_false_iff, Bool.and_eq_false_iff,
            decide_eq_false_iff_not] at h1 h2
          have hxy : x = y := le_antisymm (not_lt.mp h2.1) (not_lt.mp h1.1)
          subst hxy
          rcases h1.2 with h | h
          · exact absurd rfl h
          rcases h2.2 with h2' | h2'
          · exact absurd rfl h2'
          rw [ih h h2']

theorem strLt_irrefl (x : List Char) : strLt x x = false := by
  cases hc : strLt x x with
  | false => rfl
  | true => exact absurd (strLt_asymm hc) (by simp [hc])

theorem pairLt_asymm {a b : List Char × List Char} (h : pairLt a b = true) :
    pairLt b a = false := by
  simp only [pairLt, Bool.or_eq_true, Bool.and_eq_true, decide_eq_true_eq] at h
  simp only [pairLt, Bool.or_eq_false_iff, Bool.and_eq_false_iff, decide_eq_false_iff_not]
  rcases h with h | ⟨he, hs⟩
  · refine ⟨strLt_asymm h, Or.inl fun he2 => ?_⟩
    rw [he2] at h
    rw [strLt_irrefl] at h
    exact Bool.false_ne_true h
  · rw [← he]
    exact ⟨strLt_irrefl a.1, Or.inr (strLt_asymm hs)⟩

theorem pairLt_conn {a b : List Char × List Char} (h1 : pairLt a b = false)
    (h2 : pairLt b a = false) : a = b := by
  simp only [pairLt, Bool.or_eq_false_iff, Bool.and_eq_false_iff,
    decide_eq_false_iff_not] at h1 h2
  have he : a.1 = b.1 := strLt_conn h1.1 h2.1
  rcases h1.2 with h | h
  · exact absurd he h
  rcases h2.2 with h2' | h2'
  · exact absurd he.symm h2'
  exact Prod.ext he (strLt_conn h h2')



theorem insertPair_perm (x : List Char × List Char) (l : List (List Char × List Char)) :
    List.Perm (insertPair x l) (x :: l) := by
  induction l with
  | nil => exact List.Perm.refl _
  | cons y ys ih =>
      simp only [insertPair]
      split_ifs
      · exact List.Perm.refl _
      · exact (List.Perm.cons y ih).trans (List.Perm.swap x y ys)

theorem insertPair_mem {y x : List Char × List Char} {l : List (List Char × List Char)} :
    y ∈ insertPair x l ↔ y = x ∨ y ∈ l := by
  rw [(insertPair_perm x l).mem_iff]
  simp

theorem sortPairs_perm (l : List (List Char × List Char)) : List.Perm (sortPairs l) l := by
  induction l with
  | nil => exact List.Perm.refl _
  | cons x xs ih =>
      exact (insertPair_perm x (sortPairs xs)).trans (List.Perm.cons x ih)

theorem sortPairs_mem {y : List Char × List Char} {l : List (List Char × List Char)} :
    y ∈ sortPairs l ↔ y ∈ l := (sortPairs_perm l).mem_iff

theorem insertPair_chain {x : List Char × List Char} {l : List (List Char × List Char)}
    (h : List.Chain' (fun a b => pairLt b a = false) l) :
    List.Chain' (fun a b => pairLt b a = false) (insertPair x l) := by
  induction l with
  | nil => simp [insertPair]
  | cons y ys ih =>
      simp only [insertPair]
      split_ifs with hxy
      · exact List.Chain'.cons (pairLt_asymm hxy) h
      · rw [List.chain'_cons']
        refine ⟨?_, ih h.tail⟩
        intro b hb
        cases ys with
        | nil =>
            simp [insertPair] at hb
            subst hb
            simpa using hxy
        | cons z zs =>
            simp only [insertPair] at hb
            split_ifs at hb with hxz
            · simp only [List.head?_cons, Option.mem_def, Option.some_inj] at hb
              subst hb
              simpa using hxy
            · simp only [List.head?_cons, Option.mem_def, Option.some_inj] at hb
              subst hb
              exact List.chain'_cons.mp h |>.1

theorem sortPairs_chain (l : List (List Char × List Char)) :
    List.Chain' (fun a b => pairLt b a = false) (sortPairs l) := by
  induction l with
  | nil => simp [sortPairs]
  | cons x xs ih => exact insertPair_chain ih

theorem insertPair_sorted_cons : ∀ (x : List Char × List Char)
    (l : List (List Char × List Char)),
    List.Chain' (fun a b => pairLt b a = false) (x :: l) → insertPair x l = x :: l := by
  intro x l
  induction l generalizing x with
  | nil => intro _; rfl
  | cons y ys ih =>
      intro h
      have hyx : pairLt y x = false := List.chain'_cons.mp h |>.1
      simp only [insertPair]
      split_ifs with hxy
      · rfl
      · have hxeq : x = y := pairLt_conn (by simpa using hxy) hyx
        subst hxeq
        rw [ih x h.tail]



theorem sortPairs_of_chain {l : List (List Char × List Char)}
    (h : List.Chain' (fun a b => pairLt b a = false) l) : sortPairs l = l := by
  induction l with
  | nil => rfl
  | cons x xs ih =>
      simp only [sortPairs]
      rw [ih h.tail]
      exact insertPair_sorted_cons x xs h

theorem sortPairs_idem (l : List (List Char × List Char)) :
    sortPairs (sortPairs l) = sortPairs l :=
  sortPairs_of_chain (sortPairs_chain l)

theorem canonPairs_roundtrip (p : ParsedUrl) :
    sortPairs ((parseQsl (urlencodePairs (canonPairs p))).filter
      (fun kv => ¬ kv.1 ∈ TRACKERS)) = canonPairs p := by
  rw [parseQsl_urlencode]
  rw [List.filter_eq_self.mpr]
  · exact sortPairs_of_chain (sortPairs_chain _)
  · intro kv hkv
    rw [canonPairs] at hkv
    rw [sortPairs_mem] at hkv
    have := List.of_mem_filter hkv
    exact this



theorem toLower_toNat (c : Char) :
    (c.toLower).toNat = if 65 ≤ c.toNat ∧ c.toNat ≤ 90 then c.toNat + 32 else c.toNat := by
  unfold Char.toLower
  split
  · rename_i h
    rw [if_pos (by omega)]
    exact toNat_ofNat_valid _ (Or.inl (by omega))
  · rename_i h
    rw [if_neg (by omega)]

theorem toLower_toLower (c : Char) : c.toLower.toLower = c.toLower := by
  apply char_toNat_inj
  rw [toLower_toNat, toLower_toNat c]
  split
  · rw [if_neg (by omega)]
  · rfl

theorem map_toLower_idem (l : List Char) :
    (l.map Char.toLower).map Char.toLower = l.map Char.toLower := by
  rw [List.map_map]
  exact List.map_congr_left (fun c _ => toLower_toLower c)

theorem toLower_eq_imp {c d : Char} (h : c.toLower = d) :
    c = d ∨ (97 ≤ d.toNat ∧ d.toNat ≤ 122) := by
  have h2 := toLower_toNat c
  rw [h] at h2
  rcases Decidable.em (65 ≤ c.toNat ∧ c.toNat ≤ 90) with hc | hc
  · rw [if_pos hc] at h2
    exact Or.inr (by omega)
  · rw [if_neg hc] at h2
    exact Or.inl (char_toNat_inj h2.symm)

theorem toLower_pc {c : Char} (h1 : 0x20 < c.toNat) (h2 : pyIsSpace c = false) :
    0x20 < (Char.toLower c).toNat ∧ pyIsSpace (Char.toLower c) = false := by
  rcases Decidable.em (65 ≤ c.toNat ∧ c.toNat ≤ 90) with hc | hc
  · have ht : (Char.toLower c).toNat = c.toNat + 32 := by rw [toLower_toNat, if_pos hc]
    refine ⟨by omega, ?_⟩
    cases hsp : pyIsSpace (Char.toLower c) with
    | false => rfl
    | true =>
        rcases pyIsSpace_toNat hsp with hr | hr <;> omega
  · have ht : Char.toLower c = c := char_toNat_inj (by rw [toLower_toNat, if_neg hc])
    rw [ht]
    exact ⟨h1, h2⟩

theorem pyStrip_eq_self {l : List Char} (h : ∀ c ∈ l, pyIsSpace c = false) :
    pyStrip l = l := by
  unfold pyStrip
  have h1 : l.dropWhile pyIsSpace = l := by
    rw [List.dropWhile_eq_self_iff]
    intro hne
    simp only [List.get_eq_getElem]
    rw [h _ (List.getElem_mem hne)]
    simp
  rw [h1]
  have h2 : l.reverse.dropWhile pyIsSpace = l.reverse := by
    rw [List.dropWhile_eq_self_iff]
    intro hne
    have hlen : l.reverse.length = l.length := List.length_reverse l
    have hm : l.reverse[0] ∈ l := by
      rw [← List.mem_reverse]
      exact List.getElem_mem hne
    simp only [List.get_eq_getElem]
    rw [h _ hm]
    simp
  rw [h2, List.reverse_reverse]

theorem lstripC0_eq_self {l : List Char} (h : ∀ c ∈ l, 0x20 < c.toNat) :
    lstripC0 l = l := by
  unfold lstripC0
  rw [List.dropWhile_eq_self_iff]
  intro hne
  have := h _ (List.getElem_mem hne)
  simp only [List.get_eq_getElem, decide_eq_true_eq]
  omega

theorem removeUnsafeBytes_eq_self {l : List Char} (h : ∀ c ∈ l, 0x20 < c.toNat) :
    removeUnsafeBytes l = l := by
  unfold removeUnsafeBytes
  rw [List.filter_eq_self]
  intro c hc
  have hlt := h c hc
  simp only [decide_eq_true_eq, not_or]
  refine ⟨fun he => ?_, fun he => ?_, fun he => ?_⟩ <;> (subst he; simp at hlt)



theorem splitOnFirst_none_mem {c : Char} {l : List Char} (h : splitOnFirst c l = none) :
    c ∉ l := by
  induction l with
  | nil => simp
  | cons x xs ih =>
      simp only [splitOnFirst] at h
      split_ifs at h with hx
      simp only [Option.map_eq_none'] at h
      simp only [List.mem_cons, not_or]
      exact ⟨fun he => hx he.symm, ih h⟩

theorem splitOnLast_not_mem {c : Char} {l : List Char} (h : c ∉ l) :
    splitOnLast c l = none := by
  unfold splitOnLast
  rw [splitOnFirst_not_mem (by simpa using h)]

theorem splitOnLast_eq_some {c : Char} {l a b : List Char}
    (h : splitOnLast c l = some (a, b)) : l = a ++ c :: b ∧ c ∉ b := by
  unfold splitOnLast at h
  cases h2 : splitOnFirst c l.reverse with
  | none => rw [h2] at h; simp at h
  | some p =>
      rw [h2] at h
      simp only [Option.some_inj, Prod.mk.injEq] at h
      obtain ⟨hrev, hnm⟩ := splitOnFirst_eq_some (l := l.reverse) (a := p.1) (b := p.2)
        (by rw [h2])
      constructor
      · rw [← h.1, ← h.2]
        have := congrArg List.reverse hrev
        rw [List.reverse_reverse] at this
        rw [this]
        simp
      · rw [← h.2]
        simpa using hnm

theorem splitOnLast_append {c : Char} {a b : List Char} (h : c ∉ b) :
    splitOnLast c (a ++ c :: b) = some (a, b) := by
  unfold splitOnLast
  have hrev : (a ++ c :: b).reverse = b.reverse ++ c :: a.reverse := by simp
  rw [hrev, splitOnFirst_append (by simpa using h)]
  simp

theorem splitOnLast_none_mem {c : Char} {l : List Char} (h : splitOnLast c l = none) :
    c ∉ l := by
  unfold splitOnLast at h
  cases h2 : splitOnFirst c l.reverse with
  | none =>
      have := splitOnFirst_none_mem h2
      simpa using this
  | some p => rw [h2] at h; simp at h



theorem lastSeg_some {x : List Char} {p : List Char × List Char}
    (h : splitOnLast '/' x = some p) : lastSeg x = p.2 := by
  unfold lastSeg
  rw [h]

theorem lastSeg_none {x : List Char} (h : splitOnLast '/' x = none) : lastSeg x = x := by
  unfold lastSeg
  rw [h]

theorem splitParamsPath_some {x : List Char} {p : List Char × List Char}
    (h : splitOnLast '/' x = some p) :
    splitParamsPath x =
      if p.2.contains ';' then p.1 ++ '/' :: p.2.takeWhile (fun c => c ≠ ';') else x := by
  unfold splitParamsPath
  rw [h]

theorem splitParamsPath_none {x : List Char} (h : splitOnLast '/' x = none) :
    splitParamsPath x = if x.contains ';' then x.takeWhile (fun c => c ≠ ';') else x := by
  unfold splitParamsPath
  rw [h]

theorem contains_false_not_mem {c : Char} {l : List Char} (h : l.contains c = false) :
    c ∉ l := fun hm => by
  have h2 : List.elem c l = false := h
  rw [List.elem_iff.mpr hm] at h2
  cases h2

theorem takeWhile_not_semi (l : List Char) :
    (l.takeWhile (fun c => c ≠ ';')).contains ';' = false := by
  rw [← Bool.not_eq_true, List.elem_iff]
  intro hm
  have := List.mem_takeWhile_imp hm
  simp at this

theorem lastSeg_no_semi_fix {x : List Char} (h : (lastSeg x).contains ';' = false) :
    splitParamsPath x = x := by
  cases h2 : splitOnLast '/' x with
  | some p =>
      rw [lastSeg_some h2] at h
      rw [splitParamsPath_some h2, if_neg (by simp [contains_false_not_mem h])]
  | none =>
      rw [lastSeg_none h2] at h
      rw [splitParamsPath_none h2, if_neg (by simp [contains_false_not_mem h])]

theorem splitParamsPath_no_semi (x : List Char) :
    (lastSeg (splitParamsPath x)).contains ';' = false := by
  cases h2 : splitOnLast '/' x with
  | some p =>
      obtain ⟨hx, hnm⟩ := splitOnLast_eq_some (l := x) (a := p.1) (b := p.2) (by rw [h2])
      rw [splitParamsPath_some h2]
      by_cases hsemi : p.2.contains ';' = true
      · rw [if_pos hsemi]
        rw [lastSeg_some (splitOnLast_append (fun hm => hnm ((List.takeWhile_sublist _).subset hm)))]
        exact takeWhile_not_semi p.2
      · rw [if_neg hsemi]
        rw [lastSeg_some h2]
        simpa using hsemi
  | none =>
      have hnm := splitOnLast_none_mem h2
      rw [splitParamsPath_none h2]
      by_cases hsemi : x.contains ';' = true
      · rw [if_pos hsemi]
        rw [lastSeg_none (splitOnLast_not_mem (fun hm => hnm ((List.takeWhile_sublist _).subset hm)))]
        exact takeWhile_not_semi x
      · rw [if_neg hsemi]
        rw [lastSeg_none h2]
        simpa using hsemi

theorem lastSeg_slash_cons {x : List Char} (h : (lastSeg x).contains ';' = false) :
    (lastSeg ('/' :: x)).contains ';' = false := by
  cases h2 : splitOnLast '/' x with
  | some p =>
      obtain ⟨hx, hnm⟩ := splitOnLast_eq_some (l := x) (a := p.1) (b := p.2) (by rw [h2])
      rw [lastSeg_some h2] at h
      have : splitOnLast '/' ('/' :: x) = some ('/' :: p.1, p.2) := by
        rw [hx]
        exact splitOnLast_append (c := '/') (a := '/' :: p.1) hnm
      rw [lastSeg_some this]
      exact h
  | none =>
      have hnm := splitOnLast_none_mem h2
      rw [lastSeg_none h2] at h
      have : splitOnLast '/' ('/' :: x) = some ([], x) :=
        splitOnLast_append (c := '/') (a := []) hnm
      rw [lastSeg_some this]
      exact h

theorem contains_false_lastSeg {x : List Char} (h : x.contains ';' = false) :
    (lastSeg x).contains ';' = false := by
  cases h2 : splitOnLast '/' x with
  | some p =>
      obtain ⟨hx, _⟩ := splitOnLast_eq_some (l := x) (a := p.1) (b := p.2) (by rw [h2])
      rw [lastSeg_some h2]
      rw [← Bool.not_eq_true, List.elem_iff]
      intro hm
      rw [← Bool.not_eq_true, List.elem_iff] at h
      exact h (by rw [hx]; simp [hm])
  | none =>
      rw [lastSeg_none h2]
      exact h



theorem pred_ne {p : Char → Bool} {c x : Char} (h : p c = true) (hx : p x = false) :
    c ≠ x := fun he => by
  rw [he] at h
  rw [h] at hx
  cases hx

theorem char_eq_iff_toNat {c d : Char} : (c = d) ↔ (c.toNat = d.toNat) :=
  ⟨fun h2 => by rw [h2], char_toNat_inj⟩

theorem isAlpha_iff_toNat (c : Char) :
    c.isAlpha = true ↔ (65 ≤ c.toNat ∧ c.toNat ≤ 90) ∨ (97 ≤ c.toNat ∧ c.toNat ≤ 122) := by
  simp only [Char.isAlpha, Char.isUpper, Char.isLower, Bool.or_eq_true, Bool.and_eq_true,
    decide_eq_true_eq,
    show ∀ (a b : UInt32), (a ≤ b) = (a.toNat ≤ b.toNat) from fun a b => rfl,
    show ∀ (a b : UInt32), (a ≥ b) = (b.toNat ≤ a.toNat) from fun a b => rfl,
    show ((65 : UInt32)).toNat = 65 from rfl, show ((90 : UInt32)).toNat = 90 from rfl,
    show ((97 : UInt32)).toNat = 97 from rfl, show ((122 : UInt32)).toNat = 122 from rfl,
    show ∀ (d : Char), d.val.toNat = d.toNat from fun d => rfl]

theorem isDigit_iff_toNat (c : Char) :
    c.isDigit = true ↔ 48 ≤ c.toNat ∧ c.toNat ≤ 57 := by
  simp only [Char.isDigit, Bool.and_eq_true, decide_eq_true_eq,
    show ∀ (a b : UInt32), (a ≤ b) = (a.toNat ≤ b.toNat) from fun a b => rfl,
    show ∀ (a b : UInt32), (a ≥ b) = (b.toNat ≤ a.toNat) from fun a b => rfl,
    show ((48 : UInt32)).toNat = 48 from rfl, show ((57 : UInt32)).toNat = 57 from rfl,
    show ∀ (d : Char), d.val.toNat = d.toNat from fun d => rfl]

theorem isSchemeChar_iff_toNat (c : Char) :
    isSchemeChar c = true ↔
      (65 ≤ c.toNat ∧ c.toNat ≤ 90) ∨ (97 ≤ c.toNat ∧ c.toNat ≤ 122) ∨
      (48 ≤ c.toNat ∧ c.toNat ≤ 57) ∨ c.toNat = 43 ∨ c.toNat = 45 ∨ c.toNat = 46 := by
  simp only [isSchemeChar, Bool.or_eq_true, decide_eq_true_eq, isAlpha_iff_toNat,
    isDigit_iff_toNat, char_eq_iff_toNat,
    show (('+' : Char)).toNat = 43 from rfl, show (('-' : Char)).toNat = 45 from rfl,
    show (('.' : Char)).toNat = 46 from rfl]
  tauto

theorem isSchemeChar_pc {c : Char} (h : isSchemeChar c = true) :
    0x20 < c.toNat ∧ pyIsSpace c = false := by
  rw [isSchemeChar_iff_toNat] at h
  refine ⟨by omega, ?_⟩
  cases hsp : pyIsSpace c with
  | false => rfl
  | true => rcases pyIsSpace_toNat hsp with hr | hr <;> omega

theorem isSchemeChar_toLower {c : Char} (h : isSchemeChar c = true) :
    isSchemeChar (Char.toLower c) = true := by
  rw [isSchemeChar_iff_toNat] at h ⊢
  rw [toLower_toNat]
  split_ifs <;> omega

theorem isAlpha_toLower {c : Char} (h : c.isAlpha = true) :
    (Char.toLower c).isAlpha = true := by
  rw [isAlpha_iff_toNat] at h ⊢
  rw [toLower_toNat]
  split_ifs <;> omega

theorem splitScheme_cases (l : List Char) :
    (splitScheme l = ([], l) ∧ ∀ pre post, splitOnFirst ':' l = some (pre, post) →
        pre = [] ∨ ¬ ((pre.head?.getD ' ').isAlpha = true ∧ pre.all isSchemeChar = true)) ∨
    (∃ pre post, splitOnFirst ':' l = some (pre, post) ∧ pre ≠ [] ∧ ':' ∉ pre ∧
        (pre.head?.getD ' ').isAlpha = true ∧ pre.all isSchemeChar = true ∧
        splitScheme l = (pre.map Char.toLower, post)) := by
  unfold splitScheme
  split
  · rename_i heq
    exact Or.inl ⟨rfl, fun pre post hc => by rw [heq] at hc; cases hc⟩
  · rename_i pre post heq
    by_cases h1 : pre.isEmpty
    · rw [if_pos h1]
      refine Or.inl ⟨rfl, fun pre2 post2 hc => ?_⟩
      rw [heq] at hc
      simp only [Option.some_inj, Prod.mk.injEq] at hc
      exact Or.inl (by rw [← hc.1]; exact List.isEmpty_iff.mp h1)
    · rw [if_neg h1]
      by_cases h2 : ((pre.head?.getD ' ').isAlpha && pre.all isSchemeChar) = true
      · rw [if_pos h2]
        simp only [Bool.and_eq_true] at h2
        exact Or.inr ⟨pre, post, heq, fun he => h1 (by rw [he]; rfl),
          (splitOnFirst_eq_some heq).2, h2.1, h2.2, rfl⟩
      · rw [if_neg h2]
        refine Or.inl ⟨rfl, fun pre2 post2 hc => ?_⟩
        rw [heq] at hc
        simp only [Option.some_inj, Prod.mk.injEq] at hc
        refine Or.inr (fun hcon => h2 ?_)
        rw [hc.1]
        simp [hcon.1, hcon.2]



theorem splitScheme_append {s r : List Char} (hne : s ≠ []) (hcol : ':' ∉ s)
    (halpha : (s.head?.getD ' ').isAlpha = true) (hall : s.all isSchemeChar = true) :
    splitScheme (s ++ ':' :: r) = (s.map Char.toLower, r) := by
  unfold splitScheme
  rw [splitOnFirst_append hcol]
  show (if s.isEmpty = true then ([], s ++ ':' :: r)
    else if ((s.head?.getD ' ').isAlpha && s.all isSchemeChar) = true then
      (List.map Char.toLower s, r)
    else ([], s ++ ':' :: r)) = (List.map Char.toLower s, r)
  rw [if_neg (by simpa using hne), if_pos (by simp [halpha, hall])]

theorem splitScheme_no_colon {l : List Char} (h : ':' ∉ l) : splitScheme l = ([], l) := by
  unfold splitScheme
  rw [splitOnFirst_not_mem h]

theorem splitScheme_head_not_alpha {l : List Char}
    (h : (l.head?.getD ' ').isAlpha = false) : splitScheme l = ([], l) := by
  rcases splitScheme_cases l with ⟨heq, _⟩ | ⟨pre, post, heq, hne, _, halpha, _, hres⟩
  · exact heq
  · exfalso
    obtain ⟨hl, _⟩ := splitOnFirst_eq_some heq
    cases pre with
    | nil => exact hne rfl
    | cons x xs =>
        rw [hl] at h
        simp only [List.cons_append, List.head?_cons, Option.getD_some] at h halpha
        rw [halpha] at h
        cases h

theorem takeWhile_append_of {p : Char → Bool} {a : List Char} {b0 : Char} {b : List Char}
    (ha : ∀ x ∈ a, p x = true) (hb : p b0 = false) :
    (a ++ b0 :: b).takeWhile p = a := by
  induction a with
  | nil => simp [List.takeWhile_cons, hb]
  | cons x xs ih =>
      rw [List.cons_append, List.takeWhile_cons, if_pos (ha x (by simp))]
      rw [ih (fun y hy => ha y (by simp [hy]))]

theorem dropWhile_append_of {p : Char → Bool} {a : List Char} {b0 : Char} {b : List Char}
    (ha : ∀ x ∈ a, p x = true) (hb : p b0 = false) :
    (a ++ b0 :: b).dropWhile p = b0 :: b := by
  induction a with
  | nil => simp [List.dropWhile_cons, hb]
  | cons x xs ih =>
      rw [List.cons_append, List.dropWhile_cons, if_pos (ha x (by simp))]
      exact ih (fun y hy => ha y (by simp [hy]))

theorem takeWhile_all {p : Char → Bool} {a : List Char} (ha : ∀ x ∈ a, p x = true) :
    a.takeWhile p = a := by
  induction a with
  | nil => rfl
  | cons x xs ih =>
      rw [List.takeWhile_cons, if_pos (ha x (by simp))]
      rw [ih (fun y hy => ha y (by simp [hy]))]

theorem dropWhile_all {p : Char → Bool} {a : List Char} (ha : ∀ x ∈ a, p x = true) :
    a.dropWhile p = [] := by
  induction a with
  | nil => rfl
  | cons x xs ih =>
      rw [List.dropWhile_cons, if_pos (ha x (by simp))]
      exact ih (fun y hy => ha y (by simp [hy]))

theorem map_toLower_fixed {l : List Char} (hl : ∀ c ∈ l, Char.toLower c = c) :
    List.map Char.toLower l = l := by
  induction l with
  | nil => rfl
  | cons x xs ih =>
      rw [List.map_cons, hl x (by simp), ih (fun c hc => hl c (by simp [hc]))]

theorem lowerHostKeepZone_fixed {h : List Char} (hl : ∀ c ∈ h, Char.toLower c = c) :
    lowerHostKeepZone h = h := by
  unfold lowerHostKeepZone
  cases h2 : splitOnFirst '%' h with
  | none =>
      show List.map Char.toLower h = h
      exact map_toLower_fixed hl
  | some p =>
      obtain ⟨hh, _⟩ := splitOnFirst_eq_some (l := h) (a := p.1) (b := p.2) (by rw [h2])
      show List.map Char.toLower p.1 ++ '%' :: p.2 = h
      have hmem : ∀ c ∈ p.1, Char.toLower c = c := by
        intro c hc
        refine hl c ?_
        rw [hh]
        exact List.mem_append.mpr (Or.inl hc)
      rw [map_toLower_fixed hmem]
      exact hh.symm

theorem hostnameOf_fixed {h : List Char} (hat : '@' ∉ h) (hbr : '[' ∉ h) (hcol : ':' ∉ h)
    (hl : ∀ c ∈ h, Char.toLower c = c) : hostnameOf h = h := by
  unfold hostnameOf
  rw [splitOnLast_not_mem hat]
  show (match splitOnFirst '[' h with
    | some p => lowerHostKeepZone (List.takeWhile (fun c => decide (c ≠ ']')) p.2)
    | none => lowerHostKeepZone (List.takeWhile (fun c => decide (c ≠ ':')) h)) = h
  rw [splitOnFirst_not_mem hbr]
  show lowerHostKeepZone (List.takeWhile (fun c => decide (c ≠ ':')) h) = h
  have htw : List.takeWhile (fun c => decide (c ≠ ':')) h = h := by
    refine takeWhile_all (fun x hx => ?_)
    simp only [ne_eq, decide_eq_true_eq]
    exact fun he => hcol (he ▸ hx)
  rw [htw]
  exact lowerHostKeepZone_fixed hl



theorem urlparseModel_eq_general (u0 ls rest host r2 rest3 path0 path1 query : List Char)
    (h0 : removeUnsafeBytes (lstripC0 u0) = u0)
    (h1 : splitScheme u0 = (ls, rest))
    (h2 : (if rest.take 2 = ['/', '/'] then splitNetloc rest else ([], rest)) = (host, r2))
    (h3 : ((host.contains '[' && !(host.contains ']')) ||
           (host.contains ']' && !(host.contains '['))) = false)
    (h4 : (match splitOnFirst '#' r2 with | some q => q.1 | none => r2) = rest3)
    (h5 : (match splitOnFirst '?' rest3 with | some q => q | none => (rest3, [])) =
          (path0, query))
    (h6 : (if decide (ls ∈ usesParams) && path0.contains ';' then splitParamsPath path0
           else path0) = path1) :
    urlparseModel u0 = some ⟨ls, host, path1, query⟩ := by
  unfold urlparseModel
  simp only [h0, h1, h2, h3, h4, h5, h6]
  rfl



theorem splitParamsPath_mem {c : Char} {x : List Char} (h : c ∈ splitParamsPath x) :
    c ∈ x := by
  cases h2 : splitOnLast '/' x with
  | some p =>
      obtain ⟨hx, _⟩ := splitOnLast_eq_some (l := x) (a := p.1) (b := p.2) (by rw [h2])
      rw [splitParamsPath_some h2] at h
      split_ifs at h
      · rw [hx]
        simp only [List.mem_append, List.mem_cons] at h ⊢
        rcases h with h | h | h
        · exact Or.inl h
        · exact Or.inr (Or.inl h)
        · exact Or.inr (Or.inr ((List.takeWhile_sublist _).subset h))
      · exact h
  | none =>
      rw [splitParamsPath_none h2] at h
      split_ifs at h
      · exact (List.takeWhile_sublist _).subset h
      · exact h

theorem splitParamsPath_suffix (x : List Char) : ∃ t, x = splitParamsPath x ++ t := by
  cases h2 : splitOnLast '/' x with
  | some p =>
      obtain ⟨hx, _⟩ := splitOnLast_eq_some (l := x) (a := p.1) (b := p.2) (by rw [h2])
      rw [splitParamsPath_some h2]
      split_ifs
      · obtain ⟨t, ht⟩ := (List.takeWhile_prefix (l := p.2)
          (p := fun c => decide (c ≠ ';')))
        refine ⟨t, ?_⟩
        conv_lhs => rw [hx]
        rw [List.append_assoc, List.cons_append, ht]
      · exact ⟨[], by simp⟩
  | none =>
      rw [splitParamsPath_none h2]
      split_ifs
      · obtain ⟨t, ht⟩ := (List.takeWhile_prefix (l := x) (p := fun c => decide (c ≠ ';')))
        exact ⟨t, ht.symm⟩
      · exact ⟨[], by simp⟩

theorem lowerHostKeepZone_mem {c : Char} {x : List Char} (h : c ∈ lowerHostKeepZone x) :
    ∃ d ∈ x, c = d ∨ c = Char.toLower d := by
  unfold lowerHostKeepZone at h
  cases h2 : splitOnFirst '%' x with
  | none =>
      rw [h2] at h
      simp only [List.mem_map] at h
      obtain ⟨d, hd, hc⟩ := h
      exact ⟨d, hd, Or.inr hc.symm⟩
  | some p =>
      obtain ⟨hx, _⟩ := splitOnFirst_eq_some (l := x) (a := p.1) (b := p.2) (by rw [h2])
      rw [h2] at h
      simp only [List.mem_append, List.mem_cons, List.mem_map] at h
      rcases h with ⟨d, hd, hc⟩ | h | h
      · exact ⟨d, by rw [hx]; simp [hd], Or.inr hc.symm⟩
      · exact ⟨'%', by rw [hx]; simp, Or.inl h⟩
      · exact ⟨c, by rw [hx]; simp [h], Or.inl rfl⟩

theorem hostnameOf_mem {c : Char} {n : List Char} (hbr : '[' ∉ n)
    (h : c ∈ hostnameOf n) : ∃ d ∈ n, (c = d ∨ c = Char.toLower d) ∧ d ≠ ':' ∧ d ≠ '@' := by
  unfold hostnameOf at h
  have hinfo : ∃ (hi : List Char), (∀ e ∈ hi, e ∈ n) ∧ '@' ∉ hi ∧
      (match splitOnLast '@' n with | some p => p.2 | none => n) = hi := by
    cases h2 : splitOnLast '@' n with
    | some p =>
        obtain ⟨hn, hnm⟩ := splitOnLast_eq_some (l := n) (a := p.1) (b := p.2) (by rw [h2])
        exact ⟨p.2, fun e he => by rw [hn]; simp [he], hnm, rfl⟩
    | none => exact ⟨n, fun e he => he, splitOnLast_none_mem h2, rfl⟩
  obtain ⟨hi, hsub, hat, heq⟩ := hinfo
  have hbr2 : '[' ∉ hi := fun hm => hbr (hsub _ hm)
  rw [heq] at h
  have hval : (let hostinfo := hi
      match splitOnFirst '[' hostinfo with
      | some p => lowerHostKeepZone (List.takeWhile (fun c => decide (c ≠ ']')) p.2)
      | none => lowerHostKeepZone (List.takeWhile (fun c => decide (c ≠ ':')) hostinfo)) =
      lowerHostKeepZone (List.takeWhile (fun c => decide (c ≠ ':')) hi) := by
    show (match splitOnFirst '[' hi with
      | some p => lowerHostKeepZone (List.takeWhile (fun c => decide (c ≠ ']')) p.2)
      | none => lowerHostKeepZone (List.takeWhile (fun c => decide (c ≠ ':')) hi)) = _
    rw [splitOnFirst_not_mem hbr2]
  rw [hval] at h
  obtain ⟨d, hd, hc⟩ := lowerHostKeepZone_mem h
  have hd2 := List.mem_takeWhile_imp hd
  simp only [ne_eq, decide_eq_true_eq] at hd2
  refine ⟨d, hsub d ((List.takeWhile_sublist _).subset hd), hc, hd2, ?_⟩
  exact fun he => hat (he ▸ (List.takeWhile_sublist _).subset hd)



theorem urlparseModel_eq_none (u0 ls rest host r2 : List Char)
    (h0 : removeUnsafeBytes (lstripC0 u0) = u0)
    (h1 : splitScheme u0 = (ls, rest))
    (h2 : (if rest.take 2 = ['/', '/'] then splitNetloc rest else ([], rest)) = (host, r2))
    (h3 : ((host.contains '[' && !(host.contains ']')) ||
           (host.contains ']' && !(host.contains '['))) = true) :
    urlparseModel u0 = none := by
  unfold urlparseModel
  simp only [h0, h1, h2, h3]
  rfl

theorem urlparseModel_inv {u0 : List Char} {p : ParsedUrl}
    (h : urlparseModel u0 = some p) (h0 : removeUnsafeBytes (lstripC0 u0) = u0) :
    ∃ rest r2 rest3 path0,
      splitScheme u0 = (p.scheme, rest) ∧
      (if rest.take 2 = ['/', '/'] then splitNetloc rest else ([], rest)) = (p.netloc, r2) ∧
      ((p.netloc.contains '[' && !(p.netloc.contains ']')) ||
       (p.netloc.contains ']' && !(p.netloc.contains '['))) = false ∧
      (match splitOnFirst '#' r2 with | some q => q.1 | none => r2) = rest3 ∧
      (match splitOnFirst '?' rest3 with | some q => q | none => (rest3, [])) =
        (path0, p.query) ∧
      (if decide (p.scheme ∈ usesParams) && path0.contains ';' then splitParamsPath path0
       else path0) = p.path := by
  obtain ⟨ls, rest, h1⟩ : ∃ ls rest, splitScheme u0 = (ls, rest) :=
    ⟨(splitScheme u0).1, (splitScheme u0).2, rfl⟩
  obtain ⟨host, r2, h2⟩ : ∃ host r2,
      (if rest.take 2 = ['/', '/'] then splitNetloc rest else ([], rest)) = (host, r2) :=
    ⟨_, _, rfl⟩
  by_cases h3 : ((host.contains '[' && !(host.contains ']')) ||
      (host.contains ']' && !(host.contains '['))) = true
  · rw [urlparseModel_eq_none u0 ls rest host r2 h0 h1 h2 h3] at h
    cases h
  · obtain ⟨rest3, h4⟩ : ∃ rest3,
        (match splitOnFirst '#' r2 with | some q => q.1 | none => r2) = rest3 := ⟨_, rfl⟩
    obtain ⟨path0, query, h5⟩ : ∃ path0 query,
        (match splitOnFirst '?' rest3 with | some q => q | none => (rest3, [])) =
          (path0, query) := ⟨_, _, rfl⟩
    obtain ⟨path1, h6⟩ : ∃ path1,
        (if decide (ls ∈ usesParams) && path0.contains ';' then splitParamsPath path0
         else path0) = path1 := ⟨_, rfl⟩
    have hcomp := urlparseModel_eq_general u0 ls rest host r2 rest3 path0 path1 query h0 h1
      h2 (by simpa using h3) h4 h5 h6
    rw [h] at hcomp
    have hp : p = ⟨ls, host, path1, query⟩ := by
      cases hcomp
      rfl
    subst hp
    exact ⟨rest, r2, rest3, path0, h1, h2, by simpa using h3, h4, h5, h6⟩

theorem canonicalize_eq_some {url : List Char} {p : ParsedUrl}
    (h : urlparseModel (pyStrip url) = some p) :
    canonicalize url = some (urlunparseModel (p.scheme.map Char.toLower)
      ((hostnameOf p.netloc).map Char.toLower)
      (if p.path.isEmpty then ['/'] else p.path)
      (urlencodePairs (canonPairs p))) := by
  unfold canonicalize
  rw [h]

theorem splitScheme_none_of_fail {l pre post : List Char}
    (h : splitOnFirst ':' l = some (pre, post))
    (hf : pre = [] ∨ (pre.head?.getD ' ').isAlpha = false ∨ pre.all isSchemeChar = false) :
    splitScheme l = ([], l) := by
  rcases splitScheme_cases l with ⟨heq, _⟩ | ⟨pre2, post2, heq, hne, _, halpha, hall, hres⟩
  · exact heq
  · rw [heq] at h
    simp only [Option.some_inj, Prod.mk.injEq] at h
    rw [h.1] at hne halpha hall
    rcases hf with hf | hf | hf
    · exact absurd hf hne
    · rw [halpha] at hf; cases hf
    · rw [hall] at hf; cases hf



theorem urlencodePairs_mem {c : Char} :
    ∀ {Q : List (List Char × List Char)}, c ∈ urlencodePairs Q →
      (alwaysSafe c = true ∨ c = '+' ∨ c = '%') ∨ c = '&' ∨ c = '=' := by
  intro Q
  induction Q with
  | nil => intro h; simp [urlencodePairs, List.intercalate] at h
  | cons kv t ih =>
      intro h
      cases t with
      | nil =>
          rw [urlencodePairs_single] at h
          simp only [List.mem_append, List.mem_cons] at h
          rcases h with h | h | h
          · exact Or.inl (quotePlus_safe _ c h)
          · exact Or.inr (Or.inr h)
          · exact Or.inl (quotePlus_safe _ c h)
      | cons y t' =>
          rw [urlencodePairs_cons_cons] at h
          simp only [List.mem_append, List.mem_cons] at h
          rcases h with (h | h | h) | h | h
          · exact Or.inl (quotePlus_safe _ c h)
          · exact Or.inr (Or.inr h)
          · exact Or.inl (quotePlus_safe _ c h)
          · exact Or.inr (Or.inl h)
          · exact ih h

theorem splitParamsPath_head {x : List Char} (h : x = [] ∨ x.head? = some '/') :
    splitParamsPath x = [] ∨ (splitParamsPath x).head? = some '/' := by
  rcases h with h | h
  · subst h
    left
    rfl
  · cases h2 : splitOnLast '/' x with
    | some p =>
        obtain ⟨hx, _⟩ := splitOnLast_eq_some (l := x) (a := p.1) (b := p.2) (by rw [h2])
        rw [splitParamsPath_some h2]
        split_ifs
        · right
          cases hp1 : p.1 with
          | nil =>
              simp
          | cons e es =>
              rw [hp1] at hx
              rw [hx] at h
              simp only [List.cons_append, List.head?_cons, Option.some_inj] at h
              simp [h]
        · exact Or.inr h
    | none =>
        rw [splitParamsPath_none h2]
        split_ifs with hs
        · cases x with
          | nil => simp
          | cons e es =>
              simp only [List.head?_cons, Option.some_inj] at h
              right
              rw [List.takeWhile_cons, if_pos (by simp [h])]
              simp [h]
        · exact Or.inr h

theorem path_head_slash {r2 rest3 path0 ppath : List Char} {cnd : Bool}
    (hr2 : r2 = [] ∨ r2.head? = some '/' ∨ r2.head? = some '?' ∨ r2.head? = some '#')
    (h4 : (match splitOnFirst '#' r2 with | some q => q.1 | none => r2) = rest3)
    (h5 : (match splitOnFirst '?' rest3 with | some q => q | none => (rest3, [])).1 = path0)
    (h6 : (if cnd = true then splitParamsPath path0 else path0) = ppath) :
    ppath = [] ∨ ppath.head? = some '/' := by
  have hrest3 : rest3 = [] ∨ rest3.head? = some '/' ∨ rest3.head? = some '?' := by
    cases hf : splitOnFirst '#' r2 with
    | none =>
        rw [hf] at h4
        subst h4
        have hnm := splitOnFirst_none_mem hf
        rcases hr2 with h | h | h | h
        · exact Or.inl h
        · exact Or.inr (Or.inl h)
        · exact Or.inr (Or.inr h)
        · exfalso
          cases r2 with
          | nil => simp at h
          | cons e es =>
              simp only [List.head?_cons, Option.some_inj] at h
              exact hnm (by simp [h])
    | some q =>
        rw [hf] at h4
        have h4b : q.1 = rest3 := h4
        subst h4b
        obtain ⟨hx, hnm⟩ := splitOnFirst_eq_some (l := r2) (a := q.1) (b := q.2) (by rw [hf])
        cases hq1 : q.1 with
        | nil => exact Or.inl rfl
        | cons e es =>
            rw [hq1] at hx
            rw [hx] at hr2
            simp only [List.cons_append, List.head?_cons, Option.some_inj,
              List.cons_ne_self] at hr2
            rcases hr2 with h | h | h | h
            · simp at h
            · exact Or.inr (Or.inl (by simp [hq1, h]))
            · exact Or.inr (Or.inr (by simp [hq1, h]))
            · exfalso
              rw [hq1] at hnm
              exact hnm (by simp [h])
  have hpath0 : path0 = [] ∨ path0.head? = some '/' := by
    cases hf : splitOnFirst '?' rest3 with
    | none =>
        rw [hf] at h5
        have h5b : rest3 = path0 := h5
        subst h5b
        have hnm := splitOnFirst_none_mem hf
        rcases hrest3 with h | h | h
        · exact Or.inl h
        · exact Or.inr h
        · exfalso
          cases rest3 with
          | nil => simp at h
          | cons e es =>
              simp only [List.head?_cons, Option.some_inj] at h
              exact hnm (by simp [h])
    | some q =>
        rw [hf] at h5
        have h5b : q.1 = path0 := h5
        subst h5b
        obtain ⟨hx, hnm⟩ := splitOnFirst_eq_some (l := rest3) (a := q.1) (b := q.2)
          (by rw [hf])
        cases hq1 : q.1 with
        | nil => exact Or.inl rfl
        | cons e es =>
            rw [hq1] at hx
            rw [hx] at hrest3
            simp only [List.cons_append, List.head?_cons, Option.some_inj] at hrest3
            rcases hrest3 with h | h | h
            · simp at h
            · exact Or.inr (by simp [hq1, h])
            · exfalso
              rw [hq1] at hnm
              exact hnm (by simp [h])
  cases cnd with
  | false =>
      rw [if_neg (by simp)] at h6
      subst h6
      exact hpath0
  | true =>
      rw [if_pos rfl] at h6
      subst h6
      exact splitParamsPath_head hpath0



set_option maxHeartbeats 1000000 in
theorem urlunparseModel_mem {c : Char} {s n pp q : List Char}
    (h : c ∈ urlunparseModel s n pp q) :
    c ∈ s ∨ c ∈ n ∨ c ∈ pp ∨ c ∈ q ∨ c = '/' ∨ c = ':' ∨ c = '?' := by
  simp only [urlunparseModel] at h
  split_ifs at h <;>
    (try simp only [List.mem_append, List.mem_cons, List.not_mem_nil, or_false] at h) <;>
    tauto


theorem splitOnFirst_mem_some {c : Char} {l : List Char} (h : c ∈ l) :
    ∃ a b, splitOnFirst c l = some (a, b) := by
  cases h2 : splitOnFirst c l with
  | none => exact absurd h (splitOnFirst_none_mem h2)
  | some q =>
      refine ⟨q.1, q.2, ?_⟩
      simp [h2]

theorem splitOnFirst_append_right {c : Char} {l a b : List Char}
    (h : splitOnFirst c l = some (a, b)) (t : List Char) :
    splitOnFirst c (l ++ t) = some (a, b ++ t) := by
  obtain ⟨hl, hnm⟩ := splitOnFirst_eq_some h
  rw [hl, List.append_assoc, List.cons_append]
  exact splitOnFirst_append hnm

theorem dropWhile_head_not {p : Char → Bool} {l : List Char} :
    l.dropWhile p = [] ∨ ∃ c cs, l.dropWhile p = c :: cs ∧ p c = false := by
  induction l with
  | nil => exact Or.inl rfl
  | cons x xs ih =>
      rw [List.dropWhile_cons]
      split_ifs with hx
      · exact ih
      · exact Or.inr ⟨x, xs, rfl, by simpa using hx⟩

theorem urlunparseModel_eq (s n pp q : List Char) :
    urlunparseModel s n pp q =
      (if s.isEmpty then
        (if ¬ n.isEmpty ∨ (¬ s.isEmpty ∧ decide (s ∈ usesNetloc) ∧ pp.take 2 ≠ ['/', '/'])
         then '/' :: '/' ::
           (n ++ (if ¬ pp.isEmpty ∧ pp.head? ≠ some '/' then '/' :: pp else pp))
         else pp)
       else s ++ ':' ::
        (if ¬ n.isEmpty ∨ (¬ s.isEmpty ∧ decide (s ∈ usesNetloc) ∧ pp.take 2 ≠ ['/', '/'])
         then '/' :: '/' ::
           (n ++ (if ¬ pp.isEmpty ∧ pp.head? ≠ some '/' then '/' :: pp else pp))
         else pp)) ++
      (if q.isEmpty then [] else '?' :: q) := by
  unfold urlunparseModel
  split_ifs <;> simp

theorem canonicalize_fix {u o : List Char}
    (hpc : ∀ c ∈ u, 0x20 < c.toNat ∧ pyIsSpace c = false)
    (hbru : '[' ∉ u)
    (hsl : ∀ q, urlparseModel (pyStrip u) = some q →
      ¬ (hostnameOf q.netloc = [] ∧
         (if q.path.isEmpty then ['/'] else q.path).take 2 = ['/', '/']))
    (hco : canonicalize u = some o) :
    canonicalize o = some o := by
  have hstrip : pyStrip u = u := pyStrip_eq_self (fun c hc => (hpc c hc).2)
  have hcln : removeUnsafeBytes (lstripC0 u) = u := by
    rw [lstripC0_eq_self (fun c hc => (hpc c hc).1)]
    exact removeUnsafeBytes_eq_self (fun c hc => (hpc c hc).1)
  cases hup : urlparseModel u with
  | none =>
      exfalso
      have : canonicalize u = none := by
        unfold canonicalize
        rw [hstrip, hup]
      rw [this] at hco
      cases hco
  | some p =>
  have hup' : urlparseModel (pyStrip u) = some p := by rw [hstrip]; exact hup
  have ho : o = urlunparseModel (p.scheme.map Char.toLower)
      ((hostnameOf p.netloc).map Char.toLower)
      (if p.path.isEmpty then ['/'] else p.path)
      (urlencodePairs (canonPairs p)) := by
    have := canonicalize_eq_some hup'
    rw [this] at hco
    exact (Option.some_inj.mp hco).symm
  obtain ⟨rest, r2, rest3, path0, hss, hnp, hbrk, hfrag, hqsplit, hpar⟩ :=
    urlparseModel_inv hup hcln
  have hsl' := hsl p hup'
  have hscheme : (p.scheme.map Char.toLower = p.scheme) ∧ (∀ c ∈ rest, c ∈ u) ∧
      (∀ c ∈ p.scheme, isSchemeChar c = true) ∧
      (p.scheme = [] → rest = u ∧ ∀ a b, splitOnFirst ':' u = some (a, b) →
          a = [] ∨ (a.head?.getD ' ').isAlpha = false ∨ a.all isSchemeChar = false) ∧
      (p.scheme ≠ [] → ':' ∉ p.scheme ∧ (p.scheme.head?.getD ' ').isAlpha = true) := by
    rcases splitScheme_cases u with ⟨hss0, hfail⟩ |
      ⟨pre, post, hpre, hprene, hprecol, hprealpha, hpreall, hres⟩
    · rw [hss0] at hss
      have h1 : p.scheme = [] := (congrArg Prod.fst hss).symm
      have h2 : rest = u := (congrArg Prod.snd hss).symm
      subst h2
      refine ⟨by rw [h1]; rfl, fun c hc => hc, by rw [h1]; simp, fun _ => ⟨rfl, ?_⟩,
        fun hne => absurd h1 hne⟩
      intro a b hab
      have := hfail a b hab
      rcases this with h | h
      · exact Or.inl h
      · rcases Decidable.em ((a.head?.getD ' ').isAlpha = true) with ha | ha
        · rcases Decidable.em (a.all isSchemeChar = true) with hb | hb
          · exact absurd ⟨ha, hb⟩ h
          · exact Or.inr (Or.inr (Bool.not_eq_true _ ▸ (by simpa using hb)))
        · exact Or.inr (Or.inl (Bool.not_eq_true _ ▸ (by simpa using ha)))
    · rw [hres] at hss
      have h1 : p.scheme = pre.map Char.toLower := (congrArg Prod.fst hss).symm
      have h2 : rest = post := (congrArg Prod.snd hss).symm
      obtain ⟨hu_eq, _⟩ := splitOnFirst_eq_some hpre
      have hall : ∀ c ∈ pre, isSchemeChar c = true := by
        intro c hc
        exact List.all_eq_true.mp hpreall c hc
      refine ⟨by rw [h1]; exact map_toLower_idem pre, ?_, ?_, ?_, ?_⟩
      · intro c hc
        rw [h2] at hc
        rw [hu_eq]
        simp [hc]
      · intro c hc
        rw [h1] at hc
        obtain ⟨d, hd, hcd⟩ := List.mem_map.mp hc
        rw [← hcd]
        exact isSchemeChar_toLower (hall d hd)
      · intro habs
        rw [h1] at habs
        exact absurd (List.map_eq_nil_iff.mp habs) hprene
      · intro _
        constructor
        · intro hcmem
          rw [h1] at hcmem
          obtain ⟨d, hd, hcd⟩ := List.mem_map.mp hcmem
          rcases toLower_eq_imp hcd with he | he
          · exact hprecol (he ▸ hd)
          · have : (':' : Char).toNat = 58 := rfl
            omega
        · rw [h1]
          cases pre with
          | nil => exact absurd rfl hprene
          | cons x xs =>
              simp only [List.map_cons, List.head?_cons, Option.getD_some]
              simp only [List.head?_cons, Option.getD_some] at hprealpha
              exact isAlpha_toLower hprealpha
  obtain ⟨hls_idem, hrest_mem, hls_all, hls_nil, hls_ne⟩ := hscheme
  rw [hls_idem] at ho
  have hnet : (∀ c ∈ p.netloc, c ∈ u ∧ netlocDelim c = false) ∧
      (rest.take 2 = ['/', '/'] →
        p.netloc = (rest.drop 2).takeWhile (fun c => ¬ netlocDelim c) ∧
        r2 = (rest.drop 2).dropWhile (fun c => ¬ netlocDelim c)) ∧
      (rest.take 2 ≠ ['/', '/'] → p.netloc = [] ∧ r2 = rest) := by
    by_cases htake : rest.take 2 = ['/', '/']
    · rw [if_pos htake] at hnp
      unfold splitNetloc at hnp
      have h1 : p.netloc = (rest.drop 2).takeWhile (fun c => ¬ netlocDelim c) :=
        (congrArg Prod.fst hnp).symm
      have h2 : r2 = (rest.drop 2).dropWhile (fun c => ¬ netlocDelim c) :=
        (congrArg Prod.snd hnp).symm
      refine ⟨?_, fun _ => ⟨h1, h2⟩, fun hcon => absurd htake hcon⟩
      intro c hc
      rw [h1] at hc
      have hpred := List.mem_takeWhile_imp hc
      simp only [decide_eq_true_eq] at hpred
      refine ⟨hrest_mem c (List.mem_of_mem_drop ((List.takeWhile_sublist _).subset hc)), ?_⟩
      simpa using hpred
    · rw [if_neg htake] at hnp
      have h1 : p.netloc = [] := (congrArg Prod.fst hnp).symm
      have h2 : r2 = rest := (congrArg Prod.snd hnp).symm
      exact ⟨fun c hc => absurd hc (by rw [h1]; exact List.not_mem_nil c),
        fun hcon => absurd hcon htake, fun _ => ⟨h1, h2⟩⟩
  have hr2_mem : ∀ c ∈ r2, c ∈ u := by
    by_cases htake : rest.take 2 = ['/', '/']
    · intro c hc
      rw [(hnet.2.1 htake).2] at hc
      exact hrest_mem c (List.mem_of_mem_drop ((List.dropWhile_sublist _).subset hc))
    · intro c hc
      rw [(hnet.2.2 htake).2] at hc
      exact hrest_mem c hc
  have hrest3_pack : (∀ c ∈ rest3, c ∈ r2) ∧ '#' ∉ rest3 := by
    cases hf : splitOnFirst '#' r2 with
    | none =>
        rw [hf] at hfrag
        have hfb : r2 = rest3 := hfrag
        subst hfb
        exact ⟨fun c hc => hc, splitOnFirst_none_mem hf⟩
    | some q =>
        rw [hf] at hfrag
        have hfb : q.1 = rest3 := hfrag
        subst hfb
        obtain ⟨hx, hnm⟩ := splitOnFirst_eq_some (l := r2) (a := q.1) (b := q.2) (by rw [hf])
        exact ⟨fun c hc => by rw [hx]; simp [hc], hnm⟩
  have hpath0_pack : (∀ c ∈ path0, c ∈ rest3) ∧ '?' ∉ path0 := by
    cases hf : splitOnFirst '?' rest3 with
    | none =>
        rw [hf] at hqsplit
        have hfb : rest3 = path0 := congrArg Prod.fst hqsplit
        subst hfb
        exact ⟨fun c hc => hc, splitOnFirst_none_mem hf⟩
    | some q =>
        rw [hf] at hqsplit
        have hfb : q.1 = path0 := congrArg Prod.fst hqsplit
        subst hfb
        obtain ⟨hx, hnm⟩ := splitOnFirst_eq_some (l := rest3) (a := q.1) (b := q.2)
          (by rw [hf])
        exact ⟨fun c hc => by rw [hx]; simp [hc], hnm⟩
  have hppath_mem : ∀ c ∈ p.path, c ∈ path0 := by
    by_cases hcnd : (decide (p.scheme ∈ usesParams) && path0.contains ';') = true
    · rw [if_pos hcnd] at hpar
      intro c hc
      rw [← hpar] at hc
      exact splitParamsPath_mem hc
    · rw [if_neg hcnd] at hpar
      intro c hc
      rw [← hpar] at hc
      exact hc
  have hlastseg : decide (p.scheme ∈ usesParams) = true →
      (lastSeg p.path).contains ';' = false ∨ p.path = [] := by
    intro husp
    by_cases hsemi : path0.contains ';' = true
    · rw [if_pos (by rw [husp, hsemi]; rfl)] at hpar
      rw [← hpar]
      exact Or.inl (splitParamsPath_no_semi path0)
    · have hcnd : (decide (p.scheme ∈ usesParams) && path0.contains ';') = false := by
        rw [husp]
        simpa using hsemi
      rw [if_neg (by rw [hcnd]; simp)] at hpar
      rw [← hpar]
      exact Or.inl (contains_false_lastSeg (by simpa using hsemi))
  -- the three rebuilt components
  have hpa_ne : (if p.path.isEmpty then ['/'] else p.path) ≠ [] := by
    split_ifs with hemp
    · simp
    · simpa using hemp
  have hpa_chars : ∀ c ∈ (if p.path.isEmpty then ['/'] else p.path),
      (0x20 < c.toNat ∧ pyIsSpace c = false) ∧ c ≠ '#' ∧ c ≠ '?' := by
    intro c hc
    split_ifs at hc with hemp
    · simp only [List.mem_singleton] at hc
      subst hc
      exact ⟨by decide, by decide, by decide⟩
    · have hmem0 : c ∈ path0 := hppath_mem c hc
      have hmem3 : c ∈ rest3 := hpath0_pack.1 c hmem0
      have hmemu : c ∈ u := hr2_mem c (hrest3_pack.1 c hmem3)
      exact ⟨hpc c hmemu, fun he => hrest3_pack.2 (he ▸ hmem3),
        fun he => hpath0_pack.2 (he ▸ hmem0)⟩
  have hpa_lastseg : decide (p.scheme ∈ usesParams) = true →
      (lastSeg (if p.path.isEmpty then ['/'] else p.path)).contains ';' = false := by
    intro husp
    split_ifs with hemp
    · decide
    · rcases hlastseg husp with h | h
      · exact h
      · exact absurd h (by simpa using hemp)
  have hn_chars : ∀ c ∈ (hostnameOf p.netloc).map Char.toLower,
      (0x20 < c.toNat ∧ pyIsSpace c = false) ∧ Char.toLower c = c ∧
      netlocDelim c = false ∧ c ≠ ':' ∧ c ≠ '@' ∧ c ≠ '[' ∧ c ≠ ']' := by
    have hbrn : '[' ∉ p.netloc := fun hm => hbru ((hnet.1 '[' hm).1)
    have hbrn2 : ']' ∉ p.netloc := by
      intro hm
      have hcontains : p.netloc.contains ']' = true := List.elem_iff.mpr hm
      have hncontains : p.netloc.contains '[' = true → False := fun hcc =>
        hbrn (List.elem_iff.mp hcc)
      rw [hcontains] at hbrk
      cases hcc : p.netloc.contains '[' with
      | true => exact hncontains hcc
      | false =>
          rw [hcc] at hbrk
          simp at hbrk
    intro c hc
    obtain ⟨e, he, hce⟩ := List.mem_map.mp hc
    obtain ⟨d, hd, hde, hdcol, hdat⟩ := hostnameOf_mem hbrn he
    obtain ⟨hdu, hddelim⟩ := hnet.1 d hd
    have hdpc := hpc d hdu
    -- c = toLower d in both cases of hde
    have hcd : c = Char.toLower d := by
      rcases hde with he2 | he2
      · rw [← hce, he2]
      · rw [← hce, he2]
        exact toLower_toLower d
    have hcpc := toLower_pc hdpc.1 hdpc.2
    rw [← hcd] at hcpc
    refine ⟨hcpc, by rw [hcd]; exact toLower_toLower d, ?_, ?_, ?_, ?_, ?_⟩
    · cases hdm : netlocDelim c with
      | false => rfl
      | true =>
          exfalso
          simp only [netlocDelim, Bool.or_eq_true, decide_eq_true_eq] at hdm hddelim
          rcases hdm with (he2 | he2) | he2 <;>
            · rw [he2] at hcd
              rcases toLower_eq_imp hcd.symm with he3 | he3
              · rw [← he3] at hddelim
                simp at hddelim
              · revert he3
                decide
    · intro he2
      rw [he2] at hcd
      rcases toLower_eq_imp hcd.symm with he3 | he3
      · exact hdcol he3
      · revert he3
        decide
    · intro he2
      rw [he2] at hcd
      rcases toLower_eq_imp hcd.symm with he3 | he3
      · exact hdat he3
      · revert he3
        decide
    · intro he2
      rw [he2] at hcd
      rcases toLower_eq_imp hcd.symm with he3 | he3
      · exact hbrn (he3.symm ▸ hd)
      · revert he3
        decide
    · intro he2
      rw [he2] at hcd
      rcases toLower_eq_imp hcd.symm with he3 | he3
      · exact hbrn2 (he3.symm ▸ hd)
      · revert he3
        decide
  have hQe_chars : ∀ c ∈ urlencodePairs (canonPairs p),
      (0x20 < c.toNat ∧ pyIsSpace c = false) ∧ c ≠ '#' ∧ c ≠ '?' ∧ c ≠ ':' ∧ c ≠ '/' ∧
      c ≠ '[' := by
    intro c hc
    rcases urlencodePairs_mem hc with hsafe | h | h
    · have hrange : 0x20 < c.toNat ∧ c.toNat < 0x7F := by
        rcases hsafe with h | h | h
        · exact alwaysSafe_toNat h
        · subst h; decide
        · subst h; decide
      have hps : pyIsSpace c = false := by
        cases hsp : pyIsSpace c with
        | false => rfl
        | true => rcases pyIsSpace_toNat hsp with hr | hr <;> omega
      exact ⟨⟨hrange.1, hps⟩, safe_ne hsafe (by decide), safe_ne hsafe (by decide),
        safe_ne hsafe (by decide), safe_ne hsafe (by decide), safe_ne hsafe (by decide)⟩
    · subst h
      exact ⟨⟨by decide, by decide⟩, by decide, by decide, by decide, by decide, by decide⟩
    · subst h
      exact ⟨⟨by decide, by decide⟩, by decide, by decide, by decide, by decide, by decide⟩
  set hn := (hostnameOf p.netloc).map Char.toLower with hn_def
  set pa := if p.path.isEmpty then ['/'] else p.path with pa_def
  set Qe := urlencodePairs (canonPairs p) with qe_def
  have ho_pc : ∀ c ∈ o, 0x20 < c.toNat ∧ pyIsSpace c = false := by
    intro c hc
    rw [ho] at hc
    rcases urlunparseModel_mem hc with h | h | h | h | h | h | h
    · exact isSchemeChar_pc (hls_all c h)
    · exact (hn_chars c h).1
    · exact (hpa_chars c h).1
    · exact (hQe_chars c h).1
    · subst h; exact ⟨by decide, by decide⟩
    · subst h; exact ⟨by decide, by decide⟩
    · subst h; exact ⟨by decide, by decide⟩
  have ho_strip : pyStrip o = o := pyStrip_eq_self (fun c hc => (ho_pc c hc).2)
  have ho_cln : removeUnsafeBytes (lstripC0 o) = o := by
    rw [lstripC0_eq_self (fun c hc => (ho_pc c hc).1)]
    exact removeUnsafeBytes_eq_self (fun c hc => (ho_pc c hc).1)
  rw [urlunparseModel_eq] at ho
  set url1 := if ¬ pa.isEmpty ∧ pa.head? ≠ some '/' then '/' :: pa else pa with url1_def
  set qs := if Qe.isEmpty then [] else '?' :: Qe with qs_def
  have hurl1_slash : ∃ tl, url1 = '/' :: tl := by
    rw [url1_def]
    split_ifs with hcond
    · exact ⟨pa, rfl⟩
    · cases hpa : pa with
      | nil => exact absurd hpa hpa_ne
      | cons x xs =>
          refine ⟨xs, ?_⟩
          have hx : x = '/' := by
            by_cases hh : pa.head? = some '/'
            · rw [hpa] at hh
              simpa using hh
            · exact absurd ⟨by simpa using hpa_ne, hh⟩ hcond
          rw [hx]
  have hurl1_mem : ∀ c ∈ url1, c ∈ pa ∨ c = '/' := by
    intro c hc
    rw [url1_def] at hc
    split_ifs at hc
    · rcases List.mem_cons.mp hc with h | h
      · exact Or.inr h
      · exact Or.inl h
    · exact Or.inl hc
  have hurl1_chars : ∀ c ∈ url1, c ≠ '#' ∧ c ≠ '?' := by
    intro c hc
    rcases hurl1_mem c hc with h | h
    · exact ⟨(hpa_chars c h).2.1, (hpa_chars c h).2.2⟩
    · subst h
      exact ⟨by decide, by decide⟩
  have hurl1_lastseg : decide (p.scheme ∈ usesParams) = true →
      (lastSeg url1).contains ';' = false := by
    intro husp
    rw [url1_def]
    split_ifs
    · exact lastSeg_slash_cons (hpa_lastseg husp)
    · exact hpa_lastseg husp
  have hqs_chars : ∀ c ∈ qs, c ≠ '#' ∧ c ≠ ':' := by
    intro c hc
    rw [qs_def] at hc
    split_ifs at hc
    · cases hc
    · rcases List.mem_cons.mp hc with h | h
      · subst h
        exact ⟨by decide, by decide⟩
      · exact ⟨(hQe_chars c h).2.1, (hQe_chars c h).2.2.2.1⟩
  have hquery_eq : (match splitOnFirst '?' (url1 ++ qs) with
      | some q => q | none => (url1 ++ qs, [])) = (url1, Qe) := by
    rw [qs_def]
    split_ifs with hqe
    · rw [List.append_nil]
      rw [splitOnFirst_not_mem (fun hm => (hurl1_chars '?' hm).2 rfl)]
      rw [List.isEmpty_iff.mp hqe]
    · rw [splitOnFirst_append (fun hm => (hurl1_chars '?' hm).2 rfl)]
  have hfrag_eq : (match splitOnFirst '#' (url1 ++ qs) with
      | some q => q.1 | none => url1 ++ qs) = url1 ++ qs := by
    rw [splitOnFirst_not_mem]
    intro hm
    rcases List.mem_append.mp hm with h | h
    · exact (hurl1_chars '#' h).1 rfl
    · exact (hqs_chars '#' h).1 rfl
  have hpar_eq : (if decide (p.scheme ∈ usesParams) && url1.contains ';' then
      splitParamsPath url1 else url1) = url1 := by
    by_cases hcnd : (decide (p.scheme ∈ usesParams) && url1.contains ';') = true
    · rw [if_pos hcnd]
      exact lastSeg_no_semi_fix (hurl1_lastseg (Bool.and_elim_left hcnd))
    · rw [if_neg hcnd]
  by_cases hC1 : ¬ hn.isEmpty ∨
      (¬ p.scheme.isEmpty ∧ decide (p.scheme ∈ usesNetloc) ∧ pa.take 2 ≠ ['/', '/'])
  · -- netloc-carrying output shape
    rw [if_pos hC1] at ho
    obtain ⟨tl, htl⟩ := hurl1_slash
    have hcore : ('/' :: '/' :: (hn ++ url1)) ++ qs = '/' :: '/' :: (hn ++ (url1 ++ qs)) := by
      simp
    have hss2 : splitScheme o = (p.scheme, '/' :: '/' :: (hn ++ (url1 ++ qs))) := by
      by_cases hse : p.scheme.isEmpty
      · rw [if_pos hse] at ho
        have hsnil : p.scheme = [] := List.isEmpty_iff.mp hse
        rw [ho, hcore, hsnil]
        refine splitScheme_head_not_alpha ?_
        simp only [List.head?_cons, Option.getD_some]
        decide
      · rw [if_neg hse] at ho
        have ho2 : o = p.scheme ++ ':' :: ('/' :: '/' :: (hn ++ (url1 ++ qs))) := by
          rw [ho, ← hcore]
          simp
        rw [ho2]
        rw [splitScheme_append (by simpa using hse) (hls_ne (by simpa using hse)).1
          (hls_ne (by simpa using hse)).2 (List.all_eq_true.mpr hls_all)]
        rw [hls_idem]
    have hnet2 : (if ('/' :: '/' :: (hn ++ (url1 ++ qs))).take 2 = ['/', '/'] then
        splitNetloc ('/' :: '/' :: (hn ++ (url1 ++ qs)))
        else ([], '/' :: '/' :: (hn ++ (url1 ++ qs)))) = (hn, url1 ++ qs) := by
      rw [if_pos (by simp)]
      unfold splitNetloc
      have hd2 : ('/' :: '/' :: (hn ++ (url1 ++ qs))).drop 2 = hn ++ (url1 ++ qs) := rfl
      rw [hd2]
      have hshape : hn ++ (url1 ++ qs) = hn ++ '/' :: (tl ++ qs) := by
        rw [htl]
        simp
      rw [hshape]
      rw [takeWhile_append_of (fun x hx => by
            simp only [decide_eq_true_eq]
            intro hcon
            rw [(hn_chars x hx).2.2.1] at hcon
            cases hcon)
          (by simp [netlocDelim])]
      rw [dropWhile_append_of (fun x hx => by
            simp only [decide_eq_true_eq]
            intro hcon
            rw [(hn_chars x hx).2.2.1] at hcon
            cases hcon)
          (by simp [netlocDelim])]
      rw [htl]
      simp
    have hbrk2 : ((hn.contains '[' && !(hn.contains ']')) ||
        (hn.contains ']' && !(hn.contains '['))) = false := by
      have h1 : hn.contains '[' = false := by
        cases hcc : hn.contains '[' with
        | false => rfl
        | true => exact absurd rfl ((hn_chars '[' (List.elem_iff.mp hcc)).2.2.2.2.2.1)
      have h2 : hn.contains ']' = false := by
        cases hcc : hn.contains ']' with
        | false => rfl
        | true => exact absurd rfl ((hn_chars ']' (List.elem_iff.mp hcc)).2.2.2.2.2.2)
      rw [h1, h2]
      rfl
    have hparse2 : urlparseModel o = some ⟨p.scheme, hn, url1, Qe⟩ :=
      urlparseModel_eq_general o p.scheme ('/' :: '/' :: (hn ++ (url1 ++ qs))) hn
        (url1 ++ qs) (url1 ++ qs) url1 url1 Qe ho_cln hss2 hnet2 hbrk2 hfrag_eq
        hquery_eq hpar_eq
    have hhost2 : (hostnameOf hn).map Char.toLower = hn := by
      rw [hostnameOf_fixed (fun hm => (hn_chars '@' hm).2.2.2.2.1 rfl)
        (fun hm => (hn_chars '[' hm).2.2.2.2.2.1 rfl)
        (fun hm => (hn_chars ':' hm).2.2.2.1 rfl)
        (fun c hc => (hn_chars c hc).2.1)]
      exact map_toLower_fixed (fun c hc => (hn_chars c hc).2.1)
    have hcp2 : canonPairs ⟨p.scheme, hn, url1, Qe⟩ = canonPairs p := by
      show sortPairs ((parseQsl Qe).filter (fun kv => ¬ kv.1 ∈ TRACKERS)) = canonPairs p
      rw [qe_def]
      exact canonPairs_roundtrip p
    have hfinal := canonicalize_eq_some (p := ⟨p.scheme, hn, url1, Qe⟩)
      (by rw [ho_strip]; exact hparse2)
    rw [hfinal]
    show some (urlunparseModel (p.scheme.map Char.toLower) ((hostnameOf hn).map Char.toLower)
      (if url1.isEmpty then ['/'] else url1) (urlencodePairs (canonPairs
        ⟨p.scheme, hn, url1, Qe⟩))) = some o
    rw [hls_idem, hhost2, hcp2, ← qe_def, if_neg (by rw [htl]; simp)]
    congr 1
    rw [urlunparseModel_eq]
    have hC1b : ¬ hn.isEmpty ∨
        (¬ p.scheme.isEmpty ∧ decide (p.scheme ∈ usesNetloc) ∧ url1.take 2 ≠ ['/', '/']) := by
      rcases hC1 with h | h
      · exact Or.inl h
      · refine Or.inr ⟨h.1, h.2.1, ?_⟩
        rw [url1_def]
        split_ifs with hcond
        · intro hcon
          cases hpa2 : pa with
          | nil =>
              rw [hpa2] at hcon
              simp at hcon
          | cons x xs =>
              rw [hpa2] at hcon
              simp [List.take] at hcon
              exact hcond.2 (by rw [hpa2, hcon]; rfl)
        · exact h.2.2
    rw [if_pos hC1b]
    have hinner : (if ¬ url1.isEmpty ∧ url1.head? ≠ some '/' then '/' :: url1 else url1) =
        url1 := by
      rw [if_neg]
      intro hcon
      exact hcon.2 (by rw [htl]; rfl)
    rw [hinner]
    rw [ho]
  · -- no netloc is re-added: o = scheme? ++ pa ++ qs
    rw [if_neg hC1] at ho
    push_neg at hC1
    obtain ⟨hn_emp, hC1b⟩ := hC1
    have hn_nil : hn = [] := List.isEmpty_iff.mp hn_emp
    have htk_pa : pa.take 2 ≠ ['/', '/'] := by
      intro hcon
      refine hsl' ⟨?_, hcon⟩
      rw [hn_def] at hn_nil
      exact List.map_eq_nil_iff.mp hn_nil
    have hrem : p.scheme = [] ∨ decide (p.scheme ∈ usesNetloc) = false := by
      by_cases hse : p.scheme.isEmpty
      · exact Or.inl (List.isEmpty_iff.mp hse)
      · cases hcc : decide (p.scheme ∈ usesNetloc) with
        | false => exact Or.inr rfl
        | true => exact absurd htk_pa (by simpa using hC1b (by simpa using hse) (by rw [hcc]))
    have htk2 : (pa ++ qs).take 2 ≠ ['/', '/'] := by
      cases hpa2 : pa with
      | nil => exact absurd hpa2 hpa_ne
      | cons x xs =>
          cases xs with
          | nil =>
              rw [qs_def]
              split_ifs with hqe
              · rw [List.append_nil]
                intro hcon
                simp at hcon
              · intro hcon
                simp [List.take] at hcon
          | cons y ys =>
              intro hcon
              simp [List.take] at hcon
              rw [hpa2] at htk_pa
              exact htk_pa (by simp [List.take, hcon.1, hcon.2])
    have hfrag2 : (match splitOnFirst '#' (pa ++ qs) with
        | some q => q.1 | none => pa ++ qs) = pa ++ qs := by
      rw [splitOnFirst_not_mem]
      intro hm
      rcases List.mem_append.mp hm with h | h
      · exact (hpa_chars '#' h).2.1 rfl
      · exact (hqs_chars '#' h).1 rfl
    have hquery2 : (match splitOnFirst '?' (pa ++ qs) with
        | some q => q | none => (pa ++ qs, [])) = (pa, Qe) := by
      rw [qs_def]
      split_ifs with hqe
      · rw [List.append_nil]
        rw [splitOnFirst_not_mem (fun hm => (hpa_chars '?' hm).2.2 rfl)]
        rw [List.isEmpty_iff.mp hqe]
      · rw [splitOnFirst_append (fun hm => (hpa_chars '?' hm).2.2 rfl)]
    have hpar2 : (if decide (p.scheme ∈ usesParams) && pa.contains ';' then
        splitParamsPath pa else pa) = pa := by
      by_cases hcnd : (decide (p.scheme ∈ usesParams) && pa.contains ';') = true
      · rw [if_pos hcnd]
        exact lastSeg_no_semi_fix (hpa_lastseg (Bool.and_elim_left hcnd))
      · rw [if_neg hcnd]
    have hss2 : splitScheme o = (p.scheme, pa ++ qs) := by
      by_cases hse : p.scheme.isEmpty
      · have hsnil : p.scheme = [] := List.isEmpty_iff.mp hse
        rw [if_pos hse] at ho
        obtain ⟨hrestu, hfail⟩ := hls_nil hsnil
        rw [hsnil, ho]
        by_cases hcolpa : ':' ∈ pa
        · -- the first colon of u already failed the scheme test
          have hppa : pa = p.path := by
            rw [pa_def]
            split_ifs with hemp
            · exfalso
              rw [pa_def, if_pos hemp] at hcolpa
              exact absurd hcolpa (by decide)
            · rfl
          by_cases htake : rest.take 2 = ['/', '/']
          · -- parse 1 consumed "//": the path starts with '/'
            obtain ⟨hnl_eq, hr2_eq⟩ := hnet.2.1 htake
            have hr2head : r2 = [] ∨ r2.head? = some '/' ∨ r2.head? = some '?' ∨
                r2.head? = some '#' := by
              rw [hr2_eq]
              rcases dropWhile_head_not (p := fun c => ¬ netlocDelim c)
                  (l := (rest.drop 2)) with h | ⟨c, cs, hc, hpred⟩
              · exact Or.inl h
              · simp only [decide_eq_false_iff_not, Decidable.not_not] at hpred
                simp only [netlocDelim, Bool.or_eq_true, decide_eq_true_eq] at hpred
                rw [hc]
                rcases hpred with (he | he) | he
                · exact Or.inr (Or.inl (by rw [he]; rfl))
                · exact Or.inr (Or.inr (Or.inl (by rw [he]; rfl)))
                · exact Or.inr (Or.inr (Or.inr (by rw [he]; rfl)))
            have hpp := path_head_slash hr2head hfrag
              (congrArg Prod.fst hqsplit) hpar
            have hpahead : pa.head? = some '/' := by
              rw [pa_def]
              split_ifs with hemp
              · rfl
              · rcases hpp with h | h
                · exact absurd h (by simpa using hemp)
                · exact h
            refine splitScheme_head_not_alpha ?_
            cases hpa2 : pa with
            | nil => exact absurd hpa2 hpa_ne
            | cons x xs =>
                rw [hpa2] at hpahead
                simp only [List.head?_cons, Option.some_inj] at hpahead
                rw [List.cons_append]
                simp only [List.head?_cons, Option.getD_some]
                rw [hpahead]
                decide
          · -- relative reference: the path is a prefix of u
            obtain ⟨hnl_eq, hr2_eq⟩ := hnet.2.2 htake
            have hpref : ∃ t, u = p.path ++ t := by
              have hpref3 : ∃ t, r2 = rest3 ++ t := by
                cases hf : splitOnFirst '#' r2 with
                | none =>
                    rw [hf] at hfrag
                    exact ⟨[], by rw [← hfrag]; simp⟩
                | some q =>
                    rw [hf] at hfrag
                    have hfb : q.1 = rest3 := hfrag
                    obtain ⟨hx, _⟩ := splitOnFirst_eq_some (l := r2) (a := q.1) (b := q.2)
                      (by rw [hf])
                    exact ⟨'#' :: q.2, by rw [hx, hfb]⟩
              have hpref0 : ∃ t, rest3 = path0 ++ t := by
                cases hf : splitOnFirst '?' rest3 with
                | none =>
                    rw [hf] at hqsplit
                    have hfb : rest3 = path0 := congrArg Prod.fst hqsplit
                    exact ⟨[], by rw [← hfb]; simp⟩
                | some q =>
                    rw [hf] at hqsplit
                    have hfb : q.1 = path0 := congrArg Prod.fst hqsplit
                    obtain ⟨hx, _⟩ := splitOnFirst_eq_some (l := rest3) (a := q.1)
                      (b := q.2) (by rw [hf])
                    exact ⟨'?' :: q.2, by rw [hx, hfb]⟩
              have hprefp : ∃ t, path0 = p.path ++ t := by
                by_cases hcnd : (decide (p.scheme ∈ usesParams) && path0.contains ';') = true
                · rw [if_pos hcnd] at hpar
                  rw [← hpar]
                  exact splitParamsPath_suffix path0
                · rw [if_neg hcnd] at hpar
                  exact ⟨[], by rw [hpar]; simp⟩
              obtain ⟨t1, ht1⟩ := hpref3
              obtain ⟨t2, ht2⟩ := hpref0
              obtain ⟨t3, ht3⟩ := hprefp
              refine ⟨t3 ++ t2 ++ t1, ?_⟩
              rw [← hrestu, ← hr2_eq, ht1, ht2, ht3]
              simp
            obtain ⟨t, ht⟩ := hpref
            rw [hppa] at hcolpa
            obtain ⟨a, b, hab⟩ := splitOnFirst_mem_some hcolpa
            have habu : splitOnFirst ':' u = some (a, b ++ t) := by
              rw [ht]
              exact splitOnFirst_append_right hab t
            have hfa := hfail a (b ++ t) habu
            have habo : splitOnFirst ':' (pa ++ qs) = some (a, b ++ qs) := by
              rw [hppa]
              exact splitOnFirst_append_right hab qs
            exact splitScheme_none_of_fail habo hfa
        · -- no colon anywhere in the output
          refine splitScheme_no_colon ?_
          intro hm
          rcases List.mem_append.mp hm with h | h
          · exact hcolpa h
          · exact (hqs_chars ':' h).2 rfl
      · -- non-empty scheme not in uses_netloc
        have hsne : p.scheme ≠ [] := by simpa using hse
        rw [if_neg hse] at ho
        have ho2 : o = p.scheme ++ ':' :: (pa ++ qs) := by
          rw [ho]
          simp
        rw [ho2]
        rw [splitScheme_append hsne (hls_ne hsne).1 (hls_ne hsne).2
          (List.all_eq_true.mpr hls_all)]
        rw [hls_idem]
    have hnet2 : (if (pa ++ qs).take 2 = ['/', '/'] then splitNetloc (pa ++ qs)
        else ([], pa ++ qs)) = (([] : List Char), pa ++ qs) := by
      rw [if_neg htk2]
    have hparse2 : urlparseModel o = some ⟨p.scheme, [], pa, Qe⟩ :=
      urlparseModel_eq_general o p.scheme (pa ++ qs) [] (pa ++ qs) (pa ++ qs) pa pa Qe
        ho_cln hss2 hnet2 (by rfl) hfrag2 hquery2 hpar2
    have hcp2 : canonPairs ⟨p.scheme, [], pa, Qe⟩ = canonPairs p := by
      show sortPairs ((parseQsl Qe).filter (fun kv => ¬ kv.1 ∈ TRACKERS)) = canonPairs p
      rw [qe_def]
      exact canonPairs_roundtrip p
    have hfinal := canonicalize_eq_some (p := ⟨p.scheme, [], pa, Qe⟩)
      (by rw [ho_strip]; exact hparse2)
    rw [hfinal]
    show some (urlunparseModel (p.scheme.map Char.toLower)
      ((hostnameOf []).map Char.toLower) (if pa.isEmpty then ['/'] else pa)
      (urlencodePairs (canonPairs ⟨p.scheme, [], pa, Qe⟩))) = some o
    rw [hls_idem, hcp2, ← qe_def, if_neg (by simpa using hpa_ne)]
    have hhost0 : (hostnameOf []).map Char.toLower = ([] : List Char) := rfl
    rw [hhost0]
    congr 1
    rw [urlunparseModel_eq]
    have hC1c : ¬ (¬ ([] : List Char).isEmpty ∨
        (¬ p.scheme.isEmpty ∧ decide (p.scheme ∈ usesNetloc) ∧
          pa.take 2 ≠ ['/', '/'])) := by
      push_neg
      refine ⟨by simp, fun hse hun => ?_⟩
      rcases hrem with h | h
      · exact absurd h (by simpa using hse)
      · rw [h] at hun
        cases hun
    rw [if_neg hC1c]
    rw [ho]

theorem slashConfused_spec {l : List Char} (h : slashConfused l = false) :
    ∀ q, urlparseModel (pyStrip l) = some q →
      ¬ (hostnameOf q.netloc = [] ∧
         (if q.path.isEmpty then ['/'] else q.path).take 2 = ['/', '/']) := by
  intro q hq hcon
  unfold slashConfused at h
  rw [hq] at h
  have h2 : (decide (hostnameOf q.netloc = []) &&
      decide ((if q.path.isEmpty then ['/'] else q.path).take 2 = ['/', '/'])) = false := h
  simp only [Bool.and_eq_false_iff, decide_eq_false_iff_not] at h2
  rcases h2 with h2 | h2
  · exact h2 hcon.1
  · exact h2 hcon.2

theorem canonicalizeS_fix (u : String)
    (hchars : u.toList.all
      (fun c => decide (0x20 < c.toNat) && !pyIsSpace c && !(c = '[')) = true)
    (hsl : slashConfused u.toList = false) :
    (canonicalizeS u).bind canonicalizeS = canonicalizeS u := by
  have hall := List.all_eq_true.mp hchars
  have hpc : ∀ c ∈ u.toList, 0x20 < c.toNat ∧ pyIsSpace c = false := by
    intro c hc
    have := hall c hc
    simp only [Bool.and_eq_true, decide_eq_true_eq, Bool.not_eq_true'] at this
    exact ⟨this.1.1, this.1.2⟩
  have hbru : '[' ∉ u.toList := by
    intro hm
    have := hall '[' hm
    simp at this
  unfold canonicalizeS
  cases hc : canonicalize u.toList with
  | none => rfl
  | some o =>
      have hfix := canonicalize_fix hpc hbru (slashConfused_spec hsl) hc
      simp only [Option.map_some', Option.some_bind]
      show (canonicalize (o.asString).toList).map List.asString = some o.asString
      rw [show (o.asString).toList = o from rfl, hfix]
      rfl

theorem canonPairs_exact_trackers (p : ParsedUrl) (kv : List Char × List Char) :
    kv ∈ canonPairs p ↔ (kv ∈ parseQsl p.query ∧ ¬ kv.1 ∈ TRACKERS) := by
  unfold canonPairs
  rw [sortPairs_mem, List.mem_filter]
  simp

/-- **C5 (amended).**  Canonicalization is idempotent for every URL whose
characters are all above `0x20`, non-whitespace and free of `[` and whose
parse does not leave an empty hostname next to a rebuilt path starting `//`
(`canonicalize (canonicalize u) = canonicalize u` on that class); it strips
exactly the tracking-parameter denylist (a pair survives into the canonical
query iff `parse_qsl` produced it and its name is not in `TRACKERS`); and it
is insensitive to query-parameter order, so the two spec example URLs
canonicalize identically. -/
theorem claim_C5_canonicalize :
    (∀ u : String,
      u.toList.all (fun c => decide (0x20 < c.toNat) && !pyIsSpace c && !(c = '[')) = true →
      slashConfused u.toList = false →
      (canonicalizeS u).bind canonicalizeS = canonicalizeS u) ∧
    (∀ (p : ParsedUrl) (kv : List Char × List Char),
      kv ∈ canonPairs p ↔ (kv ∈ parseQsl p.query ∧ ¬ kv.1 ∈ TRACKERS)) ∧
    canonicalizeS "https://x.com/a?b=1&utm_source=y" =
      canonicalizeS "https://x.com/a?utm_source=y&b=1" :=
  ⟨canonicalizeS_fix, canonPairs_exact_trackers, by decide⟩

/-- **C5 (counterexample).**  Unrestricted idempotence fails: a space kept
alive by a dropped fragment is stripped only on the second pass
(`"http://h/p #x"` to `"http://h/p "` to `"http://h/p"`), a bracketed IPv6
host loses its brackets and then its hostname, and `"////x"` turns its path
into a netloc on re-parse. -/
theorem claim_C5_counterexample :
    canonicalizeS "http://h/p #x" = some "http://h/p " ∧
    (canonicalizeS "http://h/p #x").bind canonicalizeS = some "http://h/p" ∧
    (canonicalizeS "http://h/p #x").bind canonicalizeS ≠ canonicalizeS "http://h/p #x" ∧
    (canonicalizeS "http://[::1]/p").bind canonicalizeS ≠ canonicalizeS "http://[::1]/p" ∧
    (canonicalizeS "////x").bind canonicalizeS ≠ canonicalizeS "////x" := by
  refine ⟨by decide, by decide, by decide, by decide, by decide⟩

/-- Witness for C5: the amended theorem applied to a concrete URL with an
upper-case scheme and host, a port, a percent escape and a tracking
parameter, and to a concrete query pair. -/
theorem claim_C5_witness :
    (canonicalizeS "HTTP://Ex.com:80/A/b?z=2&utm_source=tw&a=1%20x").bind canonicalizeS =
      canonicalizeS "HTTP://Ex.com:80/A/b?z=2&utm_source=tw&a=1%20x" ∧
    (("b".toList, "1".toList) ∈ canonPairs ⟨"https".toList, "x.com".toList, "/a".toList,
        "b=1&utm_source=y".toList⟩ ↔
      (("b".toList, "1".toList) ∈ parseQsl "b=1&utm_source=y".toList ∧
        ¬ "b".toList ∈ TRACKERS)) :=
  ⟨claim_C5_canonicalize.1 "HTTP://Ex.com:80/A/b?z=2&utm_source=tw&a=1%20x"
      (by decide) (by decide),
    claim_C5_canonicalize.2.1 _ _⟩

end EfiCorpus
